import Mathlib

/-!
Verification of the `file-mst` Merkle Search Tree library.

This file contains a shallow embedding of the library's core data
structure and algorithms (`src/node.rs`, `src/tree.rs`, `src/store.rs`)
together with proofs and refutations of the specification claims.

Modelling conventions, used throughout:

* `Arc` sharing is dropped: `Arc<K>`, `Arc<V>`, `Arc<Node>` are modelled
  as plain values (the source never mutates shared nodes, so sharing is
  semantically invisible).
* In the pure tree model, a `Link` that is `Disk { offset, hash }` is
  modelled by the in-memory node that `Store::load_node` would return for
  that offset: the pure algorithms (`put`, `split`, `delete`, `merge`,
  `get`, `contains`) treat a `Disk` link exactly like the loaded node at
  every use site.  I/O and decode failures of `load_node` are modelled
  separately in the store-level model used for the storage claims.
* The 32-byte blake3 digest of a node is modelled symbolically by the
  inductive type `Digest`, whose `node` constructor records exactly the
  data that `Node::rehash` feeds to the hasher: the node level, the key
  count, and, for each child index, the child digest followed (when the
  index is below the key count) by the length-prefixed encoded key and
  value.  Equality of symbolic digests corresponds to equality of hasher
  input streams; this is the standard collision-freeness idealisation of
  a cryptographic hash, together with injectivity of the (external)
  `postcard` encoding at a fixed type.  The stored `hash` field, which
  `rehash` recomputes at every construction site of the source, is
  modelled as the derived function `Node.hash`.
* Rust `binary_search_by` on the node's key vector is modelled by
  `keyFind`, a linear scan computing the unique result permitted by the
  documented contract of `slice::binary_search_by` on a strictly sorted
  slice: `.inl i` when the key is at index `i`, otherwise `.inr i` where
  `i` is the insertion point.  All reachable nodes have strictly sorted
  keys, and on sorted input the contract determines the result uniquely,
  so the scan is an exact model there; on unsorted input the contract
  makes no promise at all.
* Vector indexing that can panic in the source (`children[idx]`,
  `values[idx] = v`, `Vec::remove`, `Vec::insert`, `pop().expect(..)`)
  is modelled by the total list operations (`getD` / `getElem?` /
  `List.set` / `List.eraseIdx` / `List.insertIdx`), each annotated at its
  use site.  The panicking branches are unreachable for well-formed
  trees, which is what every theorem below assumes.
-/

set_option maxHeartbeats 1000000

namespace FileMst

/-- In-memory node of the Merkle Search Tree, from `Node` in
`src/node.rs`: a level, parallel vectors of keys and values, and the
child links (here: the resolved child nodes).  The stored `hash` field is
modelled by the derived function `Node.hash` below. -/
inductive Node (K V : Type) : Type where
  | mk (level : Nat) (keys : List K) (values : List V) (children : List (Node K V))

namespace Node

variable {K V : Type}

/-- Projection: the `level` field. -/
def level : Node K V → Nat
  | .mk l _ _ _ => l

/-- Projection: the `keys` field. -/
def keys : Node K V → List K
  | .mk _ ks _ _ => ks

/-- Projection: the `values` field. -/
def values : Node K V → List V
  | .mk _ _ vs _ => vs

/-- Projection: the `children` field. -/
def children : Node K V → List (Node K V)
  | .mk _ _ _ cs => cs

theorem sizeOf_lt_of_mem_children [SizeOf K] [SizeOf V] {c t : Node K V}
    (h : c ∈ t.children) : sizeOf c < sizeOf t := by
  cases t with
  | mk l ks vs cs =>
    simp only [children] at h
    have := List.sizeOf_lt_of_mem h
    simp only [mk.sizeOf_spec]
    omega

/-- `Node::empty(level)` from `src/node.rs`: no keys, no values, no
children.  (The source also sets the hash field via `rehash`; the hash is
derived in this model.) -/
def empty (level : Nat) : Node K V := .mk level [] [] []

end Node

/-- Symbolic model of a 32-byte blake3 digest.  `zero` is the all-zero
digest of an empty node; `node` records exactly the hasher input of
`Node::rehash`: the level, the key count, and for each child in order its
digest paired with the key/value entry hashed right after it (present
exactly when the child index is below the key count). -/
inductive Digest (K V : Type) : Type where
  | zero
  | node (level : Nat) (numKeys : Nat) (stream : List (Digest K V × Option (K × V)))

mutual

/-- `Node::rehash` from `src/node.rs`, as a derived digest: an empty node
(no keys and no children) has the all-zero digest; otherwise the digest
is a function of the level, the key count, and the interleaved stream of
child digests and key/value entries. -/
def Node.hash {K V : Type} : Node K V → Digest K V
  | .mk level keys values children =>
    if keys.isEmpty && children.isEmpty then .zero
    else .node level keys.length (Node.hashStream keys values children)

/-- The per-child hasher updates of `Node::rehash`: child `i`'s digest,
followed by the encoded `(keys[i], values[i])` entry when `i` is below
the key count.  (If the value vector is shorter than the key vector the
source panics inside `rehash`; such nodes are not well-formed.) -/
def Node.hashStream {K V : Type} :
    List K → List V → List (Node K V) → List (Digest K V × Option (K × V))
  | _, _, [] => []
  | ks, vs, c :: cs =>
    (Node.hash c,
      match ks, vs with
      | k :: _, v :: _ => some (k, v)
      | _, _ => none) :: Node.hashStream ks.tail vs.tail cs

end

/-- Model of Rust `slice::binary_search_by` on the key vector, as the
unique result the documented contract permits on a strictly sorted
slice: `.inl i` if the probe at index `i` compares equal to the key,
`.inr i` with the insertion point `i` otherwise.  (On an unsorted slice
the contract specifies nothing; no reachable node is unsorted.) -/
def keyFind {K : Type} [LinearOrder K] : List K → K → Nat ⊕ Nat
  | [], _ => .inr 0
  | x :: xs, k =>
    if k < x then .inr 0
    else if x < k then
      match keyFind xs k with
      | .inl i => .inl (i + 1)
      | .inr i => .inr (i + 1)
    else .inl 0

namespace Node

variable {K V : Type} [LinearOrder K]

/-- `Node::split` from `src/node.rs`.  An empty node splits into two
empty nodes at the same level.  Otherwise the keys and values are cut at
the binary-search index of the split key (the key itself, when present
exactly at that index, goes to neither side), the boundary child at that
index is split recursively, and its halves become the last child of the
left result and the first child of the right result.  The source guards
the boundary-child access with `idx < self.children.len()`, modelled by
the match on `children[idx]?`; slicing (`[..idx]`, `[idx + 1..]`) is
modelled by `take`/`drop`, which agree with the source for the in-bounds
indices produced on well-formed nodes. -/
def split (t : Node K V) (splitKey : K) : Node K V × Node K V :=
  match t with
  | .mk level keys values children =>
    if keys.isEmpty && children.isEmpty then
      (Node.empty level, Node.empty level)
    else
      let idx := match keyFind keys splitKey with
        | .inl i => i
        | .inr i => i
      let rightStart := if keys[idx]? = some splitKey then idx + 1 else idx
      let mids := match h : children[idx]? with
        | some c => split c splitKey
        | none => (Node.empty 0, Node.empty 0)
      (Node.mk level (keys.take idx) (values.take idx)
        (children.take idx ++ [mids.1]),
       Node.mk level (keys.drop rightStart) (values.drop rightStart)
        (mids.2 :: children.drop (idx + 1)))
termination_by sizeOf t
decreasing_by
  simp only [Node.mk.sizeOf_spec]
  have := List.sizeOf_lt_of_mem (List.getElem?_mem h)
  omega

/-- `Node::put` from `src/node.rs`, the history-independent insert.
Case (a) `keyLevel > level`: split this subtree on the key and make a new
root for it at `keyLevel`.  Case (b) `keyLevel = level`: replace the
value on an exact match; otherwise split the child at the insertion
point (an empty node at `level - 1` when the node has no children) and
splice the new entry in.  Case (c): descend; a fully empty node is
replaced by a fresh singleton node at `keyLevel` with two empty level-0
children.  The child access `children[idx]` in the descent panics in the
source when out of bounds; that branch (the final `none case`) is
unreachable for well-formed trees and returns the node unchanged. -/
def put (t : Node K V) (key : K) (value : V) (keyLevel : Nat) : Node K V :=
  match t with
  | .mk level keys values children =>
    if keyLevel > level then
      let lr := (Node.mk level keys values children).split key
      Node.mk keyLevel [key] [value] [lr.1, lr.2]
    else if keyLevel = level then
      match keyFind keys key with
      | .inl idx => Node.mk level keys (values.set idx value) children
      | .inr idx =>
        let childToSplit := if children.isEmpty then Node.empty (level - 1)
          else children.getD idx (Node.empty 0)
        let lr := childToSplit.split key
        Node.mk level (keys.insertIdx idx key) (values.insertIdx idx value)
          (if children.isEmpty then [lr.1, lr.2]
           else (children.set idx lr.1).insertIdx (idx + 1) lr.2)
    else if keys.isEmpty && children.isEmpty then
      Node.mk keyLevel [key] [value] [Node.empty 0, Node.empty 0]
    else
      match keyFind keys key with
      | .inl idx => Node.mk level keys (values.set idx value) children
      | .inr idx =>
        match h : children[idx]? with
        | some c =>
          Node.mk level keys values (children.set idx (put c key value keyLevel))
        | none => Node.mk level keys values children
termination_by sizeOf t
decreasing_by
  simp only [Node.mk.sizeOf_spec]
  have := List.sizeOf_lt_of_mem (List.getElem?_mem h)
  omega

/-- `Node::merge` from `src/node.rs`: combines two subtrees whose key
ranges are disjoint.  Either side being the fully empty node returns the
other side.  A taller left pops its rightmost child, merges it with the
right side and pushes the result back; a taller right is symmetric at
its left edge.  At equal levels the boundary children are merged and the
right node's keys, values and remaining children are appended to the
left node's.  The source panics (`remove` on an empty vector /
`pop().expect`) when a non-empty node has no children; those fall-back
branches are unreachable for well-formed trees. -/
def merge (l r : Node K V) : Node K V :=
  if l.keys.isEmpty && l.children.isEmpty then r
  else if r.keys.isEmpty && r.children.isEmpty then l
  else if r.level < l.level then
    match h : l.children.getLast? with
    | some lc =>
      Node.mk l.level l.keys l.values (l.children.dropLast ++ [merge lc r])
    | none => l
  else if l.level < r.level then
    match h : r.children.head? with
    | some rc =>
      Node.mk r.level r.keys r.values (merge l rc :: r.children.tail)
    | none => r
  else
    match h1 : l.children.getLast?, h2 : r.children.head? with
    | some lb, some rb =>
      Node.mk l.level (l.keys ++ r.keys) (l.values ++ r.values)
        (l.children.dropLast ++ [merge lb rb] ++ r.children.tail)
    | _, _ =>
      Node.mk l.level (l.keys ++ r.keys) (l.values ++ r.values)
        (l.children ++ r.children)
termination_by sizeOf l + sizeOf r
decreasing_by
  · have := Node.sizeOf_lt_of_mem_children (List.mem_of_mem_getLast? h)
    omega
  · have := Node.sizeOf_lt_of_mem_children (List.mem_of_mem_head? h)
    omega
  · have hl := Node.sizeOf_lt_of_mem_children (List.mem_of_mem_getLast? h1)
    have hr := Node.sizeOf_lt_of_mem_children (List.mem_of_mem_head? h2)
    omega

/-- `Node::delete` from `src/node.rs`: returns the new node and whether
a key was removed.  On an exact match the entry and its two bracketing
children are removed and the merge of those children is inserted in
their place.  On a miss, a leaf reports `false`; otherwise the result of
deleting in the child at the insertion point replaces that child when
the recursive call deleted something.  The bracketing-children accesses
(`Vec::remove`) panic in the source when out of bounds; `getD` /
`eraseIdx` / the `none` branch model those unreachable-for-well-formed
cases totally. -/
def delete (t : Node K V) (key : K) : Node K V × Bool :=
  match t with
  | .mk level keys values children =>
    match keyFind keys key with
    | .inl idx =>
      let leftChild := children.getD idx (Node.empty 0)
      let rightChild := children.getD (idx + 1) (Node.empty 0)
      let merged := merge leftChild rightChild
      (Node.mk level (keys.eraseIdx idx) (values.eraseIdx idx)
        (((children.eraseIdx idx).eraseIdx idx).insertIdx idx merged), true)
    | .inr idx =>
      if children.isEmpty then (Node.mk level keys values children, false)
      else
        match h : children[idx]? with
        | none => (Node.mk level keys values children, false)
        | some c =>
          let res := delete c key
          if res.2 then
            (Node.mk level keys values (children.set idx res.1), true)
          else (Node.mk level keys values children, false)
termination_by sizeOf t
decreasing_by
  simp only [Node.mk.sizeOf_spec]
  have := List.sizeOf_lt_of_mem (List.getElem?_mem h)
  omega

/-- `Node::get` from `src/node.rs`: binary-search this node's keys; on a
match return the value at that index; otherwise descend into the child
at the insertion point, or report `none` at a leaf.  The source indexes
`values[idx]` and `children[idx]` directly (panicking out of bounds);
both accesses are in bounds on well-formed nodes. -/
def get (t : Node K V) (key : K) : Option V :=
  match t with
  | .mk _ keys values children =>
    match keyFind keys key with
    | .inl idx => values[idx]?
    | .inr idx =>
      if children.isEmpty then none
      else
        match h : children[idx]? with
        | some c => get c key
        | none => none
termination_by sizeOf t
decreasing_by
  simp only [Node.mk.sizeOf_spec]
  have := List.sizeOf_lt_of_mem (List.getElem?_mem h)
  omega

/-- `Node::contains` from `src/node.rs`: same descent as `get`, returning
only presence. -/
def containsKey (t : Node K V) (key : K) : Bool :=
  match t with
  | .mk _ keys _ children =>
    match keyFind keys key with
    | .inl _ => true
    | .inr idx =>
      if children.isEmpty then false
      else
        match h : children[idx]? with
        | some c => containsKey c key
        | none => false
termination_by sizeOf t
decreasing_by
  simp only [Node.mk.sizeOf_spec]
  have := List.sizeOf_lt_of_mem (List.getElem?_mem h)
  omega

/-- The multiset of all keys stored in a subtree (this node's keys
together with those of all descendants).  Used to state which keys an
operation touches; the source has no direct counterpart (it never
iterates a subtree), so this is a specification-side measure over the
embedded structure. -/
def keysM (t : Node K V) : Multiset K :=
  match t with
  | .mk _ keys _ children =>
    (keys : Multiset K) + (children.attach.map fun c => keysM c.1).sum
termination_by sizeOf t
decreasing_by
  have := List.sizeOf_lt_of_mem c.2
  simp only [Node.mk.sizeOf_spec]
  omega

end Node

/-- An optional strict lower bound: `x` is above `lo` when `lo` is
present. -/
def lbB {K : Type} [LinearOrder K] (lo : Option K) (x : K) : Bool :=
  match lo with
  | none => true
  | some l => decide (l < x)

/-- An optional strict upper bound: `x` is below `hi` when `hi` is
present. -/
def ubB {K : Type} [LinearOrder K] (hi : Option K) (x : K) : Bool :=
  match hi with
  | none => true
  | some h => decide (x < h)

/-- Strict ascending chain check for a key list inside the open interval
given by the optional bounds: each key lies strictly between its
predecessor (or `lo`) and `hi`. -/
def sortedB {K : Type} [LinearOrder K] : Option K → Option K → List K → Bool
  | _, _, [] => true
  | lo, hi, x :: xs => lbB lo x && ubB hi x && sortedB (some x) hi xs

mutual

/-- Well-formedness of a subtree within optional key bounds, the
order-and-shape part of the spec's global invariants 1-2 and of the data
model: keys strictly ascending (within the bounds), the value vector
parallel to the key vector, children either absent (only for a fully
empty node) or exactly one more than the keys, and each child confined
to the open interval between the adjacent keys.  Every tree reachable
through the library API satisfies this; the level-related invariants are
not needed by any theorem below and are not included. -/
def Node.wfb {K V : Type} [LinearOrder K] :
    Node K V → Option K → Option K → Bool
  | .mk _ keys values children, lo, hi =>
    sortedB lo hi keys && values.length == keys.length &&
    (if children.isEmpty then keys.isEmpty
     else children.length == keys.length + 1 &&
        Node.wfChildren lo hi keys children)

/-- The per-child bound discipline: child `i` lives strictly between
key `i - 1` (or `lo`) and key `i` (or `hi` for the last child). -/
def Node.wfChildren {K V : Type} [LinearOrder K] :
    Option K → Option K → List K → List (Node K V) → Bool
  | _, _, _, [] => false
  | lo, hi, ks, c :: cs =>
    match ks, cs with
    | [], [] => c.wfb lo hi
    | k :: ks', _ :: _ => c.wfb lo (some k) && Node.wfChildren (some k) hi ks' cs
    | _, _ => false

end

/-- A tree is well-formed when its root is well-formed with no outer
bounds. -/
def Node.WF {K V : Type} [LinearOrder K] (t : Node K V) : Prop :=
  t.wfb none none = true

/-- The tree facade from `src/tree.rs`, restricted to its pure state: the
current root link, with `Disk` links resolved to their nodes (see the
module comment).  The store handle and `last_committed` only matter for
the storage claims and live in the store-level model below. -/
structure MerkleSearchTree (K V : Type) : Type where
  root : Node K V

namespace MerkleSearchTree

variable {K V : Type} [LinearOrder K]

/-- A fresh tree, as built by `MerkleSearchTree::new_temporary` (and by
`open` on a file without a committed root): a loaded empty node at
level 0. -/
def newTree : MerkleSearchTree K V := ⟨Node.empty 0⟩

/-- `MerkleSearchTree::insert` from `src/tree.rs`: compute the key's
level and `put` it into the resolved root; the returned node becomes the
new root.  `calcLevel` stands for `Node::calc_level`, which hashes the
postcard encoding of the key with blake3 and counts leading zero
nibbles; the blake3 hash is modelled as an uninterpreted function, so
the level map is passed as a parameter. -/
def insert (calcLevel : K → Nat) (t : MerkleSearchTree K V) (key : K) (value : V) :
    MerkleSearchTree K V :=
  ⟨t.root.put key value (calcLevel key)⟩

/-- Insert a list of pairs left to right (each call as
`MerkleSearchTree::insert`). -/
def insertList (calcLevel : K → Nat) (t : MerkleSearchTree K V)
    (pairs : List (K × V)) : MerkleSearchTree K V :=
  pairs.foldl (fun acc kv => acc.insert calcLevel kv.1 kv.2) t

/-- `MerkleSearchTree::remove` from `src/tree.rs`: delete in the resolved
root; keep the tree untouched when nothing was deleted; otherwise
install the new root, first collapsing a keyless root with children to
its child 0.  (`children[0]` is in bounds by the guard.) -/
def remove (t : MerkleSearchTree K V) (key : K) : MerkleSearchTree K V :=
  let res := t.root.delete key
  if !res.2 then t
  else if res.1.keys.isEmpty && !res.1.children.isEmpty then
    ⟨res.1.children.getD 0 (Node.empty 0)⟩
  else ⟨res.1⟩

/-- `MerkleSearchTree::get` from `src/tree.rs`. -/
def get (t : MerkleSearchTree K V) (key : K) : Option V :=
  t.root.get key

/-- `MerkleSearchTree::contains` from `src/tree.rs`. -/
def contains (t : MerkleSearchTree K V) (key : K) : Bool :=
  t.root.containsKey key

/-- `MerkleSearchTree::root_hash` from `src/tree.rs`: the root link's
digest, without I/O. -/
def rootHash (t : MerkleSearchTree K V) : Digest K V :=
  t.root.hash

end MerkleSearchTree

/-! ### Basic facts about `keyFind` -/

section KeyFindLemmas

variable {K : Type} [LinearOrder K] {k x : K} {ks : List K} {i : Nat}

theorem keyFind_inl_lt_length (h : keyFind ks k = .inl i) : i < ks.length := by
  induction ks generalizing i with
  | nil => simp [keyFind] at h
  | cons x xs ih =>
    simp only [keyFind] at h
    split at h
    · exact absurd h (by simp)
    · split at h
      · split at h
        · rename_i j hj
          cases h
          simpa using ih hj
        · exact absurd h (by simp)
      · cases h
        simp

theorem keyFind_inl_getElem (h : keyFind ks k = .inl i) : ks[i]? = some k := by
  induction ks generalizing i with
  | nil => simp [keyFind] at h
  | cons x xs ih =>
    simp only [keyFind] at h
    split at h
    · exact absurd h (by simp)
    · split at h
      · split at h
        · rename_i j hj
          cases h
          simpa using ih hj
        · exact absurd h (by simp)
      · rename_i h1 h2
        cases h
        have : x = k := le_antisymm (not_lt.mp h1) (not_lt.mp h2)
        simp [this]

theorem keyFind_inl_mem (h : keyFind ks k = .inl i) : k ∈ ks :=
  List.getElem?_mem (keyFind_inl_getElem h)

theorem keyFind_inr_le_length (h : keyFind ks k = .inr i) : i ≤ ks.length := by
  induction ks generalizing i with
  | nil => simp only [keyFind] at h; cases h; simp
  | cons x xs ih =>
    simp only [keyFind] at h
    split at h
    · cases h; simp
    · split at h
      · split at h
        · exact absurd h (by simp)
        · rename_i j hj
          cases h
          simpa using ih hj
      · exact absurd h (by simp)

/-- Every element of the prefix that `keyFind` scanned past is strictly
below the probe key (this is forced by the scan itself, with no
sortedness assumption). -/
theorem keyFind_take_lt
    (h : keyFind ks k = .inl i ∨ keyFind ks k = .inr i) :
    ∀ x ∈ ks.take i, x < k := by
  induction ks generalizing i with
  | nil => simp
  | cons y ys ih =>
    have main : ∀ j, (keyFind ys k = .inl j ∨ keyFind ys k = .inr j) →
        y < k → i = j + 1 → ∀ x ∈ (y :: ys).take i, x < k := by
      rintro j hj hyk rfl x hx
      rw [List.take_succ_cons] at hx
      rcases List.mem_cons.mp hx with rfl | hx
      · exact hyk
      · exact ih hj x hx
    rcases h with h | h <;> simp only [keyFind] at h
    · split at h
      · exact absurd h (by simp)
      · rename_i h1
        split at h
        · rename_i h2
          split at h
          · rename_i j hj
            cases h
            exact main j (Or.inl hj) h2 rfl
          · exact absurd h (by simp)
        · cases h
          simp
    · split at h
      · cases h; simp
      · rename_i h1
        split at h
        · rename_i h2
          split at h
          · exact absurd h (by simp)
          · rename_i j hj
            cases h
            exact main j (Or.inr hj) h2 rfl
        · exact absurd h (by simp)

/-- Inserting the probe key at the insertion point that `keyFind`
reported makes a subsequent `keyFind` land exactly there. -/
theorem keyFind_insertIdx (h : keyFind ks k = .inr i) :
    keyFind (ks.insertIdx i k) k = .inl i := by
  induction ks generalizing i with
  | nil =>
    simp only [keyFind] at h
    cases h
    simp [keyFind]
  | cons x xs ih =>
    simp only [keyFind] at h
    by_cases h1 : k < x
    · rw [if_pos h1] at h
      cases h
      simp only [List.insertIdx_zero, keyFind]
      rw [if_neg (lt_irrefl k), if_neg (lt_irrefl k)]
    · rw [if_neg h1] at h
      by_cases h2 : x < k
      · rw [if_pos h2] at h
        cases hj : keyFind xs k with
        | inl j => rw [hj] at h; exact absurd h (by simp)
        | inr j =>
          rw [hj] at h
          simp only at h
          cases h
          rw [List.insertIdx_succ_cons]
          simp only [keyFind]
          rw [if_neg h1, if_pos h2, ih hj]
      · rw [if_neg h2] at h
        exact absurd h (by simp)

end KeyFindLemmas

/-! ### Bounds, sortedness, and key-multiset lemmas -/

section BoundsLemmas

variable {K V : Type} [LinearOrder K] {lo hi : Option K} {a x k : K} {ks : List K}

theorem lbB_trans_le (h : lbB lo a = true) (hax : a ≤ x) : lbB lo x = true := by
  cases lo with
  | none => rfl
  | some l => simp only [lbB, decide_eq_true_eq] at *; exact lt_of_lt_of_le h hax

theorem ubB_trans_le (h : ubB hi a = true) (hxa : x ≤ a) : ubB hi x = true := by
  cases hi with
  | none => rfl
  | some u => simp only [ubB, decide_eq_true_eq] at *; exact lt_of_le_of_lt hxa h

theorem sortedB_cons_iff {xs : List K} :
    sortedB lo hi (x :: xs) = true ↔
      lbB lo x = true ∧ ubB hi x = true ∧ sortedB (some x) hi xs = true := by
  simp [sortedB, Bool.and_assoc]

theorem sortedB_mem_bounds (h : sortedB lo hi ks = true) (hx : x ∈ ks) :
    lbB lo x = true ∧ ubB hi x = true := by
  induction ks generalizing lo with
  | nil => cases hx
  | cons y ys ih =>
    rw [sortedB_cons_iff] at h
    rcases List.mem_cons.mp hx with rfl | hx
    · exact ⟨h.1, h.2.1⟩
    · have := ih h.2.2 hx
      exact ⟨lbB_trans_le h.1 (le_of_lt (by simpa [lbB] using this.1)), this.2⟩

theorem sortedB_cons_lt {xs : List K} (h : sortedB lo hi (x :: xs) = true)
    (hy : a ∈ xs) : x < a := by
  rw [sortedB_cons_iff] at h
  simpa [lbB] using (sortedB_mem_bounds h.2.2 hy).1

theorem sortedB_getElem_le_drop {i : Nat} (h : sortedB lo hi ks = true)
    (ha : ks[i]? = some a) (hx : x ∈ ks.drop i) : a ≤ x := by
  induction ks generalizing i lo with
  | nil => simp at ha
  | cons y ys ih =>
    cases i with
    | zero =>
      simp only [List.getElem?_cons_zero, Option.some.injEq] at ha
      subst ha
      rcases List.mem_cons.mp (by simpa using hx) with rfl | hx
      · exact le_rfl
      · exact le_of_lt (sortedB_cons_lt h hx)
    | succ j =>
      rw [sortedB_cons_iff] at h
      exact ih h.2.2 (by simpa using ha) (by simpa using hx)

theorem sortedB_getElem_lt_drop_succ {i : Nat} (h : sortedB lo hi ks = true)
    (ha : ks[i]? = some a) (hx : x ∈ ks.drop (i + 1)) : a < x := by
  induction ks generalizing i lo with
  | nil => simp at ha
  | cons y ys ih =>
    cases i with
    | zero =>
      simp only [List.getElem?_cons_zero, Option.some.injEq] at ha
      subst ha
      exact sortedB_cons_lt h (by simpa using hx)
    | succ j =>
      rw [sortedB_cons_iff] at h
      exact ih h.2.2 (by simpa using ha) (by simpa using hx)

/-- `keyFind` only stops with an insertion point at a strictly larger
element (by the scan's stopping rule, with no sortedness needed). -/
theorem keyFind_inr_getElem_gt {i : Nat} (h : keyFind ks k = .inr i)
    (ha : ks[i]? = some a) : k < a := by
  induction ks generalizing i with
  | nil => simp at ha
  | cons y ys ih =>
    simp only [keyFind] at h
    split at h
    · cases h
      simp only [List.getElem?_cons_zero, Option.some.injEq] at ha
      subst ha
      assumption
    · split at h
      · split at h
        · exact absurd h (by simp)
        · rename_i j hj
          cases h
          exact ih hj (by simpa using ha)
      · exact absurd h (by simp)

end BoundsLemmas

section KeysMLemmas

variable {K V : Type} [LinearOrder K]

theorem Node.keysM_mk {l : Nat} {ks : List K} {vs : List V} {cs : List (Node K V)} :
    (Node.mk l ks vs cs).keysM = (ks : Multiset K) + (cs.map Node.keysM).sum := by
  rw [Node.keysM]
  congr 1
  rw [List.attach_map_val cs Node.keysM]

theorem Node.mem_keysM_of_mem_keys {t : Node K V} {x : K} (hx : x ∈ t.keys) :
    x ∈ t.keysM := by
  cases t with
  | mk l ks vs cs =>
    rw [Node.keysM_mk]
    simp only [Node.keys] at hx
    exact Multiset.mem_add.mpr (Or.inl (by simpa using hx))

theorem mem_listSum_of_mem {α : Type} {x : α} {ms : List (Multiset α)}
    {m : Multiset α} (hm : m ∈ ms) (hx : x ∈ m) : x ∈ ms.sum := by
  induction ms with
  | nil => cases hm
  | cons m0 ms' ih =>
    rw [List.sum_cons, Multiset.mem_add]
    rcases List.mem_cons.mp hm with rfl | hm
    · exact Or.inl hx
    · exact Or.inr (ih hm)

theorem mem_of_mem_listSum {α : Type} {x : α} {ms : List (Multiset α)}
    (hx : x ∈ ms.sum) : ∃ m ∈ ms, x ∈ m := by
  induction ms with
  | nil => simp at hx
  | cons m0 ms' ih =>
    rw [List.sum_cons, Multiset.mem_add] at hx
    rcases hx with hx | hx
    · exact ⟨m0, List.mem_cons_self .., hx⟩
    · rcases ih hx with ⟨m, hm, hxm⟩
      exact ⟨m, List.mem_cons_of_mem _ hm, hxm⟩

theorem Node.mem_keysM_of_mem_child {t c : Node K V} {x : K}
    (hc : c ∈ t.children) (hx : x ∈ c.keysM) : x ∈ t.keysM := by
  cases t with
  | mk l ks vs cs =>
    rw [Node.keysM_mk]
    simp only [Node.children] at hc
    exact Multiset.mem_add.mpr
      (Or.inr (mem_listSum_of_mem (List.mem_map_of_mem Node.keysM hc) hx))

end KeysMLemmas

section WfLemmas

variable {K V : Type} [LinearOrder K] {lo hi : Option K}

theorem Node.wfb_mk_iff {l : Nat} {ks : List K} {vs : List V} {cs : List (Node K V)} :
    (Node.mk l ks vs cs).wfb lo hi = true ↔
      sortedB lo hi ks = true ∧ vs.length = ks.length ∧
      ((cs = [] ∧ ks = []) ∨
        (cs.length = ks.length + 1 ∧ Node.wfChildren lo hi ks cs = true)) := by
  cases cs with
  | nil => simp [Node.wfb, and_assoc]
  | cons c cs' =>
    rw [Node.wfb]
    simp only [List.isEmpty_cons, if_neg Bool.false_ne_true, Bool.and_eq_true,
      beq_iff_eq]
    constructor
    · rintro ⟨⟨hs, hv⟩, hl, hw⟩
      exact ⟨hs, hv, Or.inr ⟨hl, hw⟩⟩
    · rintro ⟨hs, hv, h | h⟩
      · exact absurd h.1 (by simp)
      · exact ⟨⟨hs, hv⟩, h.1, h.2⟩

/-- A member child of a well-formed child list is well-formed within
some bounds. -/
theorem Node.wfChildren_mem_wf {ks : List K} {cs : List (Node K V)} {c : Node K V}
    (hw : Node.wfChildren lo hi ks cs = true) (hc : c ∈ cs) :
    ∃ lo' hi', c.wfb lo' hi' = true := by
  induction cs generalizing ks lo with
  | nil => cases hc
  | cons c0 cs' ih =>
    cases ks with
    | nil =>
      cases cs' with
      | nil =>
        simp only [Node.wfChildren] at hw
        rcases List.mem_singleton.mp hc with rfl
        exact ⟨lo, hi, hw⟩
      | cons _ _ =>
        simp only [Node.wfChildren] at hw
        exact absurd hw (by simp)
    | cons k ks' =>
      cases cs' with
      | nil =>
        simp only [Node.wfChildren] at hw
        exact absurd hw (by simp)
      | cons c1 cs'' =>
        simp only [Node.wfChildren, Bool.and_eq_true] at hw
        rcases List.mem_cons.mp hc with rfl | hc
        · exact ⟨lo, some k, hw.1⟩
        · exact ih hw.2 hc

/-- All keys of all children in a well-formed child list stay inside the
outer bounds (given the node's own keys are sorted within them). -/
theorem Node.wfChildren_keysM_bounds {ks : List K} {cs : List (Node K V)}
    (ihp : ∀ c ∈ cs, ∀ lo' hi', c.wfb lo' hi' = true →
      ∀ x ∈ c.keysM, lbB lo' x = true ∧ ubB hi' x = true)
    (hw : Node.wfChildren lo hi ks cs = true)
    (hs : sortedB lo hi ks = true) :
    ∀ c ∈ cs, ∀ x ∈ c.keysM, lbB lo x = true ∧ ubB hi x = true := by
  induction cs generalizing ks lo with
  | nil => intro c hc; cases hc
  | cons c0 cs' ih =>
    cases ks with
    | nil =>
      cases cs' with
      | nil =>
        simp only [Node.wfChildren] at hw
        intro c hc x hx
        rcases List.mem_singleton.mp hc with rfl
        exact ihp c (List.mem_singleton.mpr rfl) lo hi hw x hx
      | cons _ _ =>
        simp only [Node.wfChildren] at hw
        exact absurd hw (by simp)
    | cons k ks' =>
      cases cs' with
      | nil =>
        simp only [Node.wfChildren] at hw
        exact absurd hw (by simp)
      | cons c1 cs'' =>
        simp only [Node.wfChildren, Bool.and_eq_true] at hw
        rw [sortedB_cons_iff] at hs
        intro c hc x hx
        rcases List.mem_cons.mp hc with rfl | hc
        · have := ihp c (List.mem_cons_self ..) lo (some k) hw.1 x hx
          exact ⟨this.1, ubB_trans_le hs.2.1 (le_of_lt (by simpa [ubB] using this.2))⟩
        · have := ih (fun c' hc' => ihp c' (List.mem_cons_of_mem _ hc')) hw.2 hs.2.2 c hc x hx
          exact ⟨lbB_trans_le hs.1 (le_of_lt (by simpa [lbB] using this.1)), this.2⟩

/-- All keys anywhere in a well-formed subtree stay inside its bounds. -/
theorem Node.wfb_keysM_bounds :
    ∀ (t : Node K V) (lo hi : Option K), t.wfb lo hi = true →
      ∀ x ∈ t.keysM, lbB lo x = true ∧ ubB hi x = true := by
  intro t
  induction t using Node.keysM.induct with
  | _ l ks vs cs ihc =>
    intro lo hi hwf x hx
    rw [Node.wfb_mk_iff] at hwf
    rw [Node.keysM_mk] at hx
    rcases Multiset.mem_add.mp hx with hx | hx
    · exact sortedB_mem_bounds hwf.1 (by simpa using hx)
    · rcases mem_of_mem_listSum hx with ⟨m, hm, hxm⟩
      rcases List.mem_map.mp hm with ⟨c, hc, rfl⟩
      rcases hwf.2.2 with ⟨rfl, _⟩ | ⟨_, hw⟩
      · cases hc
      · exact Node.wfChildren_keysM_bounds
          (fun c' hc' lo' hi' hwf' x' hx' => ihc ⟨c', hc'⟩ lo' hi' hwf' x' hx')
          hw hwf.1 c hc x hxm

end WfLemmas

/-! ### Claim C10: removing an absent key is a no-op -/

section C10

variable {K V : Type} [LinearOrder K]

/-- `Node::delete` on a key absent from the whole (well-formed) subtree
returns the node unchanged with `deleted = false`: the binary search can
never hit the key, and the recursive descent reports `false` all the way
up. -/
theorem Node.delete_notMem :
    ∀ (t : Node K V), ∀ lo hi, t.wfb lo hi = true →
      ∀ k, k ∉ t.keysM → t.delete k = (t, false) := by
  intro t
  induction t using Node.keysM.induct with
  | _ l ks vs cs ihc =>
    intro lo hi hwf k hk
    rw [Node.wfb_mk_iff] at hwf
    cases hf : keyFind ks k with
    | inl idx =>
      exact absurd (Node.mem_keysM_of_mem_keys
        (show k ∈ (Node.mk l ks vs cs).keys from keyFind_inl_mem hf)) hk
    | inr idx =>
      rw [Node.delete, hf]
      simp only
      by_cases hce : cs.isEmpty
      · rw [if_pos hce]
      · rw [if_neg hce]
        cases hc : cs[idx]? with
        | none => simp only
        | some c =>
          simp only
          have hcm : c ∈ cs := List.getElem?_mem hc
          have hkc : k ∉ c.keysM := fun hx =>
            hk (Node.mem_keysM_of_mem_child
              (show c ∈ (Node.mk l ks vs cs).children from hcm) hx)
          rcases hwf.2.2 with ⟨rfl, _⟩ | ⟨_, hw⟩
          · cases hcm
          · rcases Node.wfChildren_mem_wf hw hcm with ⟨lo', hi', hcwf⟩
            rw [ihc ⟨c, hcm⟩ lo' hi' hcwf k hkc]
            simp

/-- C10.  Removing an absent key is a no-op: for every well-formed tree
and every key `k` not present in it, `remove(k)` leaves the tree's root
link unchanged — literally the same tree state — so `root_hash()` and
every subsequent `get`/`contains` result are identical to before the
call.  (In the pure model `remove` is total, matching the source's
`Ok(())` return on this path: the only fallible steps are store loads,
which the model resolves.) -/
theorem claim_C10_remove_absent_noop (t : MerkleSearchTree K V) (k : K)
    (hwf : t.root.wfb none none = true) (hk : k ∉ t.root.keysM) :
    t.remove k = t ∧ (t.remove k).rootHash = t.rootHash ∧
      (∀ j, (t.remove k).get j = t.get j) ∧
      (∀ j, (t.remove k).contains j = t.contains j) := by
  have h : t.remove k = t := by
    unfold MerkleSearchTree.remove
    rw [Node.delete_notMem t.root none none hwf k hk]
    simp
  exact ⟨h, by rw [h], fun j => by rw [h], fun j => by rw [h]⟩

end C10

/-- A small concrete well-formed tree over natural-number keys and
values, holding the single pair `(1, 10)`: exactly the node built by
inserting `(1, 10)` at level 0 into a fresh tree. -/
def exTree1 : MerkleSearchTree Nat Nat :=
  ⟨Node.mk 0 [1] [10] [Node.empty 0, Node.empty 0]⟩

/-- Witness for C10 at a concrete input: the tree holding `(1, 10)` is
well-formed, does not contain the key `5`, and removing `5` leaves it
unchanged. -/
theorem claim_C10_remove_absent_noop_witness :
    (exTree1.root.wfb none none = true ∧ (5 : Nat) ∉ exTree1.root.keysM) ∧
      exTree1.remove 5 = exTree1 := by
  have h1 : exTree1.root.wfb none none = true := by
    simp [exTree1, Node.wfb, Node.wfChildren, sortedB, lbB, ubB, Node.empty]
  have h2 : (5 : Nat) ∉ exTree1.root.keysM := by
    simp [exTree1, Node.keysM_mk, Node.empty]
  exact ⟨⟨h1, h2⟩, (claim_C10_remove_absent_noop exTree1 5 h1 h2).1⟩

end FileMst

namespace FileMst

section C7Aux

variable {K V : Type} [LinearOrder K] {lo hi : Option K}

theorem mem_take_getElem? {α : Type} {l : List α} {n : Nat} {x : α}
    (hx : x ∈ l.take n) : ∃ j, j < n ∧ l[j]? = some x := by
  rcases List.mem_iff_getElem?.mp hx with ⟨j, hj⟩
  by_cases hjn : j < n
  · rw [List.getElem?_take_of_lt hjn] at hj
    exact ⟨j, hjn, hj⟩
  · rw [List.getElem?_eq_none (by simp; omega)] at hj
    cases hj

theorem mem_drop_getElem? {α : Type} {l : List α} {n : Nat} {x : α}
    (hx : x ∈ l.drop n) : ∃ j, l[n + j]? = some x := by
  rcases List.mem_iff_getElem?.mp hx with ⟨j, hj⟩
  rw [List.getElem?_drop] at hj
  exact ⟨j, hj⟩

theorem Node.wfChildren_nil_right {ks : List K} :
    Node.wfChildren (K := K) (V := V) lo hi ks [] = false := by
  rw [Node.wfChildren]

theorem Node.wfChildren_single_iff {ks : List K} {c : Node K V} :
    Node.wfChildren lo hi ks [c] = true ↔ ks = [] ∧ c.wfb lo hi = true := by
  cases ks with
  | nil => simp [Node.wfChildren]
  | cons k ks' => simp [Node.wfChildren]

theorem Node.wfChildren_cons₂_iff {ks : List K} {c0 c1 : Node K V}
    {cs : List (Node K V)} :
    Node.wfChildren lo hi ks (c0 :: c1 :: cs) = true ↔
      ∃ k0 ks', ks = k0 :: ks' ∧ c0.wfb lo (some k0) = true ∧
        Node.wfChildren (some k0) hi ks' (c1 :: cs) = true := by
  cases ks with
  | nil => simp [Node.wfChildren]
  | cons k ks' =>
    simp only [Node.wfChildren, List.cons.injEq, Bool.and_eq_true]
    constructor
    · rintro ⟨h1, h2⟩
      exact ⟨k, ks', ⟨rfl, rfl⟩, h1, h2⟩
    · rintro ⟨k0, ks'', ⟨rfl, rfl⟩, h1, h2⟩
      exact ⟨h1, h2⟩

theorem Node.wfChildren_upper {ks : List K} {cs : List (Node K V)}
    (hw : Node.wfChildren lo hi ks cs = true) {j : Nat} {c : Node K V} {kj : K}
    (hc : cs[j]? = some c) (hk : ks[j]? = some kj) :
    ∀ x ∈ c.keysM, x < kj := by
  induction cs generalizing ks lo j with
  | nil => simp at hc
  | cons c0 cs' ih =>
    cases ks with
    | nil => simp at hk
    | cons k0 ks' =>
      cases cs' with
      | nil =>
        rw [Node.wfChildren_single_iff] at hw
        cases hw.1
      | cons c1 cs'' =>
        rw [Node.wfChildren_cons₂_iff] at hw
        rcases hw with ⟨k0', ks'', hks, hw1, hw2⟩
        cases hks
        cases j with
        | zero =>
          simp only [List.getElem?_cons_zero, Option.some.injEq] at hc hk
          subst hc
          subst hk
          intro x hx
          have := (Node.wfb_keysM_bounds _ _ _ hw1 x hx).2
          simpa [ubB] using this
        | succ j' =>
          rw [List.getElem?_cons_succ] at hc hk
          exact ih hw2 hc hk

theorem Node.wfChildren_lower {ks : List K} {cs : List (Node K V)}
    (hw : Node.wfChildren lo hi ks cs = true) (hs : sortedB lo hi ks = true)
    {j : Nat} {c : Node K V} {kj : K}
    (hc : cs[j + 1]? = some c) (hk : ks[j]? = some kj) :
    ∀ x ∈ c.keysM, kj < x := by
  induction cs generalizing ks lo j with
  | nil => simp at hc
  | cons c0 cs' ih =>
    cases ks with
    | nil => simp at hk
    | cons k0 ks' =>
      cases cs' with
      | nil =>
        rw [Node.wfChildren_single_iff] at hw
        cases hw.1
      | cons c1 cs'' =>
        rw [Node.wfChildren_cons₂_iff] at hw
        rcases hw with ⟨k0', ks'', hks, hw1, hw2⟩
        cases hks
        rw [sortedB_cons_iff] at hs
        rw [List.getElem?_cons_succ] at hc
        cases j with
        | zero =>
          simp only [List.getElem?_cons_zero, Option.some.injEq] at hk
          subst hk
          have hcm : c ∈ c1 :: cs'' := List.getElem?_mem hc
          intro x hx
          have := (Node.wfChildren_keysM_bounds
            (fun c' _ => Node.wfb_keysM_bounds c') hw2 hs.2.2 c hcm x hx).1
          simpa [lbB] using this
        | succ j' =>
          rw [List.getElem?_cons_succ] at hk
          exact ih hw2 hs.2.2 hc hk

theorem filter_listSum {α : Type} (p : α → Prop) [DecidablePred p]
    (ms : List (Multiset α)) :
    Multiset.filter p ms.sum = (ms.map (Multiset.filter p)).sum := by
  induction ms with
  | nil => simp
  | cons m ms' ih => simp [Multiset.filter_add, ih]

end C7Aux

end FileMst

namespace FileMst

section C7Main

variable {K V : Type} [LinearOrder K]

/-- The left half of the split's key multiset, abstractly: filtering the
node's keys and child key-sums below `k` keeps exactly the scanned
prefix together with the filtered boundary child. -/
theorem filter_keysM_left {ks : List K} {cs : List (Node K V)} {i : Nat}
    {k : K} {c : Node K V}
    (hdecomp : cs = cs.take i ++ c :: cs.drop (i + 1))
    (f1 : ∀ x ∈ ks.take i, x < k)
    (f2 : ∀ x ∈ ((cs.take i).map Node.keysM).sum, x < k)
    (f3 : ∀ x ∈ ks.drop i, ¬ x < k)
    (f4 : ∀ x ∈ ((cs.drop (i + 1)).map Node.keysM).sum, ¬ x < k) :
    Multiset.filter (· < k) ((ks : Multiset K) + (cs.map Node.keysM).sum)
      = ↑(ks.take i) +
        (((cs.take i).map Node.keysM).sum + Multiset.filter (· < k) c.keysM) := by
  have h1 : (ks : Multiset K) = ↑(ks.take i) + ↑(ks.drop i) := by
    conv_lhs => rw [← List.take_append_drop i ks]
    rfl
  have h2 : (cs.map Node.keysM).sum =
      ((cs.take i).map Node.keysM).sum +
        (c.keysM + ((cs.drop (i + 1)).map Node.keysM).sum) := by
    conv_lhs => rw [hdecomp]
    rw [List.map_append, List.map_cons, List.sum_append, List.sum_cons]
  have g1 : Multiset.filter (· < k) (↑(ks.take i) : Multiset K) = ↑(ks.take i) :=
    Multiset.filter_eq_self.mpr (fun x hx => f1 x (by simpa using hx))
  have g2 : Multiset.filter (· < k) (↑(ks.drop i) : Multiset K) = 0 :=
    Multiset.filter_eq_nil.mpr (fun x hx => f3 x (by simpa using hx))
  have g3 : Multiset.filter (· < k) ((cs.take i).map Node.keysM).sum =
      ((cs.take i).map Node.keysM).sum :=
    Multiset.filter_eq_self.mpr f2
  have g4 : Multiset.filter (· < k) ((cs.drop (i + 1)).map Node.keysM).sum = 0 :=
    Multiset.filter_eq_nil.mpr f4
  rw [h1, h2]
  rw [Multiset.filter_add, Multiset.filter_add, Multiset.filter_add, Multiset.filter_add]
  rw [g1, g2, g3, g4]
  abel

/-- The right half of the split's key multiset, abstractly. -/
theorem filter_keysM_right {ks : List K} {cs : List (Node K V)} {i rS : Nat}
    {k : K} {c : Node K V}
    (hdecomp : cs = cs.take i ++ c :: cs.drop (i + 1))
    (f1 : ∀ x ∈ ks.take i, x < k)
    (f2 : ∀ x ∈ ((cs.take i).map Node.keysM).sum, x < k)
    (f4 : ∀ x ∈ ((cs.drop (i + 1)).map Node.keysM).sum, k < x)
    (hdrop : Multiset.filter (fun x => k < x) (↑(ks.drop i) : Multiset K)
      = ↑(ks.drop rS)) :
    Multiset.filter (fun x => k < x) ((ks : Multiset K) + (cs.map Node.keysM).sum)
      = ↑(ks.drop rS) +
        (Multiset.filter (fun x => k < x) c.keysM +
          ((cs.drop (i + 1)).map Node.keysM).sum) := by
  have h1 : (ks : Multiset K) = ↑(ks.take i) + ↑(ks.drop i) := by
    conv_lhs => rw [← List.take_append_drop i ks]
    rfl
  have h2 : (cs.map Node.keysM).sum =
      ((cs.take i).map Node.keysM).sum +
        (c.keysM + ((cs.drop (i + 1)).map Node.keysM).sum) := by
    conv_lhs => rw [hdecomp]
    rw [List.map_append, List.map_cons, List.sum_append, List.sum_cons]
  have g1 : Multiset.filter (fun x => k < x) (↑(ks.take i) : Multiset K) = 0 :=
    Multiset.filter_eq_nil.mpr (fun x hx => asymm (f1 x (by simpa using hx)))
  have g3 : Multiset.filter (fun x => k < x) ((cs.take i).map Node.keysM).sum = 0 :=
    Multiset.filter_eq_nil.mpr (fun x hx => asymm (f2 x hx))
  have g4 : Multiset.filter (fun x => k < x) ((cs.drop (i + 1)).map Node.keysM).sum =
      ((cs.drop (i + 1)).map Node.keysM).sum :=
    Multiset.filter_eq_self.mpr f4
  rw [h1, h2]
  rw [Multiset.filter_add, Multiset.filter_add, Multiset.filter_add, Multiset.filter_add]
  rw [g1, hdrop, g3, g4]
  abel

end C7Main

end FileMst

namespace FileMst

section SplitEq

variable {K V : Type} [LinearOrder K]

theorem Node.split_eq_main {l : Nat} {ks : List K} {vs : List V}
    {cs : List (Node K V)} {k : K}
    (hemp : ¬ (ks.isEmpty && cs.isEmpty) = true)
    {i : Nat} (hf : (match keyFind ks k with | .inl j => j | .inr j => j) = i)
    {c : Node K V} (hc : cs[i]? = some c) :
    (Node.mk l ks vs cs).split k =
      (Node.mk l (ks.take i) (vs.take i) (cs.take i ++ [(c.split k).1]),
       Node.mk l (ks.drop (if ks[i]? = some k then i + 1 else i))
         (vs.drop (if ks[i]? = some k then i + 1 else i))
         ((c.split k).2 :: cs.drop (i + 1))) := by
  by_cases hifc : ks[i]? = some k
  · rw [Node.split, if_neg hemp, hf]
    simp only [if_pos hifc]
    split
    · rename_i c2 hc2
      rw [hc] at hc2
      cases hc2
      rfl
    · rename_i hc2
      rw [hc] at hc2
      cases hc2
  · rw [Node.split, if_neg hemp, hf]
    simp only [if_neg hifc]
    split
    · rename_i c2 hc2
      rw [hc] at hc2
      cases hc2
      rfl
    · rename_i hc2
      rw [hc] at hc2
      cases hc2

theorem Node.split_eq_empty {l : Nat} {k : K} {ks : List K} {vs : List V}
    {cs : List (Node K V)} (hks : ks = []) (hcs : cs = []) :
    (Node.mk l ks vs cs).split k = (Node.empty l, Node.empty l) := by
  subst hks; subst hcs
  rw [Node.split]
  simp

end SplitEq

end FileMst

namespace FileMst

section C7Proof

variable {K V : Type} [LinearOrder K]

/-- Both halves of a split keep the input node's level (directly from
both construction sites of `Node::split`). -/
theorem Node.split_level (t : Node K V) (k : K) :
    (t.split k).1.level = t.level ∧ (t.split k).2.level = t.level := by
  cases t with
  | mk l ks vs cs =>
    rw [Node.split]
    by_cases hemp : (ks.isEmpty && cs.isEmpty) = true
    · rw [if_pos hemp]
      exact ⟨rfl, rfl⟩
    · rw [if_neg hemp]
      exact ⟨rfl, rfl⟩

/-- The key multisets of the two halves of `Node::split` on a well-formed
subtree: the left half holds exactly the keys strictly below the split
key, the right half exactly those strictly above; an entry equal to the
split key is dropped. -/
theorem Node.split_keysM :
    ∀ (t : Node K V) (lo hi : Option K), t.wfb lo hi = true → ∀ k : K,
      (t.split k).1.keysM = t.keysM.filter (· < k) ∧
      (t.split k).2.keysM = t.keysM.filter (fun x => k < x) := by
  intro t
  induction t using Node.keysM.induct with
  | _ l ks vs cs ihc =>
    intro lo hi hwf k
    rw [Node.wfb_mk_iff] at hwf
    by_cases hemp : (ks.isEmpty && cs.isEmpty) = true
    · obtain ⟨hks, hcs⟩ : ks = [] ∧ cs = [] := by
        simpa [List.isEmpty_iff] using hemp
      rw [Node.split_eq_empty hks hcs]
      subst hks
      subst hcs
      simp [Node.empty, Node.keysM_mk]
    · obtain ⟨hlen, hw⟩ : cs.length = ks.length + 1 ∧
          Node.wfChildren lo hi ks cs = true := by
        rcases hwf.2.2 with ⟨rfl, rfl⟩ | h
        · simp at hemp
        · exact h
      have hs : sortedB lo hi ks = true := hwf.1
      obtain ⟨i, hfi⟩ : ∃ i, (match keyFind ks k with
          | Sum.inl j => j | Sum.inr j => j) = i := ⟨_, rfl⟩
      have hdisj : keyFind ks k = Sum.inl i ∨ keyFind ks k = Sum.inr i := by
        rcases hko : keyFind ks k with j | j
        · rw [hko] at hfi
          simp only at hfi
          subst hfi
          exact Or.inl rfl
        · rw [hko] at hfi
          simp only at hfi
          subst hfi
          exact Or.inr rfl
      have hile : i ≤ ks.length := by
        rcases hdisj with hf | hf
        · exact le_of_lt (keyFind_inl_lt_length hf)
        · exact keyFind_inr_le_length hf
      have hilt : i < cs.length := by omega
      cases hc : cs[i]? with
      | none =>
        rw [List.getElem?_eq_none_iff] at hc
        omega
      | some c =>
      have hcm : c ∈ cs := List.getElem?_mem hc
      obtain ⟨lo2, hi2, hcwf⟩ := Node.wfChildren_mem_wf hw hcm
      have ihp := ihc ⟨c, hcm⟩ lo2 hi2 hcwf k
      have hce : cs[i] = c := by
        have h2 := (List.getElem?_eq_getElem hilt).symm.trans hc
        simpa using h2
      have hdecomp : cs = cs.take i ++ c :: cs.drop (i + 1) := by
        rw [← hce, List.get_drop_eq_drop cs i hilt, List.take_append_drop]
      have f1 : ∀ x ∈ ks.take i, x < k := keyFind_take_lt hdisj
      have f2 : ∀ x ∈ ((cs.take i).map Node.keysM).sum, x < k := by
        intro x hx
        rcases mem_of_mem_listSum hx with ⟨m, hm, hxm⟩
        rcases List.mem_map.mp hm with ⟨cj, hcj, rfl⟩
        rcases mem_take_getElem? hcj with ⟨j, hji, hjc⟩
        have hjk : j < ks.length := lt_of_lt_of_le hji hile
        have hkj : ks[j]? = some ks[j] := List.getElem?_eq_getElem hjk
        have hxlt := Node.wfChildren_upper hw hjc hkj x hxm
        have hmem : ks[j] ∈ ks.take i := by
          refine List.mem_iff_getElem?.mpr ⟨j, ?_⟩
          rw [List.getElem?_take_of_lt hji]
          exact hkj
        exact lt_trans hxlt (f1 _ hmem)
      have fdropGe : ∀ x ∈ ks.drop i, k ≤ x := by
        intro x hx
        rcases hdisj with hf | hf
        · exact sortedB_getElem_le_drop hs (keyFind_inl_getElem hf) hx
        · cases hksi : ks[i]? with
          | none =>
            rw [List.getElem?_eq_none_iff] at hksi
            rw [List.drop_eq_nil_of_le hksi] at hx
            cases hx
          | some a =>
            exact le_of_lt (lt_of_lt_of_le (keyFind_inr_getElem_gt hf hksi)
              (sortedB_getElem_le_drop hs hksi hx))
      have f3 : ∀ x ∈ ks.drop i, ¬ x < k := fun x hx => not_lt.mpr (fdropGe x hx)
      have f4s : ∀ x ∈ ((cs.drop (i + 1)).map Node.keysM).sum, k < x := by
        intro x hx
        rcases mem_of_mem_listSum hx with ⟨m, hm, hxm⟩
        rcases List.mem_map.mp hm with ⟨cj, hcj, rfl⟩
        rcases mem_drop_getElem? hcj with ⟨j, hjc⟩
        have hb : i + 1 + j < cs.length := by
          by_contra hnb
          rw [List.getElem?_eq_none_iff.mpr (by omega)] at hjc
          cases hjc
        have hijk : i + j < ks.length := by omega
        have hkj : ks[i + j]? = some ks[i + j] := List.getElem?_eq_getElem hijk
        have hjc2 : cs[(i + j) + 1]? = some cj := by
          have heq : i + 1 + j = (i + j) + 1 := by omega
          rw [heq] at hjc
          exact hjc
        have hlow := Node.wfChildren_lower hw hs hjc2 hkj x hxm
        have hmemd : ks[i + j] ∈ ks.drop i := by
          refine List.mem_iff_getElem?.mpr ⟨j, ?_⟩
          rw [List.getElem?_drop]
          exact hkj
        exact lt_of_le_of_lt (fdropGe _ hmemd) hlow
      have f4 : ∀ x ∈ ((cs.drop (i + 1)).map Node.keysM).sum, ¬ x < k :=
        fun x hx => asymm (f4s x hx)
      rw [Node.split_eq_main hemp hfi hc]
      rcases hdisj with hf | hf
      · -- split key present at index i
        have hksi : ks[i]? = some k := keyFind_inl_getElem hf
        have hilt2 : i < ks.length := keyFind_inl_lt_length hf
        have hdropEq : ks.drop i = k :: ks.drop (i + 1) := by
          rw [← List.get_drop_eq_drop ks i hilt2]
          have h2 := (List.getElem?_eq_getElem hilt2).symm.trans hksi
          simp only [Option.some.injEq] at h2
          rw [h2]
        have hdrop : Multiset.filter (fun x => k < x)
            ((ks.drop i : List K) : Multiset K) = ↑(ks.drop (i + 1)) := by
          rw [hdropEq]
          rw [show ((k :: ks.drop (i + 1) : List K) : Multiset K)
            = k ::ₘ ↑(ks.drop (i + 1)) from rfl]
          rw [Multiset.filter_cons_of_neg _ (lt_irrefl k)]
          exact Multiset.filter_eq_self.mpr (fun x hx =>
            sortedB_getElem_lt_drop_succ hs hksi (by simpa using hx))
        constructor
        · show (Node.mk l (ks.take i) (vs.take i)
              (cs.take i ++ [(c.split k).1])).keysM = _
          rw [Node.keysM_mk, Node.keysM_mk, List.map_append, List.sum_append,
            List.map_cons, List.map_nil, List.sum_cons, List.sum_nil]
          rw [filter_keysM_left hdecomp f1 f2 f3 f4, ihp.1, add_zero]
        · show (Node.mk l (ks.drop (if ks[i]? = some k then i + 1 else i)) _
              ((c.split k).2 :: cs.drop (i + 1))).keysM = _
          rw [if_pos hksi]
          rw [Node.keysM_mk, Node.keysM_mk, List.map_cons, List.sum_cons]
          rw [filter_keysM_right hdecomp f1 f2 f4s hdrop, ihp.2]
      · -- split key absent: strictly greater tail
        have hkne : ¬ (ks[i]? = some k) := by
          cases hksi : ks[i]? with
          | none => simp
          | some a =>
            have := keyFind_inr_getElem_gt hf hksi
            simp only [Option.some.injEq]
            exact ne_of_gt this
        have fdropGt : ∀ x ∈ ks.drop i, k < x := by
          intro x hx
          cases hksi : ks[i]? with
          | none =>
            rw [List.getElem?_eq_none_iff] at hksi
            rw [List.drop_eq_nil_of_le hksi] at hx
            cases hx
          | some a =>
            exact lt_of_lt_of_le (keyFind_inr_getElem_gt hf hksi)
              (sortedB_getElem_le_drop hs hksi hx)
        have hdrop : Multiset.filter (fun x => k < x)
            ((ks.drop i : List K) : Multiset K) = ↑(ks.drop i) :=
          Multiset.filter_eq_self.mpr (fun x hx => fdropGt x (by simpa using hx))
        constructor
        · show (Node.mk l (ks.take i) (vs.take i)
              (cs.take i ++ [(c.split k).1])).keysM = _
          rw [Node.keysM_mk, Node.keysM_mk, List.map_append, List.sum_append,
            List.map_cons, List.map_nil, List.sum_cons, List.sum_nil]
          rw [filter_keysM_left hdecomp f1 f2 f3 f4, ihp.1, add_zero]
        · show (Node.mk l (ks.drop (if ks[i]? = some k then i + 1 else i)) _
              ((c.split k).2 :: cs.drop (i + 1))).keysM = _
          rw [if_neg hkne]
          rw [Node.keysM_mk, Node.keysM_mk, List.map_cons, List.sum_cons]
          rw [filter_keysM_right hdecomp f1 f2 f4s hdrop, ihp.2]

end C7Proof

end FileMst

namespace FileMst

/-- C7.  Split postcondition: for every node satisfying the global
invariants (the order-and-shape part, `wfb`) and every split key,
`split` returns `(left, right)` where the keys of `left` are exactly the
subtree's keys strictly less than the split key, the keys of `right`
exactly those strictly greater, an entry equal to the split key appears
in neither half, and both results carry the input node's level. -/
theorem claim_C7_split_postcondition {K V : Type} [LinearOrder K]
    (t : Node K V) (k : K) (hwf : t.wfb none none = true) :
    (t.split k).1.keysM = t.keysM.filter (· < k) ∧
    (t.split k).2.keysM = t.keysM.filter (fun x => k < x) ∧
    k ∉ (t.split k).1.keysM ∧ k ∉ (t.split k).2.keysM ∧
    (t.split k).1.level = t.level ∧ (t.split k).2.level = t.level := by
  obtain ⟨h1, h2⟩ := Node.split_keysM t none none hwf k
  refine ⟨h1, h2, ?_, ?_, (Node.split_level t k).1, (Node.split_level t k).2⟩
  · rw [h1]
    intro hmem
    exact lt_irrefl k (Multiset.mem_filter.mp hmem).2
  · rw [h2]
    intro hmem
    exact lt_irrefl k (Multiset.mem_filter.mp hmem).2

/-- Witness for C7 at a concrete input: the root node holding key `1`
is well-formed, and splitting it on the key `1` itself yields halves
with the expected (empty) key multisets, neither containing `1`, both at
level 0. -/
theorem claim_C7_split_postcondition_witness :
    exTree1.root.wfb none none = true ∧
      (exTree1.root.split 1).1.keysM
        = exTree1.root.keysM.filter (· < 1) := by
  have h1 : exTree1.root.wfb none none = true := by
    simp [exTree1, Node.wfb, Node.wfChildren, sortedB, lbB, ubB, Node.empty]
  exact ⟨h1, (claim_C7_split_postcondition exTree1.root 1 h1).1⟩

end FileMst

namespace FileMst

section PutEqs

variable {K V : Type} [LinearOrder K] {l kl i : Nat} {ks : List K}
  {vs : List V} {cs : List (Node K V)} {k : K} {v : V} {c : Node K V}

theorem getElem?_insertIdx_self {α : Type} {l : List α} {n : Nat} {x : α}
    (hn : n ≤ l.length) : (l.insertIdx n x)[n]? = some x := by
  have hlen : n < (l.insertIdx n x).length := by
    rw [List.length_insertIdx _ _ hn]
    omega
  rw [List.getElem?_eq_getElem hlen]
  exact congrArg some (List.getElem_insertIdx_self l x n hn)

theorem Node.put_eq_above (hkl : l < kl) :
    (Node.mk l ks vs cs).put k v kl =
      Node.mk kl [k] [v] [((Node.mk l ks vs cs).split k).1,
        ((Node.mk l ks vs cs).split k).2] := by
  rw [Node.put, if_pos hkl]

theorem Node.put_eq_same_found (hkl : kl = l) (hf : keyFind ks k = .inl i) :
    (Node.mk l ks vs cs).put k v kl = Node.mk l ks (vs.set i v) cs := by
  rw [Node.put, if_neg (by omega : ¬ kl > l), if_pos hkl, hf]

theorem Node.put_eq_same_miss_child (hkl : kl = l)
    (hf : keyFind ks k = .inr i) (hc : cs[i]? = some c) :
    (Node.mk l ks vs cs).put k v kl =
      Node.mk l (ks.insertIdx i k) (vs.insertIdx i v)
        ((cs.set i (c.split k).1).insertIdx (i + 1) (c.split k).2) := by
  have hne : ¬ cs.isEmpty = true := by
    intro he
    rw [List.isEmpty_iff] at he
    subst he
    simp at hc
  have hgd : cs.getD i (Node.empty 0) = c := by
    rw [List.getD_eq_getElem?_getD, hc]
    rfl
  rw [Node.put, if_neg (by omega : ¬ kl > l), if_pos hkl, hf]
  simp only [if_neg hne, hgd]

theorem Node.put_eq_same_miss_nochild (hkl : kl = l) (hcs : cs = [])
    (hf : keyFind ks k = .inr i) :
    (Node.mk l ks vs cs).put k v kl =
      Node.mk l (ks.insertIdx i k) (vs.insertIdx i v)
        [((Node.empty (l - 1) : Node K V).split k).1,
         ((Node.empty (l - 1) : Node K V).split k).2] := by
  subst hcs
  rw [Node.put, if_neg (by omega : ¬ kl > l), if_pos hkl, hf]
  simp

theorem Node.put_eq_fresh (hgt : ¬ kl > l) (hne : kl ≠ l)
    (hks : ks = []) (hcs : cs = []) :
    (Node.mk l ks vs cs).put k v kl =
      Node.mk kl [k] [v] [Node.empty 0, Node.empty 0] := by
  subst hks
  subst hcs
  rw [Node.put, if_neg hgt, if_neg hne, if_pos (by simp)]

theorem Node.put_eq_descend_found (hgt : ¬ kl > l) (hne : kl ≠ l)
    (hemp : ¬ (ks.isEmpty && cs.isEmpty) = true)
    (hf : keyFind ks k = .inl i) :
    (Node.mk l ks vs cs).put k v kl = Node.mk l ks (vs.set i v) cs := by
  rw [Node.put, if_neg hgt, if_neg hne, if_neg hemp, hf]

theorem Node.put_eq_descend (hgt : ¬ kl > l) (hne : kl ≠ l)
    (hemp : ¬ (ks.isEmpty && cs.isEmpty) = true)
    (hf : keyFind ks k = .inr i) (hc : cs[i]? = some c) :
    (Node.mk l ks vs cs).put k v kl =
      Node.mk l ks vs (cs.set i (c.put k v kl)) := by
  rw [Node.put, if_neg hgt, if_neg hne, if_neg hemp, hf]
  split
  · rename_i c2 hc2
    cases hc2
  · rename_i c2 hc2
    cases hc2
    split
    · rename_i c3 hc3
      rw [hc] at hc3
      cases hc3
      rfl
    · rename_i hc3
      rw [hc] at hc3
      cases hc3

theorem Node.get_eq_found (hf : keyFind ks k = .inl i) :
    (Node.mk l ks vs cs).get k = vs[i]? := by
  rw [Node.get, hf]

theorem Node.get_eq_descend (hf : keyFind ks k = .inr i)
    (hc : cs[i]? = some c) :
    (Node.mk l ks vs cs).get k = c.get k := by
  have hne : ¬ cs.isEmpty = true := by
    intro he
    rw [List.isEmpty_iff] at he
    subst he
    simp at hc
  rw [Node.get, hf]
  split
  · rename_i c2 hc2
    cases hc2
  · rename_i c2 hc2
    cases hc2
    rw [if_neg hne]
    split
    · rename_i c3 hc3
      rw [hc] at hc3
      cases hc3
      rfl
    · rename_i hc3
      rw [hc] at hc3
      cases hc3

end PutEqs

end FileMst

namespace FileMst

section C2Proof

variable {K V : Type} [LinearOrder K] {l i : Nat} {ks : List K}
  {vs : List V} {cs : List (Node K V)} {k : K} {c : Node K V}

theorem Node.contains_eq_found (hf : keyFind ks k = .inl i) :
    (Node.mk l ks vs cs).containsKey k = true := by
  rw [Node.containsKey, hf]

theorem Node.contains_eq_descend (hf : keyFind ks k = .inr i)
    (hc : cs[i]? = some c) :
    (Node.mk l ks vs cs).containsKey k = c.containsKey k := by
  have hne : ¬ cs.isEmpty = true := by
    intro he
    rw [List.isEmpty_iff] at he
    subst he
    simp at hc
  rw [Node.containsKey, hf]
  split
  · rename_i c2 hc2
    cases hc2
  · rename_i c2 hc2
    cases hc2
    rw [if_neg hne]
    split
    · rename_i c3 hc3
      rw [hc] at hc3
      cases hc3
      rfl
    · rename_i hc3
      rw [hc] at hc3
      cases hc3

/-- `get` after `put` finds the freshly inserted value, on well-formed
subtrees (the descent of `get` retraces exactly the path on which `put`
placed the entry). -/
theorem Node.get_put :
    ∀ (t : Node K V), ∀ lo hi, t.wfb lo hi = true →
      ∀ (k : K) (v : V) (kl : Nat), ((t.put k v kl).get k = some v ∧
        (t.put k v kl).containsKey k = true) := by
  intro t
  induction t using Node.keysM.induct with
  | _ l ks vs cs ihc =>
    intro lo hi hwf k v kl
    rw [Node.wfb_mk_iff] at hwf
    have hfk1 : keyFind [k] k = Sum.inl 0 := by
      simp [keyFind]
    by_cases hgt : kl > l
    · rw [Node.put_eq_above hgt]
      refine ⟨?_, Node.contains_eq_found hfk1⟩
      rw [Node.get_eq_found hfk1]
      rfl
    · by_cases heq : kl = l
      · cases hfr : keyFind ks k with
        | inl i =>
          rw [Node.put_eq_same_found heq hfr]
          have hlt : i < vs.length := by
            rw [hwf.2.1]
            exact keyFind_inl_lt_length hfr
          refine ⟨?_, Node.contains_eq_found hfr⟩
          rw [Node.get_eq_found hfr]
          exact List.getElem?_set_self hlt
        | inr i =>
          have hins := keyFind_insertIdx hfr
          have hle : i ≤ vs.length := by
            rw [hwf.2.1]
            exact keyFind_inr_le_length hfr
          cases cs with
          | nil =>
            rw [Node.put_eq_same_miss_nochild heq rfl hfr]
            refine ⟨?_, Node.contains_eq_found hins⟩
            rw [Node.get_eq_found hins]
            exact getElem?_insertIdx_self hle
          | cons c0 cs' =>
            have hlen : (c0 :: cs').length = ks.length + 1 := by
              rcases hwf.2.2 with ⟨h1, _⟩ | ⟨h1, _⟩
              · cases h1
              · exact h1
            have hilt : i < (c0 :: cs').length := by
              have := keyFind_inr_le_length hfr
              omega
            cases hc : (c0 :: cs')[i]? with
            | none =>
              rw [List.getElem?_eq_none_iff] at hc
              omega
            | some c =>
              rw [Node.put_eq_same_miss_child heq hfr hc]
              refine ⟨?_, Node.contains_eq_found hins⟩
              rw [Node.get_eq_found hins]
              exact getElem?_insertIdx_self hle
      · by_cases hemp : (ks.isEmpty && cs.isEmpty) = true
        · obtain ⟨hks, hcs⟩ : ks = [] ∧ cs = [] := by
            simpa [List.isEmpty_iff] using hemp
          rw [Node.put_eq_fresh hgt heq hks hcs]
          refine ⟨?_, Node.contains_eq_found hfk1⟩
          rw [Node.get_eq_found hfk1]
          rfl
        · cases hfr : keyFind ks k with
          | inl i =>
            rw [Node.put_eq_descend_found hgt heq hemp hfr]
            have hlt : i < vs.length := by
              rw [hwf.2.1]
              exact keyFind_inl_lt_length hfr
            refine ⟨?_, Node.contains_eq_found hfr⟩
            rw [Node.get_eq_found hfr]
            exact List.getElem?_set_self hlt
          | inr i =>
            obtain ⟨hlen, hw⟩ : cs.length = ks.length + 1 ∧
                Node.wfChildren lo hi ks cs = true := by
              rcases hwf.2.2 with ⟨rfl, rfl⟩ | h
              · simp at hemp
              · exact h
            have hilt : i < cs.length := by
              have := keyFind_inr_le_length hfr
              omega
            cases hc : cs[i]? with
            | none =>
              rw [List.getElem?_eq_none_iff] at hc
              omega
            | some c =>
              rw [Node.put_eq_descend hgt heq hemp hfr hc]
              have hcset : (cs.set i (c.put k v kl))[i]? = some (c.put k v kl) :=
                List.getElem?_set_self hilt
              have hcm : c ∈ cs := List.getElem?_mem hc
              obtain ⟨lo2, hi2, hcwf⟩ := Node.wfChildren_mem_wf hw hcm
              have ih := ihc ⟨c, hcm⟩ lo2 hi2 hcwf k v kl
              constructor
              · rw [Node.get_eq_descend hfr hcset]
                exact ih.1
              · rw [Node.contains_eq_descend hfr hcset]
                exact ih.2

end C2Proof

/-- C2.  Get-after-insert: for every well-formed tree, key `k` and value
`v`, after `insert(k, v)` a `get(k)` returns `Some(v)` and `contains(k)`
returns `true`, whether or not `k` was previously present.  (`insert`
returning `Ok` corresponds to the pure model's totality: its only
fallible steps are store loads, which the model resolves; the level
function computed by `calc_level` is the parameter `calcLevel`.) -/
theorem claim_C2_get_after_insert {K V : Type} [LinearOrder K]
    (t : MerkleSearchTree K V) (calcLevel : K → Nat) (k : K) (v : V)
    (hwf : t.root.wfb none none = true) :
    (t.insert calcLevel k v).get k = some v ∧
      (t.insert calcLevel k v).contains k = true :=
  Node.get_put t.root none none hwf k v (calcLevel k)

/-- Witness for C2 at a concrete input: inserting `(5, 7)` at level 0
into the well-formed one-entry tree makes `get 5` return `some 7` and
`contains 5` return `true`. -/
theorem claim_C2_get_after_insert_witness :
    exTree1.root.wfb none none = true ∧
      ((exTree1.insert (fun _ => 0) 5 7).get 5 = some 7 ∧
        (exTree1.insert (fun _ => 0) 5 7).contains 5 = true) := by
  have h1 : exTree1.root.wfb none none = true := by
    simp [exTree1, Node.wfb, Node.wfChildren, sortedB, lbB, ubB, Node.empty]
  exact ⟨h1, claim_C2_get_after_insert exTree1 (fun _ => 0) 5 7 h1⟩

end FileMst

namespace FileMst

section FlatModel

variable {K V : Type} [LinearOrder K]

/-- Insertion into an association list kept sorted by key, replacing the
value on an equal key.  This is the specification-side model of the
contents of a single-level tree; it mirrors the comparisons performed by
`keyFind`, branch for branch. -/
def assocInsert (k : K) (v : V) : List (K × V) → List (K × V)
  | [] => [(k, v)]
  | (k2, v2) :: t =>
    if k < k2 then (k, v) :: (k2, v2) :: t
    else if k2 < k then (k2, v2) :: assocInsert k v t
    else (k, v) :: t

/-- Left fold of `assocInsert` over a pair list, starting from an
accumulator. -/
def assocFold (m : List (K × V)) (pairs : List (K × V)) : List (K × V) :=
  pairs.foldl (fun acc p => assocInsert p.1 p.2 acc) m

/-- The single flat node holding the entries of `m` at level `L`, with
one empty level-0 child per slot: the shape every tree built purely from
level-`L` insertions takes. -/
def flatNode (L : Nat) (m : List (K × V)) : Node K V :=
  Node.mk L (m.map Prod.fst) (m.map Prod.snd)
    (List.replicate (m.length + 1) (Node.empty 0))

/-- The canonical root for contents `m` at insertion level `L`: the
loaded empty node of a fresh tree when `m` is empty, the flat node
otherwise. -/
def canonicalRoot (L : Nat) (m : List (K × V)) : Node K V :=
  if m.isEmpty then Node.empty 0 else flatNode L m

theorem assocInsert_found {m : List (K × V)} {k : K} {v : V} {i : Nat}
    (hf : keyFind (m.map Prod.fst) k = .inl i) :
    (assocInsert k v m).map Prod.fst = m.map Prod.fst ∧
    (assocInsert k v m).map Prod.snd = (m.map Prod.snd).set i v ∧
    (assocInsert k v m).length = m.length := by
  induction m generalizing i with
  | nil => simp [keyFind] at hf
  | cons p t ih =>
    obtain ⟨k2, v2⟩ := p
    simp only [List.map_cons, keyFind] at hf
    rw [assocInsert]
    by_cases h1 : k < k2
    · rw [if_pos h1] at hf
      cases hf
    · rw [if_neg h1] at hf
      by_cases h2 : k2 < k
      · rw [if_pos h2] at hf
        cases hj : keyFind (t.map Prod.fst) k with
        | inl j =>
          rw [hj] at hf
          simp only [Sum.inl.injEq] at hf
          subst hf
          rw [if_neg h1, if_pos h2]
          have := ih hj
          simp [this.1, this.2.1, this.2.2]
        | inr j =>
          rw [hj] at hf
          simp at hf
      · rw [if_neg h2] at hf
        simp only [Sum.inl.injEq] at hf
        subst hf
        have hk2 : k = k2 := le_antisymm (not_lt.mp h2) (not_lt.mp h1)
        rw [if_neg h1, if_neg h2]
        subst hk2
        simp

theorem assocInsert_miss {m : List (K × V)} {k : K} {v : V} {i : Nat}
    (hf : keyFind (m.map Prod.fst) k = .inr i) :
    (assocInsert k v m).map Prod.fst = (m.map Prod.fst).insertIdx i k ∧
    (assocInsert k v m).map Prod.snd = (m.map Prod.snd).insertIdx i v ∧
    (assocInsert k v m).length = m.length + 1 := by
  induction m generalizing i with
  | nil =>
    simp only [keyFind, List.map_nil] at hf
    cases hf
    simp [assocInsert]
  | cons p t ih =>
    obtain ⟨k2, v2⟩ := p
    simp only [List.map_cons, keyFind] at hf
    rw [assocInsert]
    by_cases h1 : k < k2
    · rw [if_pos h1] at hf
      cases hf
      simp [if_pos h1]
    · rw [if_neg h1] at hf
      by_cases h2 : k2 < k
      · rw [if_pos h2] at hf
        cases hj : keyFind (t.map Prod.fst) k with
        | inl j =>
          rw [hj] at hf
          simp at hf
        | inr j =>
          rw [hj] at hf
          simp only [Sum.inr.injEq] at hf
          subst hf
          rw [if_neg h1, if_pos h2]
          have := ih hj
          simp [this.1, this.2.1, this.2.2]
      · rw [if_neg h2] at hf
        simp at hf

theorem List.set_replicate_self {α : Type} {a : α} {n i : Nat} :
    (List.replicate n a).set i a = List.replicate n a := by
  induction n generalizing i with
  | zero => simp
  | succ n ih =>
    cases i with
    | zero => simp [List.replicate_succ]
    | succ j => simp [List.replicate_succ, ih]

theorem List.insertIdx_replicate_self {α : Type} {a : α} {n i : Nat}
    (h : i ≤ n) :
    (List.replicate n a).insertIdx i a = List.replicate (n + 1) a := by
  induction n generalizing i with
  | zero =>
    interval_cases i
    simp
  | succ n ih =>
    cases i with
    | zero => simp [List.replicate_succ]
    | succ j =>
      rw [List.replicate_succ, List.insertIdx_succ_cons, ih (by omega)]
      rfl

end FlatModel

end FileMst

namespace FileMst

section FlatStep

variable {K V : Type} [LinearOrder K]

/-- One insertion step on the canonical single-level shape: `put` at the
tree's own level turns the canonical root for contents `m` into the flat
node for `assocInsert k v m`. -/
theorem Node.put_canonicalRoot (L : Nat) (m : List (K × V)) (k : K) (v : V) :
    (canonicalRoot L m).put k v L = flatNode L (assocInsert k v m) := by
  cases m with
  | nil =>
    rw [canonicalRoot]
    simp only [List.isEmpty_nil, if_true]
    by_cases hL : L = 0
    · subst hL
      rw [show (Node.empty 0 : Node K V) = Node.mk 0 [] [] [] from rfl]
      rw [Node.put_eq_same_miss_nochild rfl rfl
        (show keyFind ([] : List K) k = Sum.inr 0 by simp [keyFind])]
      rw [show (Node.empty (0 - 1) : Node K V) = Node.mk 0 [] [] [] from rfl]
      rw [Node.split_eq_empty rfl rfl]
      simp [flatNode, assocInsert, Node.empty, List.replicate]
    · rw [show (Node.empty 0 : Node K V) = Node.mk 0 [] [] [] from rfl]
      rw [Node.put_eq_above (by omega)]
      rw [Node.split_eq_empty rfl rfl]
      simp [flatNode, assocInsert, Node.empty, List.replicate]
  | cons p t =>
    rw [canonicalRoot]
    simp only [List.isEmpty_cons, if_false, Bool.false_eq_true]
    cases hf : keyFind ((p :: t).map Prod.fst) k with
    | inl i =>
      have hb := assocInsert_found (v := v) hf
      rw [flatNode, Node.put_eq_same_found rfl hf, flatNode]
      rw [hb.1, hb.2.1, hb.2.2]
    | inr i =>
      have hb := assocInsert_miss (v := v) hf
      have hile : i ≤ (p :: t).length := by
        have := keyFind_inr_le_length hf
        simpa using this
      have hc : (List.replicate ((p :: t).length + 1) (Node.empty 0 : Node K V))[i]?
          = some (Node.empty 0) :=
        List.getElem?_replicate_of_lt (by omega)
      rw [flatNode, Node.put_eq_same_miss_child rfl hf hc]
      rw [show (Node.empty 0 : Node K V) = Node.mk 0 [] [] [] from rfl]
      rw [Node.split_eq_empty rfl rfl]
      rw [show (Node.empty 0 : Node K V) = Node.mk 0 [] [] [] from rfl] at hc ⊢
      rw [List.set_replicate_self, List.insertIdx_replicate_self (by omega)]
      rw [flatNode, hb.1, hb.2.1, hb.2.2]
      rfl

end FlatStep

end FileMst

namespace FileMst

section FoldPerm

variable {K V : Type} [LinearOrder K]

theorem assocInsert_ne_nil {k : K} {v : V} {m : List (K × V)} :
    assocInsert k v m ≠ [] := by
  cases m with
  | nil => simp [assocInsert]
  | cons p t =>
    obtain ⟨k2, v2⟩ := p
    rw [assocInsert]
    split_ifs <;> simp

/-- Folding same-level insertions over the canonical single-level shape
tracks `assocFold` exactly. -/
theorem insertList_canonical (lvl : K → Nat) (L : Nat) :
    ∀ (pairs : List (K × V)), (∀ p ∈ pairs, lvl p.1 = L) →
      ∀ m : List (K × V),
        (MerkleSearchTree.mk (canonicalRoot L m)).insertList lvl pairs
          = ⟨canonicalRoot L (assocFold m pairs)⟩ := by
  intro pairs
  induction pairs with
  | nil =>
    intro _ m
    rfl
  | cons p ps ih =>
    intro hlvl m
    have hstep : (MerkleSearchTree.mk (canonicalRoot L m)).insert lvl p.1 p.2
        = ⟨canonicalRoot L (assocInsert p.1 p.2 m)⟩ := by
      rw [MerkleSearchTree.insert, hlvl p (List.mem_cons_self ..),
        Node.put_canonicalRoot]
      rw [show canonicalRoot L (assocInsert p.1 p.2 m)
          = flatNode L (assocInsert p.1 p.2 m) by
        rw [canonicalRoot, if_neg (by simpa [List.isEmpty_iff] using
          (assocInsert_ne_nil : assocInsert p.1 p.2 m ≠ []))]]
    show ((MerkleSearchTree.mk (canonicalRoot L m)).insert lvl p.1 p.2).insertList
        lvl ps = _
    rw [hstep]
    exact ih (fun q hq => hlvl q (List.mem_cons_of_mem _ hq)) _

/-- A fresh tree is the canonical root of empty contents. -/
theorem newTree_canonical (L : Nat) :
    (MerkleSearchTree.newTree : MerkleSearchTree K V)
      = ⟨canonicalRoot L []⟩ := rfl

theorem assocInsert_mem {k : K} {v : V} {m : List (K × V)} {q : K × V}
    (hq : q ∈ assocInsert k v m) : q.1 = k ∨ q ∈ m := by
  induction m with
  | nil =>
    simp only [assocInsert, List.mem_singleton] at hq
    subst hq
    exact Or.inl rfl
  | cons p t ih =>
    obtain ⟨k2, v2⟩ := p
    rw [assocInsert] at hq
    split_ifs at hq with h1 h2
    · rcases List.mem_cons.mp hq with rfl | hq
      · exact Or.inl rfl
      · exact Or.inr hq
    · rcases List.mem_cons.mp hq with rfl | hq
      · exact Or.inr (List.mem_cons_self ..)
      · rcases ih hq with h | h
        · exact Or.inl h
        · exact Or.inr (List.mem_cons_of_mem _ h)
    · rcases List.mem_cons.mp hq with rfl | hq
      · exact Or.inl rfl
      · exact Or.inr (List.mem_cons_of_mem _ hq)

theorem assocInsert_sorted {k : K} {v : V} {m : List (K × V)}
    (h : List.Sorted (fun p q : K × V => p.1 < q.1) m) :
    List.Sorted (fun p q : K × V => p.1 < q.1) (assocInsert k v m) := by
  induction m with
  | nil => simp [assocInsert]
  | cons p t ih =>
    obtain ⟨k2, v2⟩ := p
    rw [List.sorted_cons] at h
    rw [assocInsert]
    split_ifs with h1 h2
    · rw [List.sorted_cons]
      refine ⟨?_, List.sorted_cons.mpr h⟩
      intro q hq
      rcases List.mem_cons.mp hq with rfl | hq
      · exact h1
      · exact lt_trans h1 (h.1 q hq)
    · rw [List.sorted_cons]
      refine ⟨?_, ih h.2⟩
      intro q hq
      rcases assocInsert_mem hq with hqe | hqm
      · rw [hqe]; exact h2
      · exact h.1 q hqm
    · have hk2 : k = k2 := le_antisymm (not_lt.mp h2) (not_lt.mp h1)
      rw [List.sorted_cons]
      refine ⟨?_, h.2⟩
      intro q hq
      rw [hk2]
      exact h.1 q hq

theorem assocFold_sorted {m pairs : List (K × V)}
    (h : List.Sorted (fun p q : K × V => p.1 < q.1) m) :
    List.Sorted (fun p q : K × V => p.1 < q.1) (assocFold m pairs) := by
  induction pairs generalizing m with
  | nil => exact h
  | cons p ps ih => exact ih (assocInsert_sorted h)

theorem assocInsert_perm {k : K} {v : V} {m : List (K × V)}
    (hk : k ∉ m.map Prod.fst) :
    (assocInsert k v m).Perm ((k, v) :: m) := by
  induction m with
  | nil => simp [assocInsert]
  | cons p t ih =>
    obtain ⟨k2, v2⟩ := p
    simp only [List.map_cons, List.mem_cons] at hk
    push_neg at hk
    rw [assocInsert]
    split_ifs with h1 h2
    · exact List.Perm.refl _
    · exact ((ih hk.2).cons (k2, v2)).trans (List.Perm.swap ..)
    · exact absurd (le_antisymm (not_lt.mp h2) (not_lt.mp h1)) hk.1

theorem assocFold_perm :
    ∀ (pairs m : List (K × V)), ((m ++ pairs).map Prod.fst).Nodup →
      (assocFold m pairs).Perm (m ++ pairs) := by
  intro pairs
  induction pairs with
  | nil =>
    intro m _
    simp [assocFold]
  | cons p ps ih =>
    intro m hnd
    have hkm : p.1 ∉ m.map Prod.fst := by
      rw [List.map_append, List.nodup_append] at hnd
      intro hmem
      exact hnd.2.2 hmem (by simp)
    have hstep : (assocInsert p.1 p.2 m).Perm ((p.1, p.2) :: m) :=
      assocInsert_perm hkm
    have hstep2 : (assocInsert p.1 p.2 m).Perm (p :: m) := by
      rw [Prod.mk.eta] at hstep
      exact hstep
    have happ : (assocInsert p.1 p.2 m ++ ps).Perm (m ++ p :: ps) :=
      (hstep2.append_right ps).trans List.perm_middle.symm
    have hnd2 : (((assocInsert p.1 p.2 m) ++ ps).map Prod.fst).Nodup :=
      ((happ.map Prod.fst).nodup_iff).mpr hnd
    exact (ih (assocInsert p.1 p.2 m) hnd2).trans happ

end FoldPerm

end FileMst

namespace FileMst

/-- Level function of the history-independence counterexample, standing
for blake3-derived levels on two concrete keys.  `Node::calc_level`
counts leading zero nibbles of `blake3(postcard(key))`; on the real
`String` keys `"k33" < "z0"` it computes levels 1 and 0 respectively, so
this assignment is realised by the shipped level function (keys are
renamed to `0 < 1`). -/
def lvlCE : Nat → Nat := fun k => if k = 0 then 1 else 0

/-- Counterexample to C1 as stated.  Two failure modes:
(1) with distinct keys at distinct levels (levels 1 and 0, realised by
blake3 on the string keys `"k33" < "z0"`), the two insertion orders of
the same pair multiset produce different root digests — inserting the
higher-level key second makes `split` wrap the empty left interval in a
pass-through node (empty keys, one child) whose digest is not the
all-zero digest of the plain empty node produced by the other order;
(2) a multiset with a repeated key and two different values is
order-sensitive for any level function, because the last write wins. -/
theorem claim_C1_counterexample :
    (([((0 : Nat), (0 : Nat)), (1, 1)].Perm [(1, 1), (0, 0)]) ∧
      (MerkleSearchTree.newTree.insertList lvlCE [(0, 0), (1, 1)]).rootHash ≠
        (MerkleSearchTree.newTree.insertList lvlCE [(1, 1), (0, 0)]).rootHash) ∧
    (([((0 : Nat), (1 : Nat)), (0, 2)].Perm [(0, 2), (0, 1)]) ∧
      (MerkleSearchTree.newTree.insertList (fun _ => 0) [(0, 1), (0, 2)]).rootHash ≠
        (MerkleSearchTree.newTree.insertList (fun _ => 0) [(0, 2), (0, 1)]).rootHash) := by
  constructor
  · refine ⟨by decide, ?_⟩
    simp [MerkleSearchTree.insertList, MerkleSearchTree.insert,
      MerkleSearchTree.newTree, MerkleSearchTree.rootHash, lvlCE,
      Node.put_eq_above, Node.put_eq_descend, Node.put_eq_same_miss_nochild,
      Node.put_eq_same_miss_child, Node.put_eq_same_found, Node.put_eq_fresh,
      Node.put_eq_descend_found, Node.split_eq_empty, Node.split_eq_main,
      Node.empty, Node.hash, Node.hashStream, keyFind]
  · refine ⟨by decide, ?_⟩
    simp [MerkleSearchTree.insertList, MerkleSearchTree.insert,
      MerkleSearchTree.newTree, MerkleSearchTree.rootHash,
      Node.put_eq_above, Node.put_eq_descend, Node.put_eq_same_miss_nochild,
      Node.put_eq_same_miss_child, Node.put_eq_same_found, Node.put_eq_fresh,
      Node.put_eq_descend_found, Node.split_eq_empty, Node.split_eq_main,
      Node.empty, Node.hash, Node.hashStream, keyFind]

end FileMst

namespace FileMst

/-- C1, amended.  History independence holds for multisets of pairs with
pairwise-distinct keys that all share one level: inserting such a
multiset in any two orders into fresh trees yields equal root digests.
(The counterexample shows both restrictions are necessary on this code:
repeated keys are order-sensitive through their values, and keys at two
different levels are order-sensitive through the pass-through nodes that
`split` creates.) -/
theorem claim_C1_history_independence_amended {K V : Type} [LinearOrder K]
    (calcLevel : K → Nat) (L : Nat) (l1 l2 : List (K × V))
    (hperm : l1.Perm l2) (hnodup : (l1.map Prod.fst).Nodup)
    (hlvl : ∀ p ∈ l1, calcLevel p.1 = L) :
    (MerkleSearchTree.newTree.insertList calcLevel l1).rootHash =
      (MerkleSearchTree.newTree.insertList calcLevel l2).rootHash := by
  haveI : IsAntisymm (K × V) (fun p q => p.1 < q.1) :=
    ⟨fun a b h1 h2 => absurd h2 (asymm h1)⟩
  have hnodup2 : (l2.map Prod.fst).Nodup :=
    ((hperm.map Prod.fst).nodup_iff).mp hnodup
  have hlvl2 : ∀ p ∈ l2, calcLevel p.1 = L :=
    fun p hp => hlvl p (hperm.mem_iff.mpr hp)
  have e1 : MerkleSearchTree.newTree.insertList calcLevel l1
      = ⟨canonicalRoot L (assocFold [] l1)⟩ := by
    rw [newTree_canonical L]
    exact insertList_canonical calcLevel L l1 hlvl []
  have e2 : MerkleSearchTree.newTree.insertList calcLevel l2
      = ⟨canonicalRoot L (assocFold [] l2)⟩ := by
    rw [newTree_canonical L]
    exact insertList_canonical calcLevel L l2 hlvl2 []
  have hfold : assocFold ([] : List (K × V)) l1 = assocFold [] l2 := by
    have hp := (assocFold_perm l1 [] (by simpa using hnodup)).trans
      (hperm.trans (assocFold_perm l2 [] (by simpa using hnodup2)).symm)
    have hs1 : List.Sorted (fun p q : K × V => p.1 < q.1) (assocFold [] l1) :=
      assocFold_sorted (by simp)
    have hs2 : List.Sorted (fun p q : K × V => p.1 < q.1) (assocFold [] l2) :=
      assocFold_sorted (by simp)
    exact List.eq_of_perm_of_sorted hp hs1 hs2
  rw [e1, e2, hfold]

/-- Witness for the amended C1 at a concrete input: the two orders of
the distinct-key, same-level pair list `[(1, 10), (2, 20)]` give equal
root digests. -/
theorem claim_C1_history_independence_amended_witness :
    (([((1 : Nat), (10 : Nat)), (2, 20)].Perm [(2, 20), (1, 10)]) ∧
      ([((1 : Nat), (10 : Nat)), (2, 20)].map Prod.fst).Nodup ∧
      (∀ p ∈ [((1 : Nat), (10 : Nat)), (2, 20)], (fun _ => 0) p.1 = 0)) ∧
    (MerkleSearchTree.newTree.insertList (fun _ => 0) [(1, 10), (2, 20)]).rootHash =
      (MerkleSearchTree.newTree.insertList (fun _ => 0) [(2, 20), (1, 10)]).rootHash := by
  refine ⟨⟨by decide, by decide, by decide⟩, ?_⟩
  exact claim_C1_history_independence_amended (fun _ => 0) 0
    [(1, 10), (2, 20)] [(2, 20), (1, 10)] (by decide) (by decide) (by decide)

end FileMst

namespace FileMst

/-! ### Equation lemmas for `delete` and `merge` -/

section DeleteEqs

variable {K V : Type} [LinearOrder K] {l i : Nat} {ks : List K}
  {vs : List V} {cs : List (Node K V)} {k : K} {c : Node K V}

theorem Node.merge_nil_left {l2 : Nat} {r : Node K V} :
    Node.merge (Node.mk l2 [] [] []) r = r := by
  rw [Node.merge]
  simp [Node.keys, Node.children]

theorem Node.delete_eq_found (hf : keyFind ks k = .inl i) :
    (Node.mk l ks vs cs).delete k =
      (Node.mk l (ks.eraseIdx i) (vs.eraseIdx i)
        (((cs.eraseIdx i).eraseIdx i).insertIdx i
          (Node.merge (cs.getD i (Node.empty 0)) (cs.getD (i + 1) (Node.empty 0)))),
       true) := by
  rw [Node.delete, hf]

theorem Node.delete_eq_miss_leaf (hf : keyFind ks k = .inr i) (hcs : cs = []) :
    (Node.mk l ks vs cs).delete k = (Node.mk l ks vs cs, false) := by
  subst hcs
  rw [Node.delete, hf]
  simp

theorem Node.delete_eq_descend (hf : keyFind ks k = .inr i)
    (hc : cs[i]? = some c) :
    (Node.mk l ks vs cs).delete k =
      if (c.delete k).2 then
        (Node.mk l ks vs (cs.set i (c.delete k).1), true)
      else (Node.mk l ks vs cs, false) := by
  have hne : ¬ cs.isEmpty = true := by
    intro he
    rw [List.isEmpty_iff] at he
    subst he
    simp at hc
  rw [Node.delete, hf]
  split
  · rename_i c2 hc2
    cases hc2
  · rename_i c2 hc2
    cases hc2
    rw [if_neg hne]
    split
    · rename_i hc3
      rw [hc] at hc3
      cases hc3
    · rename_i c3 hc3
      rw [hc] at hc3
      cases hc3
      rfl

end DeleteEqs

end FileMst

namespace FileMst

/-! ### Delete on the canonical single-level shape -/

section FlatDelete

variable {K V : Type} [LinearOrder K]

theorem List.eraseIdx_replicate_succ {α : Type} {a : α} {n i : Nat}
    (h : i ≤ n) :
    (List.replicate (n + 1) a).eraseIdx i = List.replicate n a := by
  induction n generalizing i with
  | zero =>
    interval_cases i
    simp
  | succ n ih =>
    cases i with
    | zero => simp [List.replicate_succ]
    | succ j =>
      rw [List.replicate_succ (n := n + 1), List.eraseIdx_cons_succ,
        ih (by omega)]
      rfl

theorem keyFind_not_mem {k : K} {ks : List K} (h : k ∉ ks) :
    ∃ i, keyFind ks k = .inr i := by
  induction ks with
  | nil => exact ⟨0, rfl⟩
  | cons x xs ih =>
    have hkx : k ≠ x := fun he => h (he ▸ List.mem_cons_self x xs)
    by_cases h1 : k < x
    · exact ⟨0, by rw [keyFind, if_pos h1]⟩
    · have h2 : x < k := lt_of_le_of_ne (not_lt.mp h1) (Ne.symm hkx)
      obtain ⟨j, hj⟩ := ih (fun hm => h (List.mem_cons_of_mem _ hm))
      exact ⟨j + 1, by rw [keyFind, if_neg h1, if_pos h2, hj]⟩

/-- Deleting an absent-before-the-insert key from the flat node the
insertion produced restores the flat node of the original contents (the
merge of the two bracketing empty children is again an empty child). -/
theorem Node.delete_flat_insert {L : Nat} {m : List (K × V)} {k : K} {v : V}
    (hk : k ∉ m.map Prod.fst) :
    Node.delete (flatNode L (assocInsert k v m)) k
      = (Node.mk L (m.map Prod.fst) (m.map Prod.snd)
          (List.replicate (m.length + 1) (Node.empty 0)), true) := by
  obtain ⟨i, hi⟩ := keyFind_not_mem hk
  have hb := assocInsert_miss (v := v) hi
  have hile : i ≤ m.length := by simpa using keyFind_inr_le_length hi
  have hfound : keyFind ((assocInsert k v m).map Prod.fst) k = .inl i := by
    rw [hb.1]
    exact keyFind_insertIdx hi
  rw [flatNode, Node.delete_eq_found hfound, hb.1, hb.2.1, hb.2.2]
  have hg1 : (List.replicate (m.length + 1 + 1) (Node.empty 0 : Node K V)).getD
      i (Node.empty 0) = Node.empty 0 := by
    rw [List.getD_eq_getElem?_getD, List.getElem?_replicate_of_lt (by omega)]
    rfl
  have hg2 : (List.replicate (m.length + 1 + 1) (Node.empty 0 : Node K V)).getD
      (i + 1) (Node.empty 0) = Node.empty 0 := by
    rw [List.getD_eq_getElem?_getD, List.getElem?_replicate_of_lt (by omega)]
    rfl
  rw [hg1, hg2, List.eraseIdx_insertIdx, List.eraseIdx_insertIdx]
  rw [show (Node.empty 0 : Node K V) = Node.mk 0 [] [] [] from rfl,
    Node.merge_nil_left]
  rw [show (Node.mk 0 [] [] [] : Node K V) = Node.empty 0 from rfl]
  rw [List.eraseIdx_replicate_succ (by omega),
    List.eraseIdx_replicate_succ (by omega),
    List.insertIdx_replicate_self (by omega)]

end FlatDelete

end FileMst

namespace FileMst

section C3Main

variable {K V : Type} [LinearOrder K]

/-- `remove` after a same-level `put` of an absent key on the canonical
single-level shape restores the canonical tree exactly (when the
contents are empty the keyless intermediate root collapses to its empty
child 0, which is again the fresh root). -/
theorem remove_put_canonicalRoot {L : Nat} {m : List (K × V)} {k : K} {v : V}
    (hk : k ∉ m.map Prod.fst) :
    (MerkleSearchTree.mk ((canonicalRoot L m).put k v L)).remove k
      = ⟨canonicalRoot L m⟩ := by
  rw [Node.put_canonicalRoot]
  simp only [MerkleSearchTree.remove, Node.delete_flat_insert hk]
  cases m with
  | nil =>
    simp [canonicalRoot, Node.keys, Node.children, Node.empty, List.replicate]
  | cons p t =>
    simp [canonicalRoot, flatNode, Node.keys, Node.children]

theorem mem_map_fst_assocFold {x : K} : ∀ {pairs m : List (K × V)},
    x ∈ (assocFold m pairs).map Prod.fst →
      x ∈ m.map Prod.fst ∨ x ∈ pairs.map Prod.fst := by
  intro pairs
  induction pairs with
  | nil =>
    intro m hx
    exact Or.inl (by simpa [assocFold] using hx)
  | cons p ps ih =>
    intro m hx
    have hx2 : x ∈ (assocFold (assocInsert p.1 p.2 m) ps).map Prod.fst := hx
    rcases ih hx2 with h | h
    · rw [List.mem_map] at h
      obtain ⟨q, hq, hqx⟩ := h
      rcases assocInsert_mem hq with h1 | h1
      · refine Or.inr ?_
        simp only [List.map_cons, List.mem_cons]
        exact Or.inl (by rw [← hqx, h1])
      · refine Or.inl ?_
        rw [List.mem_map]
        exact ⟨q, h1, hqx⟩
    · refine Or.inr ?_
      simp only [List.map_cons, List.mem_cons]
      exact Or.inr h

theorem containsKey_canonicalRoot_not_mem {L : Nat} {m : List (K × V)} {k : K}
    (hk : k ∉ m.map Prod.fst) :
    (canonicalRoot L m).containsKey k = false := by
  obtain ⟨i, hi⟩ := keyFind_not_mem hk
  cases m with
  | nil =>
    rw [canonicalRoot]
    simp only [List.isEmpty_nil, if_true]
    rw [show (Node.empty 0 : Node K V) = Node.mk 0 [] [] [] from rfl,
      Node.containsKey]
    simp [keyFind]
  | cons p t =>
    rw [canonicalRoot]
    simp only [List.isEmpty_cons, if_false, Bool.false_eq_true]
    have hile := keyFind_inr_le_length hi
    have hc : (List.replicate ((p :: t).length + 1)
        (Node.empty 0 : Node K V))[i]? = some (Node.empty 0) := by
      refine List.getElem?_replicate_of_lt ?_
      simp only [List.length_map, List.length_cons] at hile ⊢
      omega
    rw [flatNode, Node.contains_eq_descend hi hc]
    rw [show (Node.empty 0 : Node K V) = Node.mk 0 [] [] [] from rfl,
      Node.containsKey]
    simp [keyFind]

end C3Main

end FileMst

namespace FileMst

/-- Counterexample to C3 as stated.  Two failure modes:
(1) with the key already present (all levels 0), insert overwrites the
value and the subsequent remove deletes the pre-existing entry, so the
digest reverts to the empty digest, not to the one-entry digest the tree
had before the insert; (2) even for an absent key, when the tree's root
sits at level 1 (blake3 level 1, realised e.g. by the string key
`"k33"`) and a level-0 key is inserted below it and removed again, the
removal leaves behind a pass-through node (empty keys, one empty child)
whose digest is not the all-zero digest of the empty node that occupied
that child slot before, so the root digest differs from the digest
before the insert. -/
theorem claim_C3_counterexample :
    ((((MerkleSearchTree.newTree.insertList (fun _ => 0)
          [((5 : Nat), (1 : Nat))]).insert (fun _ => 0) 5 2).remove 5).rootHash
      ≠ (MerkleSearchTree.newTree.insertList (fun _ => 0)
          [((5 : Nat), (1 : Nat))]).rootHash) ∧
    ((((MerkleSearchTree.newTree.insertList lvlCE
          [((0 : Nat), (7 : Nat))]).insert lvlCE 5 9).remove 5).rootHash
      ≠ (MerkleSearchTree.newTree.insertList lvlCE
          [((0 : Nat), (7 : Nat))]).rootHash) := by
  constructor
  · simp [MerkleSearchTree.insertList, MerkleSearchTree.insert,
      MerkleSearchTree.newTree, MerkleSearchTree.remove,
      MerkleSearchTree.rootHash,
      Node.put_eq_above, Node.put_eq_descend, Node.put_eq_same_miss_nochild,
      Node.put_eq_same_miss_child, Node.put_eq_same_found, Node.put_eq_fresh,
      Node.put_eq_descend_found, Node.split_eq_empty, Node.split_eq_main,
      Node.delete_eq_found, Node.delete_eq_descend, Node.delete_eq_miss_leaf,
      Node.merge_nil_left, Node.empty, Node.keys, Node.children,
      Node.hash, Node.hashStream, keyFind]
  · simp [MerkleSearchTree.insertList, MerkleSearchTree.insert,
      MerkleSearchTree.newTree, MerkleSearchTree.remove,
      MerkleSearchTree.rootHash, lvlCE,
      Node.put_eq_above, Node.put_eq_descend, Node.put_eq_same_miss_nochild,
      Node.put_eq_same_miss_child, Node.put_eq_same_found, Node.put_eq_fresh,
      Node.put_eq_descend_found, Node.split_eq_empty, Node.split_eq_main,
      Node.delete_eq_found, Node.delete_eq_descend, Node.delete_eq_miss_leaf,
      Node.merge_nil_left, Node.empty, Node.keys, Node.children,
      Node.hash, Node.hashStream, keyFind]

end FileMst

namespace FileMst

/-- C3, amended.  For a tree built from keys all at one level and a key
`k` at that same level that is not among the inserted keys,
`insert(k, v); remove(k)` restores the tree exactly: the tree state, and
with it the root digest, equals what it was immediately before the
insert, and `contains(k)` is false afterwards.  (The counterexample
shows both restrictions matter on this code: a present key's old entry
is destroyed, and a level mismatch leaves a pass-through node behind.) -/
theorem claim_C3_remove_after_insert_amended {K V : Type} [LinearOrder K]
    (calcLevel : K → Nat) (L : Nat) (pairs : List (K × V)) (k : K) (v : V)
    (hlvl : ∀ p ∈ pairs, calcLevel p.1 = L) (hkL : calcLevel k = L)
    (hk : k ∉ pairs.map Prod.fst) :
    ((MerkleSearchTree.newTree.insertList calcLevel pairs).insert
        calcLevel k v).remove k
      = MerkleSearchTree.newTree.insertList calcLevel pairs ∧
    (((MerkleSearchTree.newTree.insertList calcLevel pairs).insert
        calcLevel k v).remove k).rootHash
      = (MerkleSearchTree.newTree.insertList calcLevel pairs).rootHash ∧
    (((MerkleSearchTree.newTree.insertList calcLevel pairs).insert
        calcLevel k v).remove k).contains k = false := by
  have e1 : MerkleSearchTree.newTree.insertList calcLevel pairs
      = ⟨canonicalRoot L (assocFold [] pairs)⟩ := by
    rw [newTree_canonical L]
    exact insertList_canonical calcLevel L pairs hlvl []
  have hkm : k ∉ (assocFold ([] : List (K × V)) pairs).map Prod.fst := by
    intro hmem
    rcases mem_map_fst_assocFold hmem with h | h
    · simp at h
    · exact hk h
  have hrem : ((MerkleSearchTree.newTree.insertList calcLevel pairs).insert
      calcLevel k v).remove k = MerkleSearchTree.newTree.insertList calcLevel pairs := by
    rw [e1, MerkleSearchTree.insert, hkL]
    exact remove_put_canonicalRoot hkm
  refine ⟨hrem, by rw [hrem], ?_⟩
  rw [hrem, e1]
  simp only [MerkleSearchTree.contains]
  exact containsKey_canonicalRoot_not_mem hkm

/-- Witness for the amended C3 at a concrete input: inserting key 2 into
the tree holding only key 1 (all levels 0) and removing it again
restores the tree, its digest, and leaves key 2 absent. -/
theorem claim_C3_remove_after_insert_amended_witness :
    ((∀ p ∈ [((1 : Nat), (10 : Nat))], (fun _ => 0 : Nat → Nat) p.1 = 0) ∧
      (fun _ => 0 : Nat → Nat) 2 = 0 ∧
      (2 : Nat) ∉ [((1 : Nat), (10 : Nat))].map Prod.fst) ∧
    (((MerkleSearchTree.newTree.insertList (fun _ => 0)
        [((1 : Nat), (10 : Nat))]).insert (fun _ => 0) 2 5).remove 2
      = MerkleSearchTree.newTree.insertList (fun _ => 0) [(1, 10)] ∧
    ((((MerkleSearchTree.newTree.insertList (fun _ => 0)
        [((1 : Nat), (10 : Nat))]).insert (fun _ => 0) 2 5).remove 2).rootHash
      = (MerkleSearchTree.newTree.insertList (fun _ => 0) [(1, 10)]).rootHash) ∧
    ((((MerkleSearchTree.newTree.insertList (fun _ => 0)
        [((1 : Nat), (10 : Nat))]).insert (fun _ => 0) 2 5).remove 2).contains 2
      = false)) := by
  refine ⟨⟨by decide, by decide, by decide⟩, ?_⟩
  exact claim_C3_remove_after_insert_amended (fun _ => 0) 0 [(1, 10)] 2 5
    (by decide) rfl (by decide)

end FileMst

namespace FileMst

/-! ### The file-backed store (`src/store.rs`) and tree facade (`src/tree.rs`)

The store is modelled as explicit state: the file is a length plus the
list of node records written so far plus the metadata page, the cache is
an association list, and every store operation appends to a chronological
event trace (`writeNode` / `writeMeta` / `flushSync`) so ordering claims
about the commit protocol can be stated.  The serialized size of a node
record is a parameter `encSize` standing for the length of the postcard
encoding, which the source treats as an opaque codec. -/

/-- `PAGE_SIZE` from the crate root: the reserved metadata page size and
the alignment unit of the node region. -/
def PAGE_SIZE : Nat := 4096

mutual

/-- `Node<K, V>` from `src/node.rs` in its on-disk-aware form: unlike the
pure `Node` used for the algorithm proofs, this version keeps the stored
`hash` field and links children through `Link`, exactly as the source
struct does. -/
inductive LNode (K V : Type) : Type where
  | mk (level : Nat) (keys : List K) (values : List V)
      (children : List (Link K V)) (hash : Digest K V)

/-- `Link<K, V>` from `src/node.rs`: a child pointer that is either an
offset/digest pair on disk or a loaded in-memory node. -/
inductive Link (K V : Type) : Type where
  | disk (offset : Nat) (hash : Digest K V)
  | loaded (node : LNode K V)

end

namespace LNode

variable {K V : Type}

/-- Projection: the `level` field. -/
def level : LNode K V → Nat
  | .mk l _ _ _ _ => l

/-- Projection: the `keys` field. -/
def keys : LNode K V → List K
  | .mk _ ks _ _ _ => ks

/-- Projection: the `values` field. -/
def values : LNode K V → List V
  | .mk _ _ vs _ _ => vs

/-- Projection: the `children` field. -/
def children : LNode K V → List (Link K V)
  | .mk _ _ _ cs _ => cs

/-- Projection: the stored `hash` field. -/
def hash : LNode K V → Digest K V
  | .mk _ _ _ _ h => h

end LNode

namespace Link

variable {K V : Type}

/-- `Link::hash` from `src/node.rs`: the digest stored on the link, or
the loaded node's stored hash. -/
def hash : Link K V → Digest K V
  | .disk _ h => h
  | .loaded n => n.hash

/-- Whether the link is the `Loaded` variant (the dirtiness test of
`flush_recursive`). -/
def isLoaded : Link K V → Bool
  | .loaded _ => true
  | .disk _ _ => false

/-- The `(offset, hash)` pair `as_disk_ref` serializes for a child link.
The source panics on a `Loaded` child ("Cannot serialize a node with
dirty children"); every caller first checks for dirty children, so the
`loaded` fall-back `(0, hash)` is unreachable. -/
def diskMeta : Link K V → Nat × Digest K V
  | .disk o h => (o, h)
  | .loaded n => (0, n.hash)

end Link

/-- The per-child hasher updates of `Node::rehash` on stored child
digests: child `i`'s digest followed by the `(keys[i], values[i])` entry
when `i` is below the key count — the same stream shape as the pure
`Node.hashStream`, but reading each child digest off its link instead of
recomputing it. -/
def rehashStream {K V : Type} :
    List (Digest K V) → List K → List V → List (Digest K V × Option (K × V))
  | [], _, _ => []
  | h :: hs, ks, vs =>
    (h,
      match ks, vs with
      | k :: _, v :: _ => some (k, v)
      | _, _ => none) :: rehashStream hs ks.tail vs.tail

/-- `Node::rehash` from `src/node.rs` for the linked representation: the
digest a freshly constructed node stores in its `hash` field. -/
def LNode.rehash {K V : Type} (level : Nat) (keys : List K) (values : List V)
    (children : List (Link K V)) : Digest K V :=
  if keys.isEmpty && children.isEmpty then .zero
  else .node level keys.length (rehashStream (children.map Link.hash) keys values)

/-- `Node::empty(level)` in the linked representation: no keys, values or
children, all-zero stored hash. -/
def LNode.empty {K V : Type} (level : Nat) : LNode K V :=
  .mk level [] [] [] Digest.zero

/-- `DiskNode<K, V>` from `src/node.rs`: the record serialized into the
node region — children as `(offset, digest)` pairs, stored hash kept. -/
structure DiskNodeM (K V : Type) : Type where
  level : Nat
  keys : List K
  values : List V
  children : List (Nat × Digest K V)
  hash : Digest K V

/-- `Node::from_disk` from `src/node.rs`: rebuild a linked node from a
record, turning each child pair back into a `Disk` link and keeping the
stored hash. -/
def LNode.fromDisk {K V : Type} (d : DiskNodeM K V) : LNode K V :=
  .mk d.level d.keys d.values (d.children.map fun c => Link.disk c.1 c.2) d.hash

/-- One observable store operation, for stating ordering properties of
the commit protocol: a node-record write (at its start offset), a
metadata-page write, or a flush followed by a durable sync (the body of
`Store::flush`). -/
inductive StoreEvent (K V : Type) : Type where
  | writeNode (offset : Nat) (record : DiskNodeM K V)
  | writeMeta (rootOffset : Nat) (rootHash : Digest K V)
  | flushSync

/-- `Store<K, V>` from `src/store.rs` together with the backing file:
`size` is the file length in bytes, `records` the node records written
so far (most recent first), `metaPage` the root offset and digest stored
at byte 0 (offset 0 meaning no committed root), `cache` the in-memory
offset-to-node map, and `events` the chronological trace of store
operations. -/
structure StoreM (K V : Type) : Type where
  size : Nat
  records : List (Nat × DiskNodeM K V)
  metaPage : Nat × Digest K V
  cache : List (Nat × LNode K V)
  events : List (StoreEvent K V)

namespace StoreM

variable {K V : Type}

/-- `Store::write_node` from `src/store.rs`: append the record at the end
of the file, first padding to the next page boundary when a record of at
most `PAGE_SIZE` bytes (4-byte length prefix included) would cross one;
returns the record's start offset.  `encSize` stands for the length of
the postcard payload. -/
def writeNode (encSize : DiskNodeM K V → Nat) (s : StoreM K V)
    (d : DiskNodeM K V) : StoreM K V × Nat :=
  let nodeTotalLen := encSize d + 4
  let currentPos := s.size
  let startOffset :=
    if nodeTotalLen ≤ PAGE_SIZE then
      let offsetInPage := currentPos % PAGE_SIZE
      let spaceRemaining := PAGE_SIZE - offsetInPage
      if nodeTotalLen > spaceRemaining then currentPos + spaceRemaining
      else currentPos
    else currentPos
  ({ s with
      size := startOffset + nodeTotalLen,
      records := (startOffset, d) :: s.records,
      events := s.events ++ [StoreEvent.writeNode startOffset d] }, startOffset)

/-- `Store::write_metadata` from `src/store.rs`: seek to byte 0 and write
the root offset and digest.  (Writing 40 bytes at offset 0 grows a file
shorter than 40 bytes, hence the `max`.) -/
def writeMetadata (s : StoreM K V) (offset : Nat) (digest : Digest K V) :
    StoreM K V :=
  { s with
      metaPage := (offset, digest),
      size := max s.size 40,
      events := s.events ++ [StoreEvent.writeMeta offset digest] }

/-- `Store::flush` from `src/store.rs`: flush the buffer and durably sync
the file — recorded as one `flushSync` event. -/
def flushAll (s : StoreM K V) : StoreM K V :=
  { s with events := s.events ++ [StoreEvent.flushSync] }

/-- `Store::read_metadata` from `src/store.rs`: a root offset of 0 means
no committed root. -/
def readMetadata (s : StoreM K V) : Option (Nat × Digest K V) :=
  if s.metaPage.1 = 0 then none else some s.metaPage

/-- `Store::load_node` from `src/store.rs`: serve from the cache when
possible, otherwise read and decode the record at `offset` and cache it.
An offset at which no record starts makes the read or the postcard
decode fail, modelled as the `error` result. -/
def loadNode (s : StoreM K V) (offset : Nat) :
    StoreM K V × Except Unit (LNode K V) :=
  match List.lookup offset s.cache with
  | some n => (s, .ok n)
  | none =>
    match List.lookup offset s.records with
    | none => (s, .error ())
    | some d =>
      let n := LNode.fromDisk d
      ({ s with cache := (offset, n) :: s.cache }, .ok n)

end StoreM

end FileMst

namespace FileMst

/-! ### Digest equality test and the tree facade over the store -/

mutual

/-- Structural equality test on symbolic digests (the source compares two
32-byte `Hash` values with `==`). -/
def Digest.beq {K V : Type} [DecidableEq K] [DecidableEq V] :
    Digest K V → Digest K V → Bool
  | .zero, .zero => true
  | .node l1 n1 s1, .node l2 n2 s2 =>
    l1 == l2 && n1 == n2 && Digest.beqStream s1 s2
  | _, _ => false

/-- Pointwise digest-stream equality test. -/
def Digest.beqStream {K V : Type} [DecidableEq K] [DecidableEq V] :
    List (Digest K V × Option (K × V)) → List (Digest K V × Option (K × V)) →
      Bool
  | [], [] => true
  | (d1, e1) :: t1, (d2, e2) :: t2 =>
    Digest.beq d1 d2 && (e1 == e2) && Digest.beqStream t1 t2
  | _, _ => false

end

/-- `MerkleSearchTree<K, V>` from `src/tree.rs` over the store model: the
current root link, the owning store, and the last committed pair. -/
structure TreeM (K V : Type) : Type where
  root : Link K V
  store : StoreM K V
  lastCommitted : Option (Nat × Digest K V)

namespace TreeM

variable {K V : Type}

/-- `MerkleSearchTree::new_temporary` from `src/tree.rs`: a loaded empty
root over `Store::new` on a fresh temporary file.  `Store::new` does not
extend the file to `PAGE_SIZE` the way `Store::open` does, so the file
length starts at 0. -/
def newTemporary : TreeM K V :=
  ⟨.loaded (LNode.empty 0), ⟨0, [], (0, .zero), [], []⟩, none⟩

/-- `MerkleSearchTree::open` composed with `Store::open`, on the
persistent content (length, records, metadata) of `s`: a fresh cache and
trace, the file extended to `PAGE_SIZE` when empty, and the root link
taken from the metadata page when it names one. -/
def openFrom (s : StoreM K V) : TreeM K V :=
  let s1 := if s.size = 0 then { s with size := PAGE_SIZE } else s
  let s2 : StoreM K V := { s1 with cache := [], events := [] }
  match s2.readMetadata with
  | some oh => ⟨.disk oh.1 oh.2, s2, some oh⟩
  | none => ⟨.loaded (LNode.empty 0), s2, none⟩

/-- `MerkleSearchTree::root_hash` from `src/tree.rs`. -/
def rootHash (t : TreeM K V) : Digest K V := t.root.hash

end TreeM

mutual

/-- `MerkleSearchTree::flush_recursive` from `src/tree.rs`: a `Disk` link
is already durable and returns its pair without touching the store; a
loaded node with no loaded children is serialized directly; otherwise all
children are flushed first (left to right) and the node is rewritten with
their fresh disk pairs.  The stored hash is returned unchanged. -/
def Link.flushRec {K V : Type} (encSize : DiskNodeM K V → Nat) :
    Link K V → StoreM K V → StoreM K V × Nat × Digest K V
  | .disk off h, s => (s, off, h)
  | .loaded (.mk l ks vs cs h), s =>
    if cs.any Link.isLoaded then
      let r := Link.flushList encSize cs s
      let w := StoreM.writeNode encSize r.1 ⟨l, ks, vs, r.2, h⟩
      (w.1, w.2, h)
    else
      let w := StoreM.writeNode encSize s ⟨l, ks, vs, cs.map Link.diskMeta, h⟩
      (w.1, w.2, h)

/-- The child loop of `flush_recursive`: flush each child in order,
threading the store, and collect the resulting `(offset, hash)` pairs. -/
def Link.flushList {K V : Type} (encSize : DiskNodeM K V → Nat) :
    List (Link K V) → StoreM K V → StoreM K V × List (Nat × Digest K V)
  | [], s => (s, [])
  | c :: rest, s =>
    let r := Link.flushRec encSize c s
    let r2 := Link.flushList encSize rest r.1
    (r2.1, (r.2.1, r.2.2) :: r2.2)

end

/-- `MerkleSearchTree::commit` from `src/tree.rs`: flush the root
recursively; if the resulting pair equals `last_committed`, return it
without publishing; otherwise write the metadata page, flush and sync,
rewrite the root as a `Disk` link and update the tracker. -/
def TreeM.commit {K V : Type} [DecidableEq K] [DecidableEq V]
    (encSize : DiskNodeM K V → Nat) (t : TreeM K V) :
    TreeM K V × Nat × Digest K V :=
  let r := Link.flushRec encSize t.root t.store
  let publish : TreeM K V × Nat × Digest K V :=
    (⟨.disk r.2.1 r.2.2, ((r.1.writeMetadata r.2.1 r.2.2).flushAll),
      some (r.2.1, r.2.2)⟩, r.2.1, r.2.2)
  match t.lastCommitted with
  | some lc =>
    if lc.1 == r.2.1 && Digest.beq lc.2 r.2.2 then
      ({ t with store := r.1 }, r.2.1, r.2.2)
    else publish
  | none => publish

end FileMst


namespace FileMst

theorem Digest.beq_iff {K V : Type} [iK : DecidableEq K] [iV : DecidableEq V] :
    ∀ a b : Digest K V, (Digest.beq a b = true ↔ a = b) := by
  intro a b
  induction a, b using Digest.beq.induct
    (motive_2 := fun s t =>
      (@Digest.beqStream K V iK iV s t = true ↔ s = t)) with
  | case1 => simp [Digest.beq]
  | case2 l1 n1 s1 l2 n2 s2 ih =>
    rw [Digest.beq]
    constructor
    · intro h
      simp only [Bool.and_eq_true, beq_iff_eq] at h
      obtain ⟨⟨h1, h2⟩, h3⟩ := h
      subst h1
      subst h2
      rw [ih.mp h3]
    · intro h
      cases h
      rw [ih.mpr rfl]
      simp
  | case3 t x h1 h2 =>
    cases t with
    | zero =>
      cases x with
      | zero => exact (h1 rfl rfl).elim
      | node l n s =>
        constructor
        · intro h
          rw [show Digest.beq Digest.zero (Digest.node l n s) = false by
            rw [Digest.beq] <;> simp] at h
          cases h
        · intro h
          cases h
    | node l n s =>
      cases x with
      | zero =>
        constructor
        · intro h
          rw [show Digest.beq (Digest.node l n s) Digest.zero = false by
            rw [Digest.beq] <;> simp] at h
          cases h
        · intro h
          cases h
      | node l2 n2 s2 => exact (h2 l n s l2 n2 s2 rfl rfl).elim
  | case4 => simp [Digest.beqStream]
  | case5 d1 e1 t1 d2 e2 t2 ih1 ih2 =>
    rw [Digest.beqStream]
    constructor
    · intro h
      simp only [Bool.and_eq_true, beq_iff_eq] at h
      obtain ⟨⟨h1, h2⟩, h3⟩ := h
      rw [ih1.mp h1, h2, ih2.mp h3]
    · intro h
      rw [List.cons.injEq, Prod.mk.injEq] at h
      obtain ⟨⟨h1, h2⟩, h3⟩ := h
      simp only [Bool.and_eq_true, beq_iff_eq]
      exact ⟨⟨ih1.mpr h1, h2⟩, ih2.mpr h3⟩
  | case6 t x h1 h2 =>
    cases t with
    | nil =>
      cases x with
      | nil => exact (h1 rfl rfl).elim
      | cons p t2 =>
        obtain ⟨d, e⟩ := p
        constructor
        · intro h
          rw [show Digest.beqStream [] ((d, e) :: t2) = false by
            rw [Digest.beqStream] <;> simp] at h
          cases h
        · intro h
          cases h
    | cons p t1 =>
      obtain ⟨d, e⟩ := p
      cases x with
      | nil =>
        constructor
        · intro h
          rw [show Digest.beqStream ((d, e) :: t1) [] = false by
            rw [Digest.beqStream] <;> simp] at h
          cases h
        · intro h
          cases h
      | cons q t2 =>
        obtain ⟨d2, e2⟩ := q
        exact (h2 d e t1 d2 e2 t2 rfl rfl).elim

/-- The link-resolution step repeated throughout `src/node.rs` and
`src/tree.rs`: a loaded node is used directly, a disk link goes through
`Store::load_node`. -/
def StoreM.resolve {K V : Type} (s : StoreM K V) :
    Link K V → StoreM K V × Except Unit (LNode K V)
  | .loaded n => (s, .ok n)
  | .disk off _ => s.loadNode off

/-- `Node::get` from `src/node.rs` over the store: the same binary-search
descent as the pure `Node.get`, resolving each child link (which can
fail) on the way down.  The fuel bounds the descent depth — the source
relies on the file being acyclic; exhausted fuel reports an I/O-style
error and the theorems use ample fuel. -/
def LNode.getE {K V : Type} [LinearOrder K] :
    Nat → LNode K V → K → StoreM K V → StoreM K V × Except Unit (Option V)
  | 0, _, _, s => (s, .error ())
  | fuel + 1, .mk _ ks vs cs _, k, s =>
    match keyFind ks k with
    | .inl i => (s, .ok vs[i]?)
    | .inr i =>
      if cs.isEmpty then (s, .ok none)
      else
        match cs[i]? with
        | none => (s, .error ())
        | some link =>
          match StoreM.resolve s link with
          | (s2, .error e) => (s2, .error e)
          | (s2, .ok c) => LNode.getE fuel c k s2

mutual

/-- `Node::put` from `src/node.rs` over the store, mirroring the pure
`Node.put` branch for branch but resolving child links through the store
(each resolution can fail) and computing each new node's stored hash with
`rehash`.  Out-of-bounds child indexing, which panics in the source, is
reported as an error, as is fuel exhaustion. -/
def LNode.putE {K V : Type} [LinearOrder K] :
    Nat → LNode K V → K → V → Nat → StoreM K V →
      StoreM K V × Except Unit (LNode K V)
  | 0, _, _, _, _, s => (s, .error ())
  | fuel + 1, .mk level ks vs cs hh, k, v, kl, s =>
    if kl > level then
      match LNode.splitE fuel (.mk level ks vs cs hh) k s with
      | (s2, .error e) => (s2, .error e)
      | (s2, .ok lr) =>
        let cs2 := [Link.loaded lr.1, Link.loaded lr.2]
        (s2, .ok (.mk kl [k] [v] cs2 (LNode.rehash kl [k] [v] cs2)))
    else if kl = level then
      match keyFind ks k with
      | .inl i =>
        (s, .ok (.mk level ks (vs.set i v) cs
          (LNode.rehash level ks (vs.set i v) cs)))
      | .inr i =>
        let step : StoreM K V × Except Unit (LNode K V) :=
          if cs.isEmpty then (s, .ok (LNode.empty (level - 1)))
          else
            match cs[i]? with
            | none => (s, .error ())
            | some link => StoreM.resolve s link
        match step with
        | (s2, .error e) => (s2, .error e)
        | (s2, .ok cts) =>
          match LNode.splitE fuel cts k s2 with
          | (s3, .error e) => (s3, .error e)
          | (s3, .ok lr) =>
            let ks2 := ks.insertIdx i k
            let vs2 := vs.insertIdx i v
            let cs2 := if cs.isEmpty then [Link.loaded lr.1, Link.loaded lr.2]
              else (cs.set i (Link.loaded lr.1)).insertIdx (i + 1)
                (Link.loaded lr.2)
            (s3, .ok (.mk level ks2 vs2 cs2 (LNode.rehash level ks2 vs2 cs2)))
    else if ks.isEmpty && cs.isEmpty then
      let cs2 : List (Link K V) :=
        [.loaded (LNode.empty 0), .loaded (LNode.empty 0)]
      (s, .ok (.mk kl [k] [v] cs2 (LNode.rehash kl [k] [v] cs2)))
    else
      match keyFind ks k with
      | .inl i =>
        (s, .ok (.mk level ks (vs.set i v) cs
          (LNode.rehash level ks (vs.set i v) cs)))
      | .inr i =>
        match cs[i]? with
        | none => (s, .error ())
        | some link =>
          match StoreM.resolve s link with
          | (s2, .error e) => (s2, .error e)
          | (s2, .ok c) =>
            match LNode.putE fuel c k v kl s2 with
            | (s3, .error e) => (s3, .error e)
            | (s3, .ok nc) =>
              let cs2 := cs.set i (Link.loaded nc)
              (s3, .ok (.mk level ks vs cs2 (LNode.rehash level ks vs cs2)))

/-- `Node::split` from `src/node.rs` over the store, mirroring the pure
`Node.split` but resolving the boundary child through the store and
storing rehash results. -/
def LNode.splitE {K V : Type} [LinearOrder K] :
    Nat → LNode K V → K → StoreM K V →
      StoreM K V × Except Unit (LNode K V × LNode K V)
  | 0, _, _, s => (s, .error ())
  | fuel + 1, .mk level ks vs cs _, splitKey, s =>
    if ks.isEmpty && cs.isEmpty then
      (s, .ok (LNode.empty level, LNode.empty level))
    else
      let idx := match keyFind ks splitKey with
        | .inl i => i
        | .inr i => i
      let rightStart := if ks[idx]? = some splitKey then idx + 1 else idx
      let step : StoreM K V × Except Unit (LNode K V × LNode K V) :=
        match cs[idx]? with
        | none => (s, .ok (LNode.empty 0, LNode.empty 0))
        | some link =>
          match StoreM.resolve s link with
          | (s2, .error e) => (s2, .error e)
          | (s2, .ok c) => LNode.splitE fuel c splitKey s2
      match step with
      | (s2, .error e) => (s2, .error e)
      | (s2, .ok mids) =>
        let lc := cs.take idx ++ [Link.loaded mids.1]
        let rc := Link.loaded mids.2 :: cs.drop (idx + 1)
        (s2, .ok
          (.mk level (ks.take idx) (vs.take idx) lc
            (LNode.rehash level (ks.take idx) (vs.take idx) lc),
           .mk level (ks.drop rightStart) (vs.drop rightStart) rc
            (LNode.rehash level (ks.drop rightStart) (vs.drop rightStart) rc)))

end

mutual

/-- `Node::delete` from `src/node.rs` over the store, mirroring the pure
`Node.delete` with store-resolved children and stored rehash results.
The two bracketing-children removals panic in the source when out of
bounds; here they are errors. -/
def LNode.deleteE {K V : Type} [LinearOrder K] :
    Nat → LNode K V → K → StoreM K V →
      StoreM K V × Except Unit (LNode K V × Bool)
  | 0, _, _, s => (s, .error ())
  | fuel + 1, .mk level ks vs cs hh, k, s =>
    match keyFind ks k with
    | .inl i =>
      match cs[i]?, cs[i + 1]? with
      | some lft, some rgt =>
        match LNode.mergeE fuel lft rgt s with
        | (s2, .error e) => (s2, .error e)
        | (s2, .ok merged) =>
          let ks2 := ks.eraseIdx i
          let vs2 := vs.eraseIdx i
          let cs2 := ((cs.eraseIdx i).eraseIdx i).insertIdx i merged
          (s2, .ok (.mk level ks2 vs2 cs2 (LNode.rehash level ks2 vs2 cs2),
            true))
      | _, _ => (s, .error ())
    | .inr i =>
      if cs.isEmpty then (s, .ok (.mk level ks vs cs hh, false))
      else
        match cs[i]? with
        | none => (s, .error ())
        | some link =>
          match StoreM.resolve s link with
          | (s2, .error e) => (s2, .error e)
          | (s2, .ok c) =>
            match LNode.deleteE fuel c k s2 with
            | (s3, .error e) => (s3, .error e)
            | (s3, .ok r) =>
              if r.2 then
                let cs2 := cs.set i (Link.loaded r.1)
                (s3, .ok (.mk level ks vs cs2
                  (LNode.rehash level ks vs cs2), true))
              else (s3, .ok (.mk level ks vs cs hh, false))

/-- `Node::merge` from `src/node.rs` over the store: both links are
resolved first (each can fail), then the same edge-merging scheme as the
pure `Node.merge`; the `pop`/`remove(0)` panics on childless non-empty
nodes are errors. -/
def LNode.mergeE {K V : Type} [LinearOrder K] :
    Nat → Link K V → Link K V → StoreM K V →
      StoreM K V × Except Unit (Link K V)
  | 0, _, _, s => (s, .error ())
  | fuel + 1, lft, rgt, s =>
    match StoreM.resolve s lft with
    | (s1, .error e) => (s1, .error e)
    | (s1, .ok ln) =>
      match StoreM.resolve s1 rgt with
      | (s2, .error e) => (s2, .error e)
      | (s2, .ok rn) =>
        if ln.keys.isEmpty && ln.children.isEmpty then (s2, .ok (.loaded rn))
        else if rn.keys.isEmpty && rn.children.isEmpty then
          (s2, .ok (.loaded ln))
        else if rn.level < ln.level then
          match ln.children.getLast? with
          | none => (s2, .error ())
          | some lastChild =>
            match LNode.mergeE fuel lastChild rgt s2 with
            | (s3, .error e) => (s3, .error e)
            | (s3, .ok merged) =>
              let cs2 := ln.children.dropLast ++ [merged]
              (s3, .ok (.loaded (.mk ln.level ln.keys ln.values cs2
                (LNode.rehash ln.level ln.keys ln.values cs2))))
        else if ln.level < rn.level then
          match rn.children.head? with
          | none => (s2, .error ())
          | some firstChild =>
            match LNode.mergeE fuel lft firstChild s2 with
            | (s3, .error e) => (s3, .error e)
            | (s3, .ok merged) =>
              let cs2 := merged :: rn.children.tail
              (s3, .ok (.loaded (.mk rn.level rn.keys rn.values cs2
                (LNode.rehash rn.level rn.keys rn.values cs2))))
        else
          match ln.children.getLast?, rn.children.head? with
          | some lb, some rb =>
            match LNode.mergeE fuel lb rb s2 with
            | (s3, .error e) => (s3, .error e)
            | (s3, .ok mb) =>
              let ks2 := ln.keys ++ rn.keys
              let vs2 := ln.values ++ rn.values
              let cs2 := ln.children.dropLast ++ [mb] ++ rn.children.tail
              (s3, .ok (.loaded (.mk ln.level ks2 vs2 cs2
                (LNode.rehash ln.level ks2 vs2 cs2))))
          | _, _ => (s2, .error ())

end

/-- `MerkleSearchTree::insert` from `src/tree.rs` over the store: resolve
the root, `put`, and install the new root only on success — on any error
the root link (and `last_committed`) are left untouched, only the store's
cache and trace may have advanced. -/
def TreeM.insertE {K V : Type} [LinearOrder K] (calcLevel : K → Nat)
    (fuel : Nat) (t : TreeM K V) (k : K) (v : V) :
    TreeM K V × Except Unit Unit :=
  match StoreM.resolve t.store t.root with
  | (s1, .error e) => ({ t with store := s1 }, .error e)
  | (s1, .ok rootNode) =>
    match LNode.putE fuel rootNode k v (calcLevel k) s1 with
    | (s2, .error e) => ({ t with store := s2 }, .error e)
    | (s2, .ok newRoot) =>
      ({ t with root := .loaded newRoot, store := s2 }, .ok ())

/-- `MerkleSearchTree::remove` from `src/tree.rs` over the store: resolve
and delete; leave the tree untouched if nothing was deleted; otherwise
install the new root, collapsing a keyless root with children to its
child 0 (that indexing is guarded). -/
def TreeM.removeE {K V : Type} [LinearOrder K] (fuel : Nat)
    (t : TreeM K V) (k : K) : TreeM K V × Except Unit Unit :=
  match StoreM.resolve t.store t.root with
  | (s1, .error e) => ({ t with store := s1 }, .error e)
  | (s1, .ok rootNode) =>
    match LNode.deleteE fuel rootNode k s1 with
    | (s2, .error e) => ({ t with store := s2 }, .error e)
    | (s2, .ok r) =>
      if !r.2 then ({ t with store := s2 }, .ok ())
      else if r.1.keys.isEmpty && !r.1.children.isEmpty then
        let newRoot := r.1.children.getD 0 (Link.loaded (LNode.empty 0))
        ({ t with root := newRoot, store := s2 }, .ok ())
      else ({ t with root := .loaded r.1, store := s2 }, .ok ())

/-- `MerkleSearchTree::get` from `src/tree.rs` over the store. -/
def TreeM.getE {K V : Type} [LinearOrder K] (fuel : Nat) (t : TreeM K V)
    (k : K) : TreeM K V × Except Unit (Option V) :=
  match StoreM.resolve t.store t.root with
  | (s1, .error e) => ({ t with store := s1 }, .error e)
  | (s1, .ok rootNode) =>
    match LNode.getE fuel rootNode k s1 with
    | (s2, r) => ({ t with store := s2 }, r)

end FileMst

namespace FileMst

/-- A temporary tree holding the single entry `(1, 10)` at level 0,
built through the model's `new_temporary` and `insert`. -/
def exTreeT : TreeM Nat Nat :=
  (TreeM.insertE (fun _ => 0) 9 TreeM.newTemporary 1 10).1

theorem exTreeT_eq :
    exTreeT =
      ⟨.loaded (.mk 0 [1] [10]
          [.loaded (LNode.empty 0), .loaded (LNode.empty 0)]
          (.node 0 1 [(.zero, some (1, 10)), (.zero, none)])),
        ⟨0, [], (0, .zero), [], []⟩, none⟩ := by
  rfl

end FileMst

namespace FileMst

theorem exCommit_events :
    (TreeM.commit (fun _ => 60) exTreeT).1.store.events =
      [StoreEvent.writeNode 0 ⟨0, [], [], [], .zero⟩,
       StoreEvent.writeNode 64 ⟨0, [], [], [], .zero⟩,
       StoreEvent.writeNode 128 ⟨0, [1], [10], [(0, .zero), (64, .zero)],
         .node 0 1 [(.zero, some (1, 10)), (.zero, none)]⟩,
       StoreEvent.writeMeta 128 (.node 0 1 [(.zero, some (1, 10)), (.zero, none)]),
       StoreEvent.flushSync] := by
  rw [exTreeT_eq]
  simp [TreeM.commit, Link.flushRec, Link.flushList, StoreM.writeNode,
    StoreM.writeMetadata, StoreM.flushAll, Link.isLoaded, Link.diskMeta,
    LNode.empty, LNode.hash, PAGE_SIZE]

end FileMst

namespace FileMst

/-- C4 divergence.  Commit publishes the metadata page with no durable
sync between the node-record writes and the metadata write: on a
temporary tree holding one entry, the store trace of `commit` has a
`writeNode` event immediately followed by the `writeMeta` event, so no
`flushSync` (the only durable-sync operation, `Store::flush`) separates
the node writes from the commit point — the source orders the calls as
write nodes, write metadata, then a single flush-and-sync.  The spec
instead demands sync node region, write metadata, sync metadata. -/
theorem claim_C4_metadata_write_not_preceded_by_sync :
    ∃ i o d o2 dg,
      ((TreeM.commit (fun _ => 60) exTreeT).1.store.events)[i]?
          = some (StoreEvent.writeNode o d) ∧
      ((TreeM.commit (fun _ => 60) exTreeT).1.store.events)[i + 1]?
          = some (StoreEvent.writeMeta o2 dg) := by
  refine ⟨2, 128, ⟨0, [1], [10], [(0, .zero), (64, .zero)],
      .node 0 1 [(.zero, some (1, 10)), (.zero, none)]⟩, 128,
    .node 0 1 [(.zero, some (1, 10)), (.zero, none)], ?_, ?_⟩ <;>
    rw [exCommit_events] <;> rfl

/-- C5 divergence.  On a temporary tree (`Store::new` performs no
`set_len(PAGE_SIZE)` the way `Store::open` does, so the file length
starts at 0), the very first node record is written at offset 0 —
inside the reserved metadata page `[0, PAGE_SIZE)` — contradicting the
claimed node-region invariant. -/
theorem claim_C5_temporary_node_record_inside_metadata_page :
    (∃ d, ((TreeM.commit (fun _ => 60) exTreeT).1.store.events)[0]?
        = some (StoreEvent.writeNode 0 d)) ∧ 0 < PAGE_SIZE := by
  refine ⟨⟨⟨0, [], [], [], .zero⟩, ?_⟩, by simp [PAGE_SIZE]⟩
  rw [exCommit_events]
  rfl

end FileMst

namespace FileMst

/-- Every commit leaves `last_committed` equal to the pair it returns:
the publish path stores it, and the early-return path only fires when
the tracker already equals the flushed pair. -/
theorem TreeM.commit_lastCommitted {K V : Type} [LinearOrder K]
    [DecidableEq V] (encSize : DiskNodeM K V → Nat) (t : TreeM K V) :
    (TreeM.commit encSize t).1.lastCommitted
      = some ((TreeM.commit encSize t).2.1, (TreeM.commit encSize t).2.2) := by
  cases hl : t.lastCommitted with
  | none => simp [TreeM.commit, hl]
  | some lc =>
    by_cases hb : (lc.1 == (Link.flushRec encSize t.root t.store).2.1 &&
        Digest.beq lc.2 (Link.flushRec encSize t.root t.store).2.2) = true
    · have hb2 := hb
      simp only [Bool.and_eq_true, beq_iff_eq, Digest.beq_iff] at hb2
      simp [TreeM.commit, hl, hb, Prod.ext_iff, hb2.1, hb2.2, Digest.beq_iff]
    · simp [TreeM.commit, hl, hb]

/-- A tree whose root is already the disk link of its committed pair
commits to itself: the flush is a no-op on a disk link and the tracker
check short-circuits the publication. -/
theorem TreeM.commit_disk_root {K V : Type} [LinearOrder K] [DecidableEq V]
    (encSize : DiskNodeM K V → Nat) (u : TreeM K V) (off : Nat)
    (dg : Digest K V) (hr : u.root = Link.disk off dg)
    (hl : u.lastCommitted = some (off, dg)) :
    TreeM.commit encSize u = (u, off, dg) := by
  obtain ⟨r0, s0, l0⟩ := u
  replace hr : r0 = Link.disk off dg := hr
  replace hl : l0 = some (off, dg) := hl
  subst hr
  subst hl
  simp [TreeM.commit, Link.flushRec, Digest.beq_iff]

/-- C8.  Once a commit has returned — its result state has the root
rewritten as the disk link of the returned pair, which the hypothesis
records — a second `commit()` with no intervening mutation returns the
very same tree (so it appends no store events, i.e. performs no store
writes) and the same `(offset, digest)` pair. -/
theorem claim_C8_commit_idempotence {K V : Type} [LinearOrder K]
    [DecidableEq V] (encSize : DiskNodeM K V → Nat) (t : TreeM K V)
    (h : (TreeM.commit encSize t).1.root
        = Link.disk (TreeM.commit encSize t).2.1
            (TreeM.commit encSize t).2.2) :
    TreeM.commit encSize ((TreeM.commit encSize t).1)
      = TreeM.commit encSize t :=
  TreeM.commit_disk_root encSize (TreeM.commit encSize t).1
    (TreeM.commit encSize t).2.1 (TreeM.commit encSize t).2.2 h
    (TreeM.commit_lastCommitted encSize t)

theorem exCommit_root :
    (TreeM.commit (fun _ => 60) exTreeT).1.root
      = Link.disk 128 (.node 0 1 [(.zero, some (1, 10)), (.zero, none)]) := by
  rw [exTreeT_eq]
  simp [TreeM.commit, Link.flushRec, Link.flushList, StoreM.writeNode,
    StoreM.writeMetadata, StoreM.flushAll, Link.isLoaded, Link.diskMeta,
    LNode.empty, LNode.hash, PAGE_SIZE]

theorem exCommit_pair :
    (TreeM.commit (fun _ => 60) exTreeT).2
      = (128, Digest.node 0 1 [(.zero, some (1, 10)), (.zero, none)]) := by
  rw [exTreeT_eq]
  simp [TreeM.commit, Link.flushRec, Link.flushList, StoreM.writeNode,
    StoreM.writeMetadata, StoreM.flushAll, Link.isLoaded, Link.diskMeta,
    LNode.empty, LNode.hash, PAGE_SIZE]

/-- Witness for C8 at a concrete input: committing the one-entry
temporary tree twice — the second commit returns the identical tree and
pair. -/
theorem claim_C8_commit_idempotence_witness :
    ((TreeM.commit (fun _ => 60) exTreeT).1.root
        = Link.disk (TreeM.commit (fun _ => 60) exTreeT).2.1
            (TreeM.commit (fun _ => 60) exTreeT).2.2) ∧
    TreeM.commit (fun _ => 60) ((TreeM.commit (fun _ => 60) exTreeT).1)
      = TreeM.commit (fun _ => 60) exTreeT := by
  have h : (TreeM.commit (fun _ => 60) exTreeT).1.root
      = Link.disk (TreeM.commit (fun _ => 60) exTreeT).2.1
          (TreeM.commit (fun _ => 60) exTreeT).2.2 := by
    rw [exCommit_root, exCommit_pair]
  exact ⟨h, claim_C8_commit_idempotence (fun _ => 60) exTreeT h⟩

end FileMst

namespace FileMst

/-! ### Fallible store writes and the fallible commit

The writing half of the store API returns `io::Result` in the source:
`write_node`, `write_metadata` and `flush` can each fail.  The oracle
`ioFail`, reading the chronological trace written so far, decides
whether the next write call's underlying I/O fails; a failed call
surfaces the error and leaves the abstract file unchanged (a partially
buffered record or metadata write never becomes readable, so it is
invisible at this abstraction). -/

/-- `Store::write_node` with its `io::Result` error path. -/
def StoreM.writeNodeE {K V : Type} (encSize : DiskNodeM K V → Nat)
    (ioFail : List (StoreEvent K V) → Bool) (s : StoreM K V)
    (d : DiskNodeM K V) : StoreM K V × Except Unit Nat :=
  if ioFail s.events then (s, .error ())
  else ((StoreM.writeNode encSize s d).1,
    .ok (StoreM.writeNode encSize s d).2)

/-- `Store::write_metadata` with its `io::Result` error path. -/
def StoreM.writeMetadataE {K V : Type}
    (ioFail : List (StoreEvent K V) → Bool) (s : StoreM K V) (offset : Nat)
    (digest : Digest K V) : StoreM K V × Except Unit Unit :=
  if ioFail s.events then (s, .error ())
  else (s.writeMetadata offset digest, .ok ())

/-- `Store::flush` with its `io::Result` error path. -/
def StoreM.flushAllE {K V : Type} (ioFail : List (StoreEvent K V) → Bool)
    (s : StoreM K V) : StoreM K V × Except Unit Unit :=
  if ioFail s.events then (s, .error ()) else (s.flushAll, .ok ())

mutual

/-- `MerkleSearchTree::flush_recursive` with the `io::Result` error
paths of its `write_node` calls: any failed write propagates (the
source's `?`). -/
def Link.flushRecE {K V : Type} (encSize : DiskNodeM K V → Nat)
    (ioFail : List (StoreEvent K V) → Bool) :
    Link K V → StoreM K V → StoreM K V × Except Unit (Nat × Digest K V)
  | .disk off h, s => (s, .ok (off, h))
  | .loaded (.mk l ks vs cs h), s =>
    if cs.any Link.isLoaded then
      match Link.flushListE encSize ioFail cs s with
      | (s2, .error e) => (s2, .error e)
      | (s2, .ok metas) =>
        match StoreM.writeNodeE encSize ioFail s2 ⟨l, ks, vs, metas, h⟩ with
        | (s3, .error e) => (s3, .error e)
        | (s3, .ok off) => (s3, .ok (off, h))
    else
      match StoreM.writeNodeE encSize ioFail s
          ⟨l, ks, vs, cs.map Link.diskMeta, h⟩ with
      | (s3, .error e) => (s3, .error e)
      | (s3, .ok off) => (s3, .ok (off, h))

/-- The child loop of the fallible `flush_recursive`. -/
def Link.flushListE {K V : Type} (encSize : DiskNodeM K V → Nat)
    (ioFail : List (StoreEvent K V) → Bool) :
    List (Link K V) → StoreM K V →
      StoreM K V × Except Unit (List (Nat × Digest K V))
  | [], s => (s, .ok [])
  | c :: rest, s =>
    match Link.flushRecE encSize ioFail c s with
    | (s2, .error e) => (s2, .error e)
    | (s2, .ok m) =>
      match Link.flushListE encSize ioFail rest s2 with
      | (s3, .error e) => (s3, .error e)
      | (s3, .ok ms) => (s3, .ok (m :: ms))

end

/-- `MerkleSearchTree::commit` from `src/tree.rs` with its `io::Result`
error paths: the flush of the nodes, the metadata write and the final
flush-and-sync can each fail, and each error propagates immediately (the
source's `?`); the root link and the `last_committed` tracker are
rewritten only after every store call has succeeded. -/
def TreeM.commitE {K V : Type} [LinearOrder K] [DecidableEq V]
    (encSize : DiskNodeM K V → Nat)
    (ioFail : List (StoreEvent K V) → Bool) (t : TreeM K V) :
    TreeM K V × Except Unit (Nat × Digest K V) :=
  match Link.flushRecE encSize ioFail t.root t.store with
  | (s1, .error e) => ({ t with store := s1 }, .error e)
  | (s1, .ok oh) =>
    if (match t.lastCommitted with
        | some lc => lc.1 == oh.1 && Digest.beq lc.2 oh.2
        | none => false) then
      ({ t with store := s1 }, .ok oh)
    else
      match StoreM.writeMetadataE ioFail s1 oh.1 oh.2 with
      | (s2, .error e) => ({ t with store := s2 }, .error e)
      | (s2, .ok _) =>
        match StoreM.flushAllE ioFail s2 with
        | (s3, .error e) => ({ t with store := s3 }, .error e)
        | (s3, .ok _) =>
          (⟨Link.disk oh.1 oh.2, s3, some (oh.1, oh.2)⟩, .ok oh)

/-- C9.  When a mutation fails — `insert`, `remove` or `commit`
returning an error (a failed node load or decode on the read side, a
failed node write, metadata write or sync on the commit side, with
descent-fuel exhaustion also surfacing as an error) — the tree's
in-memory root link and its commit tracker are exactly what they were
before the call; only the store's cache and trace may have advanced, as
in the source where the root field is assigned only after every
fallible call has succeeded. -/
theorem claim_C9_failed_mutation_leaves_root_unchanged {K V : Type}
    [LinearOrder K] [DecidableEq V] (calcLevel : K → Nat) (fuel : Nat)
    (encSize : DiskNodeM K V → Nat)
    (ioFail : List (StoreEvent K V) → Bool) (t : TreeM K V)
    (k : K) (v : V) :
    ((TreeM.insertE calcLevel fuel t k v).2 = .error () →
      (TreeM.insertE calcLevel fuel t k v).1.root = t.root ∧
      (TreeM.insertE calcLevel fuel t k v).1.lastCommitted
        = t.lastCommitted) ∧
    ((TreeM.removeE fuel t k).2 = .error () →
      (TreeM.removeE fuel t k).1.root = t.root ∧
      (TreeM.removeE fuel t k).1.lastCommitted = t.lastCommitted) ∧
    ((TreeM.commitE encSize ioFail t).2 = .error () →
      (TreeM.commitE encSize ioFail t).1.root = t.root ∧
      (TreeM.commitE encSize ioFail t).1.lastCommitted
        = t.lastCommitted) := by
  refine ⟨?_, ?_, ?_⟩
  · rcases h1 : StoreM.resolve t.store t.root with ⟨s1, e1⟩
    cases e1 with
    | error e => simp [TreeM.insertE, h1]
    | ok rn =>
      rcases h2 : LNode.putE fuel rn k v (calcLevel k) s1 with ⟨s2, e2⟩
      cases e2 with
      | error e => simp [TreeM.insertE, h1, h2]
      | ok nr => simp [TreeM.insertE, h1, h2]
  · rcases h1 : StoreM.resolve t.store t.root with ⟨s1, e1⟩
    cases e1 with
    | error e => simp [TreeM.removeE, h1]
    | ok rn =>
      rcases h2 : LNode.deleteE fuel rn k s1 with ⟨s2, e2⟩
      cases e2 with
      | error e => simp [TreeM.removeE, h1, h2]
      | ok r =>
        by_cases hd : r.2 = true
        · by_cases hc : (r.1.keys.isEmpty && !r.1.children.isEmpty) = true
          · simp [TreeM.removeE, h1, h2, hd, hc]
          · simp [TreeM.removeE, h1, h2, hd, hc]
        · simp [TreeM.removeE, h1, h2, hd]
  · rcases h1 : Link.flushRecE encSize ioFail t.root t.store with ⟨s1, e1⟩
    cases e1 with
    | error e => simp [TreeM.commitE, h1]
    | ok oh =>
      by_cases hchk : (match t.lastCommitted with
          | some lc => lc.1 == oh.1 && Digest.beq lc.2 oh.2
          | none => false) = true
      · simp [TreeM.commitE, h1, hchk]
      · rcases h2 : StoreM.writeMetadataE ioFail s1 oh.1 oh.2 with ⟨s2, e2⟩
        cases e2 with
        | error e => simp [TreeM.commitE, h1, hchk, h2]
        | ok u =>
          rcases h3 : StoreM.flushAllE ioFail s2 with ⟨s3, e3⟩
          cases e3 with
          | error e => simp [TreeM.commitE, h1, hchk, h2, h3]
          | ok u2 => simp [TreeM.commitE, h1, hchk, h2, h3]

/-- A tree whose root link points at offset 7, where no record starts:
resolving the root fails with a read/decode error, the way a tree does
after the backing file is truncated or corrupted. -/
def exTreeBroken : TreeM Nat Nat :=
  ⟨Link.disk 7 Digest.zero, ⟨PAGE_SIZE, [], (0, Digest.zero), [], []⟩, none⟩

/-- Witness for C9 at concrete inputs: on a tree with a dangling root
offset, insert and remove both fail (the root load errors) and leave
the root link untouched, and on the same tree commit fails at its
metadata write (the I/O oracle failing every write) and leaves both the
root link and the tracker untouched. -/
theorem claim_C9_failed_mutation_leaves_root_unchanged_witness :
    ((TreeM.insertE (fun _ => 0) 5 exTreeBroken 1 10).2 = .error () ∧
      (TreeM.insertE (fun _ => 0) 5 exTreeBroken 1 10).1.root
        = exTreeBroken.root) ∧
    ((TreeM.removeE 5 exTreeBroken 1).2 = .error () ∧
      (TreeM.removeE 5 exTreeBroken 1).1.root = exTreeBroken.root) ∧
    ((TreeM.commitE (fun _ => 60) (fun _ => true) exTreeBroken).2
        = .error () ∧
      (TreeM.commitE (fun _ => 60) (fun _ => true) exTreeBroken).1.root
        = exTreeBroken.root ∧
      (TreeM.commitE (fun _ => 60)
        (fun _ => true) exTreeBroken).1.lastCommitted
        = exTreeBroken.lastCommitted) := by
  have hce : (TreeM.commitE (fun _ => 60) (fun _ => true) exTreeBroken).2
      = .error () := by
    simp [TreeM.commitE, Link.flushRecE, StoreM.writeMetadataE, exTreeBroken]
  refine ⟨⟨rfl, ?_⟩, ⟨rfl, ?_⟩, hce, ?_, ?_⟩
  · exact ((claim_C9_failed_mutation_leaves_root_unchanged (fun _ => 0) 5
      (fun _ => 60) (fun _ => true) exTreeBroken 1 10).1 rfl).1
  · exact ((claim_C9_failed_mutation_leaves_root_unchanged (fun _ => 0) 5
      (fun _ => 60) (fun _ => true) exTreeBroken 1 10).2.1 rfl).1
  · exact ((claim_C9_failed_mutation_leaves_root_unchanged (fun _ => 0) 5
      (fun _ => 60) (fun _ => true) exTreeBroken 1 10).2.2 hce).1
  · exact ((claim_C9_failed_mutation_leaves_root_unchanged (fun _ => 0) 5
      (fun _ => 60) (fun _ => true) exTreeBroken 1 10).2.2 hce).2

end FileMst

namespace FileMst

/-! ### Representation of a pure tree by store-backed links

`reprLinkB recs N link` checks that following `link` — resolving disk
offsets against the node records `recs` only — reproduces exactly the
pure tree `N`: same level, keys and values at every node, child for
child.  It is the abstraction relation connecting the algorithm-level
model to the store-level model. -/

mutual

/-- Height of a pure tree: 1 plus the maximal child depth.  Used to
supply enough descent fuel to the store-backed readers. -/
def Node.depth {K V : Type} : Node K V → Nat
  | .mk _ _ _ cs => 1 + Node.depthList cs

/-- Maximal depth over a child list. -/
def Node.depthList {K V : Type} : List (Node K V) → Nat
  | [] => 0
  | c :: cs => max (Node.depth c) (Node.depthList cs)

end

theorem Node.depth_mem_le {K V : Type} {c : Node K V} :
    ∀ {cs : List (Node K V)}, c ∈ cs → Node.depth c ≤ Node.depthList cs := by
  intro cs
  induction cs with
  | nil => intro h; cases h
  | cons c0 cs2 ih =>
    intro h
    rw [Node.depthList]
    rcases List.mem_cons.mp h with rfl | h
    · exact Nat.le_max_left ..
    · exact le_trans (ih h) (Nat.le_max_right ..)

theorem Node.depth_child_lt {K V : Type} {c : Node K V} {l : Nat} {ks : List K}
    {vs : List V} {cs : List (Node K V)} (hc : c ∈ cs) :
    Node.depth c < Node.depth (Node.mk l ks vs cs) := by
  rw [show Node.depth (Node.mk l ks vs cs) = 1 + Node.depthList cs by
    rw [Node.depth]]
  have := Node.depth_mem_le hc
  omega

/-- Resolve a link against the records only (no cache, no mutation): the
reference reading of a disk offset used by the representation relation. -/
def resolveR {K V : Type} (recs : List (Nat × DiskNodeM K V)) :
    Link K V → Option (LNode K V)
  | .loaded n => some n
  | .disk off _ => (List.lookup off recs).map LNode.fromDisk

mutual

/-- The pure tree `N` is represented by `link` over the records `recs`. -/
def reprLinkB {K V : Type} [LinearOrder K] [DecidableEq V]
    (recs : List (Nat × DiskNodeM K V)) : Node K V → Link K V → Bool
  | .mk l ks vs cs, link =>
    match resolveR recs link with
    | none => false
    | some n =>
      n.level == l && n.keys == ks && n.values == vs &&
        reprChildrenB recs cs n.children

/-- Pointwise representation of a pure child list by a link list. -/
def reprChildrenB {K V : Type} [LinearOrder K] [DecidableEq V]
    (recs : List (Nat × DiskNodeM K V)) :
    List (Node K V) → List (Link K V) → Bool
  | [], [] => true
  | n :: ns, c :: cls => reprLinkB recs n c && reprChildrenB recs ns cls
  | _, _ => false

end

/-- All node records lie inside the node region `[PAGE_SIZE, size)`.
This holds for every store opened from a path (`Store::open` extends an
empty file to `PAGE_SIZE` first) and is preserved by every append; the
`new_temporary` path violates it, which is the C5 finding. -/
def StoreM.regionValid {K V : Type} (s : StoreM K V) : Prop :=
  (∀ p ∈ s.records, PAGE_SIZE ≤ p.1 ∧ p.1 < s.size) ∧ PAGE_SIZE ≤ s.size

/-- Every cache entry is the decoded record at its offset. -/
def StoreM.cacheCoherent {K V : Type} (s : StoreM K V) : Prop :=
  ∀ p ∈ s.cache, ∃ d, List.lookup p.1 s.records = some d ∧
    p.2 = LNode.fromDisk d

/-- Record-table extension: every offset readable in `r1` reads the same
record in `r2`.  Appending fresh-offset records is such an extension. -/
def recsLE {K V : Type} (r1 r2 : List (Nat × DiskNodeM K V)) : Prop :=
  ∀ o d, List.lookup o r1 = some d → List.lookup o r2 = some d

theorem lookup_mem {β : Type} {recs : List (Nat × β)} {o : Nat} {d : β}
    (h : List.lookup o recs = some d) : (o, d) ∈ recs := by
  induction recs with
  | nil => cases h
  | cons p t ih =>
    obtain ⟨a, b⟩ := p
    rw [List.lookup] at h
    by_cases he : o = a
    · subst he
      rw [show (o == o) = true by simp] at h
      cases h
      exact List.mem_cons_self ..
    · rw [show (o == a) = false by simp [he]] at h
      exact List.mem_cons_of_mem _ (ih h)

theorem lookup_cons_ne {β : Type} {recs : List (Nat × β)} {o o2 : Nat}
    {d2 : β} (hne : o ≠ o2) :
    List.lookup o ((o2, d2) :: recs) = List.lookup o recs := by
  rw [List.lookup, show (o == o2) = false by simp [hne]]

theorem lookup_cons_self {β : Type} {recs : List (Nat × β)} {o : Nat}
    {d2 : β} : List.lookup o ((o, d2) :: recs) = some d2 := by
  rw [List.lookup, show (o == o) = true by simp]

theorem recsLE_refl {K V : Type} (r : List (Nat × DiskNodeM K V)) :
    recsLE r r := fun _ _ h => h

theorem recsLE_trans {K V : Type} {r1 r2 r3 : List (Nat × DiskNodeM K V)}
    (h1 : recsLE r1 r2) (h2 : recsLE r2 r3) : recsLE r1 r3 :=
  fun o d h => h2 o d (h1 o d h)

end FileMst

namespace FileMst

theorem resolveR_mono {K V : Type} {r1 r2 : List (Nat × DiskNodeM K V)}
    (hle : recsLE r1 r2) {link : Link K V} {n : LNode K V}
    (h : resolveR r1 link = some n) : resolveR r2 link = some n := by
  cases link with
  | loaded m => exact h
  | disk off hh =>
    rw [resolveR] at h ⊢
    cases hl : List.lookup off r1 with
    | none => rw [hl] at h; cases h
    | some d =>
      rw [hl] at h
      rw [hle off d hl]
      exact h

/-- Representation is stable under extending the record table at fresh
offsets. -/
theorem reprLinkB_mono {K V : Type} [LinearOrder K] [DecidableEq V]
    {r1 r2 : List (Nat × DiskNodeM K V)} (hle : recsLE r1 r2) :
    ∀ (N : Node K V) (link : Link K V),
      reprLinkB r1 N link = true → reprLinkB r2 N link = true := by
  intro N link
  induction N, link using reprLinkB.induct r1
    (motive_2 := fun ns cls =>
      reprChildrenB r1 ns cls = true → reprChildrenB r2 ns cls = true) with
  | case1 l ks vs cs link hres =>
    intro h
    rw [reprLinkB, hres] at h
    cases h
  | case2 l ks vs cs link n hres ih =>
    intro h
    rw [reprLinkB, hres] at h
    rw [reprLinkB, resolveR_mono hle hres]
    simp only [Bool.and_eq_true] at h ⊢
    exact ⟨h.1, ih h.2⟩
  | case3 => rw [reprChildrenB]
  | case4 n ns c cls ih1 ih2 =>
    rename_i h
    rw [reprChildrenB] at h ⊢
    simp only [Bool.and_eq_true] at h ⊢
    exact ⟨ih1 h.1, ih2 h.2⟩
  | case5 t x h1 h2 =>
    rename_i h
    cases t with
    | nil =>
      cases x with
      | nil => exact (h1 rfl rfl).elim
      | cons c cls =>
        rw [show reprChildrenB r1 ([] : List (Node K V)) (c :: cls) = false by
          rw [reprChildrenB] <;> simp] at h
        cases h
    | cons n ns =>
      cases x with
      | nil =>
        rw [show reprChildrenB r1 (n :: ns) ([] : List (Link K V)) = false by
          rw [reprChildrenB] <;> simp] at h
        cases h
      | cons c cls => exact (h2 n ns c cls rfl rfl).elim

theorem reprChildrenB_mono {K V : Type} [LinearOrder K] [DecidableEq V]
    {r1 r2 : List (Nat × DiskNodeM K V)} (hle : recsLE r1 r2)
    {ns : List (Node K V)} {cls : List (Link K V)}
    (h : reprChildrenB r1 ns cls = true) : reprChildrenB r2 ns cls = true := by
  induction ns generalizing cls with
  | nil =>
    cases cls with
    | nil => exact h
    | cons c cls2 =>
      rw [show reprChildrenB r1 ([] : List (Node K V)) (c :: cls2) = false by
        rw [reprChildrenB] <;> simp] at h
      cases h
  | cons n ns2 ih =>
    cases cls with
    | nil =>
      rw [show reprChildrenB r1 (n :: ns2) ([] : List (Link K V)) = false by
        rw [reprChildrenB] <;> simp] at h
      cases h
    | cons c cls2 =>
      rw [reprChildrenB] at h ⊢
      simp only [Bool.and_eq_true] at h ⊢
      exact ⟨reprLinkB_mono hle n c h.1, ih h.2⟩

theorem writeNode_records {K V : Type} (encSize : DiskNodeM K V → Nat)
    (s : StoreM K V) (d : DiskNodeM K V) :
    (StoreM.writeNode encSize s d).1.records
      = ((StoreM.writeNode encSize s d).2, d) :: s.records := rfl

theorem writeNode_cache {K V : Type} (encSize : DiskNodeM K V → Nat)
    (s : StoreM K V) (d : DiskNodeM K V) :
    (StoreM.writeNode encSize s d).1.cache = s.cache := rfl

theorem writeNode_metaPage {K V : Type} (encSize : DiskNodeM K V → Nat)
    (s : StoreM K V) (d : DiskNodeM K V) :
    (StoreM.writeNode encSize s d).1.metaPage = s.metaPage := rfl

theorem writeNode_size {K V : Type} (encSize : DiskNodeM K V → Nat)
    (s : StoreM K V) (d : DiskNodeM K V) :
    (StoreM.writeNode encSize s d).1.size
      = (StoreM.writeNode encSize s d).2 + (encSize d + 4) := rfl

theorem writeNode_off_ge {K V : Type} (encSize : DiskNodeM K V → Nat)
    (s : StoreM K V) (d : DiskNodeM K V) :
    s.size ≤ (StoreM.writeNode encSize s d).2 := by
  rw [StoreM.writeNode]
  dsimp only
  split
  · split
    · omega
    · omega
  · omega

/-- Effect of `write_node` on a store whose records all lie in the node
region: the new record is appended at a fresh offset at or beyond the
old end of file, so every old lookup is preserved, the cache and
metadata are untouched, and the invariant is maintained. -/
theorem StoreM.writeNode_spec {K V : Type} (encSize : DiskNodeM K V → Nat)
    (s : StoreM K V) (d : DiskNodeM K V) (hrv : s.regionValid) :
    (StoreM.writeNode encSize s d).1.regionValid ∧
    s.size ≤ (StoreM.writeNode encSize s d).1.size ∧
    recsLE s.records (StoreM.writeNode encSize s d).1.records ∧
    PAGE_SIZE ≤ (StoreM.writeNode encSize s d).2 ∧
    List.lookup (StoreM.writeNode encSize s d).2
      (StoreM.writeNode encSize s d).1.records = some d := by
  have hoff := writeNode_off_ge encSize s d
  have hpg : PAGE_SIZE ≤ (StoreM.writeNode encSize s d).2 :=
    le_trans hrv.2 hoff
  have hle : recsLE s.records (StoreM.writeNode encSize s d).1.records := by
    intro o d0 h0
    rw [writeNode_records]
    have hmem := lookup_mem h0
    have hbd := (hrv.1 _ hmem).2
    rw [lookup_cons_ne (by omega)]
    exact h0
  refine ⟨⟨?_, ?_⟩, ?_, hle, hpg, ?_⟩
  · intro p hp
    rw [writeNode_records] at hp
    rw [writeNode_size]
    rcases List.mem_cons.mp hp with rfl | hp
    · constructor
      · exact hpg
      · omega
    · have := hrv.1 _ hp
      constructor
      · exact this.1
      · omega
  · rw [writeNode_size]
    omega
  · rw [writeNode_size]
    omega
  · rw [writeNode_records]
    exact lookup_cons_self

end FileMst

namespace FileMst

section FlushSpec

variable {K V : Type} [LinearOrder K] [DecidableEq V]

theorem reprChildrenB_nil_right {recs : List (Nat × DiskNodeM K V)}
    {Ns : List (Node K V)}
    (h : reprChildrenB recs Ns ([] : List (Link K V)) = true) : Ns = [] := by
  cases Ns with
  | nil => rfl
  | cons n ns =>
    rw [show reprChildrenB recs (n :: ns) ([] : List (Link K V)) = false by
      rw [reprChildrenB] <;> simp] at h
    cases h

theorem reprChildrenB_cons_right {recs : List (Nat × DiskNodeM K V)}
    {Ns : List (Node K V)} {c : Link K V} {cls : List (Link K V)}
    (h : reprChildrenB recs Ns (c :: cls) = true) :
    ∃ n ns, Ns = n :: ns ∧ reprLinkB recs n c = true ∧
      reprChildrenB recs ns cls = true := by
  cases Ns with
  | nil =>
    rw [show reprChildrenB recs ([] : List (Node K V)) (c :: cls) = false by
      rw [reprChildrenB] <;> simp] at h
    cases h
  | cons n ns =>
    rw [reprChildrenB, Bool.and_eq_true] at h
    exact ⟨n, ns, rfl, h.1, h.2⟩

theorem all_disk_diskMeta {cs : List (Link K V)}
    (h : ¬ cs.any Link.isLoaded = true) :
    (cs.map Link.diskMeta).map (fun m => Link.disk m.1 m.2) = cs := by
  induction cs with
  | nil => rfl
  | cons c t ih =>
    rw [List.any_cons] at h
    simp only [Bool.or_eq_true, not_or] at h
    cases c with
    | loaded n => exact absurd rfl h.1
    | disk o dh =>
      simp only [List.map_cons, Link.diskMeta]
      rw [ih h.2]

/-- Main specification of `flush_recursive`: flushing a link that
represents the pure tree `N` over a store with all records in the node
region preserves the invariant, only appends records (every old lookup
is preserved), leaves cache and metadata alone, and returns an offset in
the node region at which the records now represent `N` as a pure disk
link. -/
theorem Link.flushRec_spec (encSize : DiskNodeM K V → Nat) :
    ∀ (link : Link K V) (s : StoreM K V), ∀ N : Node K V,
      s.regionValid → reprLinkB s.records N link = true →
      (Link.flushRec encSize link s).1.regionValid ∧
      s.size ≤ (Link.flushRec encSize link s).1.size ∧
      recsLE s.records (Link.flushRec encSize link s).1.records ∧
      (Link.flushRec encSize link s).1.cache = s.cache ∧
      (Link.flushRec encSize link s).1.metaPage = s.metaPage ∧
      PAGE_SIZE ≤ (Link.flushRec encSize link s).2.1 ∧
      reprLinkB (Link.flushRec encSize link s).1.records N
        (Link.disk (Link.flushRec encSize link s).2.1
          (Link.flushRec encSize link s).2.2) = true := by
  intro link s
  induction link, s using Link.flushRec.induct encSize
    (motive_2 := fun ls s =>
      ∀ Ns : List (Node K V), s.regionValid →
        reprChildrenB s.records Ns ls = true →
        (Link.flushList encSize ls s).1.regionValid ∧
        s.size ≤ (Link.flushList encSize ls s).1.size ∧
        recsLE s.records (Link.flushList encSize ls s).1.records ∧
        (Link.flushList encSize ls s).1.cache = s.cache ∧
        (Link.flushList encSize ls s).1.metaPage = s.metaPage ∧
        reprChildrenB (Link.flushList encSize ls s).1.records Ns
          ((Link.flushList encSize ls s).2.map
            fun m => Link.disk m.1 m.2) = true) with
  | case1 off dh s =>
    intro N hrv hrep
    have heq : Link.flushRec encSize (Link.disk off dh) s = (s, off, dh) := by
      rw [Link.flushRec]
    rw [heq]
    refine ⟨hrv, le_refl _, recsLE_refl _, rfl, rfl, ?_, hrep⟩
    cases N with
    | mk nl nks nvs ncs =>
      rw [reprLinkB] at hrep
      cases hres : resolveR s.records (Link.disk off dh) with
      | none => rw [hres] at hrep; cases hrep
      | some n =>
        rw [resolveR] at hres
        cases hl : List.lookup off s.records with
        | none => rw [hl] at hres; cases hres
        | some d => exact (hrv.1 _ (lookup_mem hl)).1
  | case2 l ks vs cs dh s hdirty ih =>
    intro N hrv hrep
    cases N with
    | mk nl nks nvs ncs =>
      rw [reprLinkB] at hrep
      rw [show resolveR s.records (Link.loaded (LNode.mk l ks vs cs dh))
          = some (LNode.mk l ks vs cs dh) from rfl] at hrep
      simp only [LNode.level, LNode.keys, LNode.values, LNode.children,
        Bool.and_eq_true, beq_iff_eq] at hrep
      obtain ⟨⟨⟨hl2, hk2⟩, hv2⟩, hch⟩ := hrep
      have hflush := ih ncs hrv hch
      have hwv := StoreM.writeNode_spec encSize
        (Link.flushList encSize cs s).1
        ⟨l, ks, vs, (Link.flushList encSize cs s).2, dh⟩ hflush.1
      have heq : Link.flushRec encSize
          (Link.loaded (LNode.mk l ks vs cs dh)) s
          = ((StoreM.writeNode encSize (Link.flushList encSize cs s).1
              ⟨l, ks, vs, (Link.flushList encSize cs s).2, dh⟩).1,
             (StoreM.writeNode encSize (Link.flushList encSize cs s).1
              ⟨l, ks, vs, (Link.flushList encSize cs s).2, dh⟩).2, dh) := by
        rw [Link.flushRec, if_pos hdirty]
      rw [heq]
      refine ⟨hwv.1, le_trans hflush.2.1 hwv.2.1,
        recsLE_trans hflush.2.2.1 hwv.2.2.1, ?_, ?_, hwv.2.2.2.1, ?_⟩
      · rw [writeNode_cache]
        exact hflush.2.2.2.1
      · rw [writeNode_metaPage]
        exact hflush.2.2.2.2.1
      · rw [reprLinkB]
        rw [show resolveR
            (StoreM.writeNode encSize (Link.flushList encSize cs s).1
              ⟨l, ks, vs, (Link.flushList encSize cs s).2, dh⟩).1.records
            (Link.disk
              (StoreM.writeNode encSize (Link.flushList encSize cs s).1
                ⟨l, ks, vs, (Link.flushList encSize cs s).2, dh⟩).2 dh)
            = some (LNode.fromDisk
              ⟨l, ks, vs, (Link.flushList encSize cs s).2, dh⟩) by
          rw [resolveR, hwv.2.2.2.2]
          rfl]
        simp only [LNode.fromDisk, LNode.level, LNode.keys, LNode.values,
          LNode.children, Bool.and_eq_true, beq_iff_eq]
        refine ⟨⟨⟨hl2, hk2⟩, hv2⟩, ?_⟩
        exact reprChildrenB_mono hwv.2.2.1 hflush.2.2.2.2.2
  | case3 l ks vs cs dh s hclean =>
    intro N hrv hrep
    cases N with
    | mk nl nks nvs ncs =>
      rw [reprLinkB] at hrep
      rw [show resolveR s.records (Link.loaded (LNode.mk l ks vs cs dh))
          = some (LNode.mk l ks vs cs dh) from rfl] at hrep
      simp only [LNode.level, LNode.keys, LNode.values, LNode.children,
        Bool.and_eq_true, beq_iff_eq] at hrep
      obtain ⟨⟨⟨hl2, hk2⟩, hv2⟩, hch⟩ := hrep
      have hwv := StoreM.writeNode_spec encSize s
        ⟨l, ks, vs, cs.map Link.diskMeta, dh⟩ hrv
      have heq : Link.flushRec encSize
          (Link.loaded (LNode.mk l ks vs cs dh)) s
          = ((StoreM.writeNode encSize s
              ⟨l, ks, vs, cs.map Link.diskMeta, dh⟩).1,
             (StoreM.writeNode encSize s
              ⟨l, ks, vs, cs.map Link.diskMeta, dh⟩).2, dh) := by
        rw [Link.flushRec, if_neg hclean]
      rw [heq]
      refine ⟨hwv.1, hwv.2.1, hwv.2.2.1, ?_, ?_, hwv.2.2.2.1, ?_⟩
      · rw [writeNode_cache]
      · rw [writeNode_metaPage]
      · rw [reprLinkB]
        rw [show resolveR
            (StoreM.writeNode encSize s
              ⟨l, ks, vs, cs.map Link.diskMeta, dh⟩).1.records
            (Link.disk
              (StoreM.writeNode encSize s
                ⟨l, ks, vs, cs.map Link.diskMeta, dh⟩).2 dh)
            = some (LNode.fromDisk
              ⟨l, ks, vs, cs.map Link.diskMeta, dh⟩) by
          rw [resolveR, hwv.2.2.2.2]
          rfl]
        simp only [LNode.fromDisk, LNode.level, LNode.keys, LNode.values,
          LNode.children, Bool.and_eq_true, beq_iff_eq]
        refine ⟨⟨⟨hl2, hk2⟩, hv2⟩, ?_⟩
        rw [all_disk_diskMeta hclean]
        exact reprChildrenB_mono hwv.2.2.1 hch
  | case4 s =>
    rename_i Ns hrv hrep
    have hns := reprChildrenB_nil_right hrep
    subst hns
    have heq : Link.flushList encSize ([] : List (Link K V)) s = (s, []) := by
      rw [Link.flushList]
    rw [heq]
    refine ⟨hrv, le_refl _, recsLE_refl _, rfl, rfl, ?_⟩
    simp only [List.map_nil]
    rw [reprChildrenB]
  | case5 c rest s r ih1 ih2 =>
    rename_i Ns hrv hrep
    obtain ⟨n0, ns, rfl, hrep1, hrep2⟩ := reprChildrenB_cons_right hrep
    have h1 := ih1 n0 hrv hrep1
    have h2 := ih2 ns h1.1
      (reprChildrenB_mono h1.2.2.1 hrep2)
    have heq : Link.flushList encSize (c :: rest) s
        = ((Link.flushList encSize rest
            (Link.flushRec encSize c s).1).1,
           ((Link.flushRec encSize c s).2.1,
            (Link.flushRec encSize c s).2.2) ::
           (Link.flushList encSize rest
            (Link.flushRec encSize c s).1).2) := by
      rw [Link.flushList]
    rw [heq]
    refine ⟨h2.1, le_trans h1.2.1 h2.2.1,
      recsLE_trans h1.2.2.1 h2.2.2.1, ?_, ?_, ?_⟩
    · rw [h2.2.2.2.1, h1.2.2.2.1]
    · rw [h2.2.2.2.2.1, h1.2.2.2.2.1]
    · rw [List.map_cons, reprChildrenB, Bool.and_eq_true]
      constructor
      · exact reprLinkB_mono h2.2.2.1 _ _ h1.2.2.2.2.2.2
      · exact h2.2.2.2.2.2

end FlushSpec

end FileMst

namespace FileMst

section GetSpec

variable {K V : Type} [LinearOrder K] [DecidableEq V]

theorem reprLinkB_disk_lookup {recs : List (Nat × DiskNodeM K V)}
    {N : Node K V} {off : Nat} {dh : Digest K V}
    (h : reprLinkB recs N (Link.disk off dh) = true) :
    ∃ d, List.lookup off recs = some d := by
  cases N with
  | mk nl nks nvs ncs =>
    rw [reprLinkB] at h
    cases hl : List.lookup off recs with
    | none =>
      rw [show resolveR recs (Link.disk off dh) = none by
        rw [resolveR, hl]; rfl] at h
      cases h
    | some d => exact ⟨d, rfl⟩

theorem reprLinkB_disk_to_loaded {recs : List (Nat × DiskNodeM K V)}
    {N : Node K V} {off : Nat} {dh : Digest K V} {d : DiskNodeM K V}
    (hl : List.lookup off recs = some d)
    (h : reprLinkB recs N (Link.disk off dh) = true) :
    reprLinkB recs N (Link.loaded (LNode.fromDisk d)) = true := by
  cases N with
  | mk nl nks nvs ncs =>
    rw [reprLinkB] at h ⊢
    rw [show resolveR recs (Link.disk off dh) = some (LNode.fromDisk d) by
      rw [resolveR, hl]; rfl] at h
    rw [show resolveR recs (Link.loaded (LNode.fromDisk d))
        = some (LNode.fromDisk d) from rfl]
    exact h

/-- Resolving a represented link against a coherent store succeeds,
leaves the records untouched, keeps the cache coherent and yields a
loaded node that still represents the same pure tree. -/
theorem resolve_repr {s : StoreM K V} {N : Node K V} {link : Link K V}
    (hrep : reprLinkB s.records N link = true) (hco : s.cacheCoherent) :
    (StoreM.resolve s link).1.records = s.records ∧
    (StoreM.resolve s link).1.cacheCoherent ∧
    ∃ n, StoreM.resolve s link = ((StoreM.resolve s link).1, .ok n) ∧
      reprLinkB s.records N (Link.loaded n) = true := by
  cases link with
  | loaded n => exact ⟨rfl, hco, n, rfl, hrep⟩
  | disk off dh =>
    obtain ⟨d, hl⟩ := reprLinkB_disk_lookup hrep
    cases hcl : List.lookup off s.cache with
    | some n =>
      have heq : StoreM.resolve s (Link.disk off dh) = (s, .ok n) := by
        rw [StoreM.resolve, StoreM.loadNode, hcl]
      obtain ⟨d2, hl2, hn⟩ := hco (off, n) (lookup_mem hcl)
      rw [hl] at hl2
      cases hl2
      rw [heq]
      replace hn : n = LNode.fromDisk d := hn
      subst hn
      exact ⟨rfl, hco, LNode.fromDisk d, rfl,
        reprLinkB_disk_to_loaded hl hrep⟩
    | none =>
      have heq : StoreM.resolve s (Link.disk off dh)
          = ({ s with cache := (off, LNode.fromDisk d) :: s.cache },
             .ok (LNode.fromDisk d)) := by
        rw [StoreM.resolve, StoreM.loadNode, hcl, hl]
      rw [heq]
      refine ⟨rfl, ?_, LNode.fromDisk d, rfl,
        reprLinkB_disk_to_loaded hl hrep⟩
      intro p hp
      rcases List.mem_cons.mp hp with rfl | hp
      · exact ⟨d, hl, rfl⟩
      · exact hco p hp

theorem reprChildrenB_length {recs : List (Nat × DiskNodeM K V)} :
    ∀ {ns : List (Node K V)} {cls : List (Link K V)},
      reprChildrenB recs ns cls = true → ns.length = cls.length := by
  intro ns
  induction ns with
  | nil =>
    intro cls h
    cases cls with
    | nil => rfl
    | cons c cls2 =>
      rw [show reprChildrenB recs ([] : List (Node K V)) (c :: cls2) = false by
        rw [reprChildrenB] <;> simp] at h
      cases h
  | cons n ns2 ih =>
    intro cls h
    cases cls with
    | nil =>
      rw [show reprChildrenB recs (n :: ns2) ([] : List (Link K V)) = false by
        rw [reprChildrenB] <;> simp] at h
      cases h
    | cons c cls2 =>
      rw [reprChildrenB, Bool.and_eq_true] at h
      simp only [List.length_cons, ih h.2]

theorem reprChildrenB_getElem {recs : List (Nat × DiskNodeM K V)} :
    ∀ {ns : List (Node K V)} {cls : List (Link K V)} {i : Nat}
      {c : Link K V},
      reprChildrenB recs ns cls = true → cls[i]? = some c →
      ∃ n, ns[i]? = some n ∧ reprLinkB recs n c = true := by
  intro ns
  induction ns with
  | nil =>
    intro cls i c h hc
    cases cls with
    | nil => simp at hc
    | cons c0 cls2 =>
      rw [show reprChildrenB recs ([] : List (Node K V)) (c0 :: cls2) = false by
        rw [reprChildrenB] <;> simp] at h
      cases h
  | cons n ns2 ih =>
    intro cls i c h hc
    cases cls with
    | nil => simp at hc
    | cons c0 cls2 =>
      rw [reprChildrenB, Bool.and_eq_true] at h
      cases i with
      | zero =>
        simp only [List.getElem?_cons_zero] at hc
        cases hc
        exact ⟨n, by simp, h.1⟩
      | succ j =>
        simp only [List.getElem?_cons_succ] at hc ⊢
        exact ih h.2 hc

theorem Node.get_eq_leaf_miss {l : Nat} {ks : List K} {vs : List V} {k : K}
    {i : Nat} (hf : keyFind ks k = .inr i) :
    (Node.mk l ks vs ([] : List (Node K V))).get k = none := by
  rw [Node.get, hf]
  simp

end GetSpec

end FileMst

namespace FileMst

/-- Reading a represented tree through the store: with fuel at least the
tree's depth, a coherent cache and the representation in force, the
store-backed `get` returns exactly the pure `Node.get`, without touching
the records and keeping the cache coherent. -/
theorem LNode.getE_spec {K V : Type} [LinearOrder K] [DecidableEq V] :
    ∀ (fuel : Nat) (N : Node K V) (ln : LNode K V) (s : StoreM K V)
      (lo hi : Option K),
      Node.depth N ≤ fuel → N.wfb lo hi = true → s.cacheCoherent →
      reprLinkB s.records N (Link.loaded ln) = true →
      ∀ k, (LNode.getE fuel ln k s).1.records = s.records ∧
        (LNode.getE fuel ln k s).1.cacheCoherent ∧
        (LNode.getE fuel ln k s).2 = .ok (Node.get N k) := by
  intro fuel
  induction fuel with
  | zero =>
    intro N ln s lo hi hfuel
    exfalso
    cases N with
    | mk nl nks nvs ncs =>
      rw [show Node.depth (Node.mk nl nks nvs ncs)
          = 1 + Node.depthList ncs by rw [Node.depth]] at hfuel
      omega
  | succ fuel ih =>
    intro N ln s lo hi hfuel hwf hco hrep k
    cases N with
    | mk nl nks nvs ncs =>
      cases ln with
      | mk l ks vs cs hh =>
        rw [reprLinkB] at hrep
        rw [show resolveR s.records (Link.loaded (LNode.mk l ks vs cs hh))
            = some (LNode.mk l ks vs cs hh) from rfl] at hrep
        simp only [LNode.level, LNode.keys, LNode.values, LNode.children,
          Bool.and_eq_true, beq_iff_eq] at hrep
        obtain ⟨⟨⟨hl2, hk2⟩, hv2⟩, hch⟩ := hrep
        subst hl2
        subst hk2
        subst hv2
        cases hf : keyFind ks k with
        | inl i =>
          have heq : LNode.getE (fuel + 1) (LNode.mk l ks vs cs hh) k s
              = (s, .ok vs[i]?) := by
            rw [LNode.getE, hf]
          rw [heq, Node.get_eq_found hf]
          exact ⟨rfl, hco, rfl⟩
        | inr i =>
          by_cases hce : cs.isEmpty = true
          · obtain rfl : cs = [] := List.isEmpty_iff.mp hce
            obtain rfl : ncs = [] := reprChildrenB_nil_right hch
            have heq : LNode.getE (fuel + 1) (LNode.mk l ks vs [] hh) k s
                = (s, .ok none) := by
              rw [LNode.getE, hf]
              rfl
            rw [heq, Node.get_eq_leaf_miss hf]
            exact ⟨rfl, hco, rfl⟩
          · rw [Node.wfb_mk_iff] at hwf
            obtain ⟨hlen, hwch⟩ : ncs.length = ks.length + 1 ∧
                Node.wfChildren lo hi ks ncs = true := by
              rcases hwf.2.2 with ⟨h1, _⟩ | h
              · exfalso
                have := reprChildrenB_length hch
                rw [h1] at this
                simp only [List.length_nil] at this
                rw [List.isEmpty_iff] at hce
                exact hce (List.length_eq_zero.mp this.symm)
              · exact h
            have hilt : i < cs.length := by
              have h1 := keyFind_inr_le_length hf
              have h2 := reprChildrenB_length hch
              omega
            cases hcsi : cs[i]? with
            | none =>
              rw [List.getElem?_eq_none_iff] at hcsi
              omega
            | some link =>
              obtain ⟨n0, hn0, hrep0⟩ := reprChildrenB_getElem hch hcsi
              have hres := resolve_repr hrep0 hco
              obtain ⟨hr1, hr2, cnode, hok, hrepc⟩ := hres
              have hmem : n0 ∈ ncs := List.getElem?_mem hn0
              have hdep : Node.depth n0 ≤ fuel := by
                have hlt : Node.depth n0 < Node.depth (Node.mk l ks vs ncs) :=
                  Node.depth_child_lt hmem
                omega
              obtain ⟨lo2, hi2, hwf0⟩ := Node.wfChildren_mem_wf hwch hmem
              have hrepc2 : reprLinkB (StoreM.resolve s link).1.records n0
                  (Link.loaded cnode) = true := by
                rw [hr1]
                exact hrepc
              have hih := ih n0 cnode (StoreM.resolve s link).1 lo2 hi2
                hdep hwf0 hr2 hrepc2 k
              have heq : LNode.getE (fuel + 1) (LNode.mk l ks vs cs hh) k s
                  = LNode.getE fuel cnode k (StoreM.resolve s link).1 := by
                rw [LNode.getE, hf]
                split
                · rename_i j hj
                  cases hj
                · rename_i j hj
                  cases hj
                  rw [if_neg hce]
                  split
                  · rename_i hnone
                    rw [hcsi] at hnone
                    cases hnone
                  · rename_i lk hlk
                    rw [hcsi] at hlk
                    cases hlk
                    split
                    · rename_i s2 e hse
                      rw [hok] at hse
                      simp at hse
                    · rename_i s2 c2 hse
                      rw [hok] at hse
                      cases hse
                      rfl
              rw [heq, Node.get_eq_descend hf hn0]
              refine ⟨?_, hih.2.1, hih.2.2⟩
              rw [hih.1, hr1]

end FileMst

namespace FileMst

section C6Main

variable {K V : Type} [LinearOrder K] [DecidableEq V]

theorem cacheCoherent_mono {s s2 : StoreM K V}
    (h : s.cacheCoherent) (hc : s2.cache = s.cache)
    (hle : recsLE s.records s2.records) : s2.cacheCoherent := by
  intro p hp
  rw [hc] at hp
  obtain ⟨d, hd, he⟩ := h p hp
  exact ⟨d, hle _ _ hd, he⟩

/-- `get` on a tree whose root link represents the pure tree `N`
returns exactly the pure `Node.get`. -/
theorem TreeM.getE_repr (fuel : Nat) (t : TreeM K V) (N : Node K V)
    (hrep : reprLinkB t.store.records N t.root = true)
    (hco : t.store.cacheCoherent) (hwf : N.WF)
    (hfuel : Node.depth N ≤ fuel) :
    ∀ k, (TreeM.getE fuel t k).2 = .ok (Node.get N k) := by
  intro k
  obtain ⟨hr1, hr2, n, hok, hrepn⟩ := resolve_repr hrep hco
  rw [TreeM.getE]
  split
  · rename_i s1 e hse
    rw [hok] at hse
    simp at hse
  · rename_i s1 rn hse
    rw [hok] at hse
    cases hse
    have hspec := LNode.getE_spec fuel N n (StoreM.resolve t.store t.root).1
      none none hfuel hwf hr2 (by rw [hr1]; exact hrepn) k
    split
    · rename_i s2 r2 hg
      rw [hg] at hspec
      exact hspec.2.2

theorem TreeM.openFrom_meta {s : StoreM K V} (h0 : s.metaPage.1 ≠ 0)
    (hsz : s.size ≠ 0) :
    TreeM.openFrom s = ⟨Link.disk s.metaPage.1 s.metaPage.2,
      { s with cache := [], events := [] }, some s.metaPage⟩ := by
  have hrm : StoreM.readMetadata
      (({ s with cache := [], events := [] }) : StoreM K V)
      = some s.metaPage := by
    rw [StoreM.readMetadata]
    exact if_neg h0
  simp only [TreeM.openFrom, if_neg hsz]
  rw [hrm]

/-- Store-level postcondition of a commit from a consistent state: the
metadata page names exactly the returned pair, the invariants persist,
the returned offset is in the node region, and the records represent the
pure tree `N` both through the returned disk pair and through the
resulting root link. -/
theorem TreeM.commit_store_spec (encSize : DiskNodeM K V → Nat)
    (t : TreeM K V) (N : Node K V)
    (hrepr : reprLinkB t.store.records N t.root = true)
    (hco : t.store.cacheCoherent) (hrv : t.store.regionValid)
    (hmeta : ∀ lc, t.lastCommitted = some lc → t.store.metaPage = lc) :
    (TreeM.commit encSize t).1.store.metaPage
      = ((TreeM.commit encSize t).2.1, (TreeM.commit encSize t).2.2) ∧
    (TreeM.commit encSize t).1.store.cacheCoherent ∧
    (TreeM.commit encSize t).1.store.regionValid ∧
    PAGE_SIZE ≤ (TreeM.commit encSize t).2.1 ∧
    reprLinkB (TreeM.commit encSize t).1.store.records N
      (Link.disk (TreeM.commit encSize t).2.1 (TreeM.commit encSize t).2.2)
      = true ∧
    reprLinkB (TreeM.commit encSize t).1.store.records N
      (TreeM.commit encSize t).1.root = true := by
  have hfl := Link.flushRec_spec encSize t.root t.store N hrv hrepr
  have hpublish :
      ∀ u : TreeM K V, u = ⟨Link.disk (Link.flushRec encSize t.root t.store).2.1
          (Link.flushRec encSize t.root t.store).2.2,
        (((Link.flushRec encSize t.root t.store).1.writeMetadata
          (Link.flushRec encSize t.root t.store).2.1
          (Link.flushRec encSize t.root t.store).2.2).flushAll),
        some ((Link.flushRec encSize t.root t.store).2.1,
          (Link.flushRec encSize t.root t.store).2.2)⟩ →
      u.store.metaPage = ((Link.flushRec encSize t.root t.store).2.1,
        (Link.flushRec encSize t.root t.store).2.2) ∧
      u.store.cacheCoherent ∧
      u.store.regionValid ∧
      PAGE_SIZE ≤ (Link.flushRec encSize t.root t.store).2.1 ∧
      reprLinkB u.store.records N
        (Link.disk (Link.flushRec encSize t.root t.store).2.1
          (Link.flushRec encSize t.root t.store).2.2) = true ∧
      reprLinkB u.store.records N u.root = true := by
    intro u hu
    subst hu
    refine ⟨rfl, ?_, ?_, hfl.2.2.2.2.2.1, ?_, ?_⟩
    · exact cacheCoherent_mono hco
        (by exact hfl.2.2.2.1) (by exact hfl.2.2.1)
    · constructor
      · intro p hp
        have hb := (hfl.1.1 p (by exact hp))
        constructor
        · exact hb.1
        · calc p.1 < (Link.flushRec encSize t.root t.store).1.size := hb.2
            _ ≤ _ := Nat.le_max_left _ _
      · exact le_trans hfl.1.2 (Nat.le_max_left _ _)
    · exact hfl.2.2.2.2.2.2
    · exact hfl.2.2.2.2.2.2
  cases hl : t.lastCommitted with
  | none =>
    have heqc : TreeM.commit encSize t
        = (⟨Link.disk (Link.flushRec encSize t.root t.store).2.1
            (Link.flushRec encSize t.root t.store).2.2,
          (((Link.flushRec encSize t.root t.store).1.writeMetadata
            (Link.flushRec encSize t.root t.store).2.1
            (Link.flushRec encSize t.root t.store).2.2).flushAll),
          some ((Link.flushRec encSize t.root t.store).2.1,
            (Link.flushRec encSize t.root t.store).2.2)⟩,
        (Link.flushRec encSize t.root t.store).2.1,
        (Link.flushRec encSize t.root t.store).2.2) := by
      simp only [TreeM.commit, hl]
    rw [heqc]
    exact hpublish _ rfl
  | some lc =>
    by_cases hb : (lc.1 == (Link.flushRec encSize t.root t.store).2.1 &&
        Digest.beq lc.2 (Link.flushRec encSize t.root t.store).2.2) = true
    · have hb2 := hb
      simp only [Bool.and_eq_true, beq_iff_eq, Digest.beq_iff] at hb2
      have hlcv : lc = ((Link.flushRec encSize t.root t.store).2.1,
          (Link.flushRec encSize t.root t.store).2.2) := by
        obtain ⟨h1, h2⟩ := hb2
        exact Prod.ext h1 h2
      have heqc : TreeM.commit encSize t
          = ({ t with store := (Link.flushRec encSize t.root t.store).1 },
            (Link.flushRec encSize t.root t.store).2.1,
            (Link.flushRec encSize t.root t.store).2.2) := by
        simp [TreeM.commit, hl, hb]
      rw [heqc]
      refine ⟨?_, ?_, hfl.1, hfl.2.2.2.2.2.1, hfl.2.2.2.2.2.2, ?_⟩
      · rw [show ({ t with store := (Link.flushRec encSize t.root t.store).1 }
            : TreeM K V).store.metaPage
            = (Link.flushRec encSize t.root t.store).1.metaPage from rfl]
        rw [hfl.2.2.2.2.1, hmeta lc hl, hlcv]
      · exact cacheCoherent_mono hco hfl.2.2.2.1 hfl.2.2.1
      · exact reprLinkB_mono hfl.2.2.1 N t.root hrepr
    · have heqc : TreeM.commit encSize t
          = (⟨Link.disk (Link.flushRec encSize t.root t.store).2.1
              (Link.flushRec encSize t.root t.store).2.2,
            (((Link.flushRec encSize t.root t.store).1.writeMetadata
              (Link.flushRec encSize t.root t.store).2.1
              (Link.flushRec encSize t.root t.store).2.2).flushAll),
            some ((Link.flushRec encSize t.root t.store).2.1,
              (Link.flushRec encSize t.root t.store).2.2)⟩,
          (Link.flushRec encSize t.root t.store).2.1,
          (Link.flushRec encSize t.root t.store).2.2) := by
        simp [TreeM.commit, hl, hb]
      rw [heqc]
      exact hpublish _ rfl

end C6Main

end FileMst

namespace FileMst

/-- C6.  Persistence round-trip: for a tree in a consistent store state
(root represents a well-formed pure tree `N` over the records, records
confined to the node region — true of every store opened from a path —
cache coherent, metadata page matching the commit tracker), after
`commit()` returns `(offset, digest)`, reopening the same file yields a
tree whose `root_hash()` equals `digest` and whose `get(k)` returns, for
every key, the same value as both the committed tree and the pure tree
`N` (so per-key results are identical to the committed tree's). -/
theorem claim_C6_persistence_roundtrip {K V : Type} [LinearOrder K]
    [DecidableEq V] (encSize : DiskNodeM K V → Nat) (t : TreeM K V)
    (N : Node K V) (fuel : Nat)
    (hrepr : reprLinkB t.store.records N t.root = true)
    (hco : t.store.cacheCoherent) (hrv : t.store.regionValid)
    (hmeta : ∀ lc, t.lastCommitted = some lc → t.store.metaPage = lc)
    (hwf : N.WF) (hfuel : Node.depth N ≤ fuel) :
    (TreeM.openFrom (TreeM.commit encSize t).1.store).rootHash
      = (TreeM.commit encSize t).2.2 ∧
    ∀ k, (TreeM.getE fuel
        (TreeM.openFrom (TreeM.commit encSize t).1.store) k).2
        = .ok (Node.get N k) ∧
      (TreeM.getE fuel ((TreeM.commit encSize t).1) k).2
        = .ok (Node.get N k) := by
  obtain ⟨hm, hcoh, hrv2, hpg, hrd, hrr⟩ :=
    TreeM.commit_store_spec encSize t N hrepr hco hrv hmeta
  have hsz4 : (4096 : Nat) ≤ (TreeM.commit encSize t).1.store.size := hrv2.2
  have hpg4 : (4096 : Nat) ≤ (TreeM.commit encSize t).2.1 := hpg
  have hsz : (TreeM.commit encSize t).1.store.size ≠ 0 := by omega
  have h0 : (TreeM.commit encSize t).1.store.metaPage.1 ≠ 0 := by
    rw [hm]
    show (TreeM.commit encSize t).2.1 ≠ 0
    omega
  have hopen := TreeM.openFrom_meta h0 hsz
  refine ⟨?_, ?_⟩
  · rw [hopen, hm]
    rfl
  · intro k
    refine ⟨?_, TreeM.getE_repr fuel _ N hrr hcoh hwf hfuel k⟩
    rw [hopen]
    refine TreeM.getE_repr fuel _ N ?_ ?_ hwf hfuel k
    · show reprLinkB (TreeM.commit encSize t).1.store.records N
        (Link.disk ((TreeM.commit encSize t).1.store.metaPage).1
          ((TreeM.commit encSize t).1.store.metaPage).2) = true
      rw [hm]
      exact hrd
    · intro p hp
      exact absurd hp (List.not_mem_nil p)

end FileMst

namespace FileMst

/-- A store as `Store::open` leaves a fresh file: length `PAGE_SIZE`,
no records, zero metadata. -/
def exStoreO : StoreM Nat Nat := ⟨PAGE_SIZE, [], (0, Digest.zero), [], []⟩

/-- A tree opened from a fresh file and holding the entry `(1, 10)`. -/
def exTreeD : TreeM Nat Nat :=
  (TreeM.insertE (fun _ => 0) 9 (TreeM.openFrom exStoreO) 1 10).1

/-- The pure tree holding `(1, 10)` at level 0. -/
def exN : Node Nat Nat := Node.mk 0 [1] [10] [Node.empty 0, Node.empty 0]

theorem exTreeD_eq :
    exTreeD = ⟨.loaded (.mk 0 [1] [10]
        [.loaded (LNode.empty 0), .loaded (LNode.empty 0)]
        (.node 0 1 [(.zero, some (1, 10)), (.zero, none)])),
      ⟨PAGE_SIZE, [], (0, .zero), [], []⟩, none⟩ := by
  rfl

/-- Witness for C6 at a concrete input: committing the one-entry tree
opened from a fresh file and reopening the file reproduces the digest
and every per-key `get` result. -/
theorem claim_C6_persistence_roundtrip_witness :
    (reprLinkB exTreeD.store.records exN exTreeD.root = true ∧
     exTreeD.store.cacheCoherent ∧ exTreeD.store.regionValid ∧
     (∀ lc, exTreeD.lastCommitted = some lc →
        exTreeD.store.metaPage = lc) ∧
     exN.WF ∧ Node.depth exN ≤ 9) ∧
    ((TreeM.openFrom (TreeM.commit (fun _ => 60) exTreeD).1.store).rootHash
        = (TreeM.commit (fun _ => 60) exTreeD).2.2 ∧
      ∀ k, (TreeM.getE 9
          (TreeM.openFrom (TreeM.commit (fun _ => 60) exTreeD).1.store) k).2
          = .ok (Node.get exN k) ∧
        (TreeM.getE 9 ((TreeM.commit (fun _ => 60) exTreeD).1) k).2
          = .ok (Node.get exN k)) := by
  have h1 : reprLinkB exTreeD.store.records exN exTreeD.root = true := by
    rw [exTreeD_eq]
    simp [reprLinkB, reprChildrenB, resolveR, LNode.level, LNode.keys,
      LNode.values, LNode.children, LNode.empty, exN, Node.empty]
  have h2 : exTreeD.store.cacheCoherent := by
    rw [exTreeD_eq]
    intro p hp
    simp at hp
  have h3 : exTreeD.store.regionValid := by
    rw [exTreeD_eq]
    exact ⟨fun p hp => absurd hp (by simp), le_refl _⟩
  have h4 : ∀ lc, exTreeD.lastCommitted = some lc →
      exTreeD.store.metaPage = lc := by
    rw [exTreeD_eq]
    intro lc h
    cases h
  have h5 : exN.WF := by
    simp [exN, Node.WF, Node.wfb, Node.wfChildren, sortedB, lbB, ubB,
      Node.empty]
  have h6 : Node.depth exN ≤ 9 := by
    simp [exN, Node.depth, Node.depthList, Node.empty]
  exact ⟨⟨h1, h2, h3, h4, h5, h6⟩,
    claim_C6_persistence_roundtrip (fun _ => 60) exTreeD exN 9
      h1 h2 h3 h4 h5 h6⟩

end FileMst
